import Mathlib

/-! r3-commons: a shallow embedding of the string library

The development embeds the C++ sources of `src/string`, and `readLine` of
`src/io`, as executable Lean definitions and proves properties of them.

Conventions of the embedding.

* A `char` is a byte, held as a `Nat`.  A character string passed to a function
  (`const char*`) is the list of the bytes that precede its terminator; the
  array behind it is that list followed by one `0` byte.
* An `int` is an `Int`.  Arithmetic on the counters of `R3CString` is exact
  (signed overflow is undefined in C++ and stays outside the development); the
  one conversion the code makes from a pointer difference to `int` is modelled by
  `toInt32`.
* A function that can throw, or whose execution leaves the behaviour that C++
  defines (reading outside an array, reading storage that was never written, a
  negative size), returns an `Except Fault _`.  A call that throws before it
  writes to the object leaves the object as it was.
* A `char*` into the pool of `R3CStringBlock` is the index of a block and an
  offset in it (`PoolPtr`).  The array of a string stored outside the pool is an
  entry of the field `alone`, which stands for the heap: the class has no member
  that refers to it.
-/

namespace R3C

/-! ## Faults -/

/-- Ways in which a call does not return a value. -/
inductive Fault where
  /-- `throw R3CERR_ILLEGALARGUMENT`. -/
  | illegalArgument
  /-- `throw R3CERR_OUTOFRANGE`. -/
  | outOfRange
  /-- `throw R3CERR_STR_EMPTYSTACK`. -/
  | emptyStack
  /-- `throw R3CERR_IO_STREAMNOTOPEN`. -/
  | streamNotOpen
  /-- The execution reads or writes outside an array, reads storage (or a
  local variable) that was never written, or passes a negative size. -/
  | undefinedBehaviour
  /-- The execution repeats a loop state for ever. -/
  | diverges
  /-- The iteration bound of the embedding was used up (never the case for
  the bounds chosen below). -/
  | fuel
  deriving DecidableEq, Repr

/-- Equality of results is decidable. -/
instance decEqExcept {ε α : Type} [DecidableEq ε] [DecidableEq α] :
    DecidableEq (Except ε α)
  | .ok a, .ok b => if h : a = b then isTrue (by rw [h]) else isFalse (by simp [h])
  | .error a, .error b => if h : a = b then isTrue (by rw [h]) else isFalse (by simp [h])
  | .ok _, .error _ => isFalse (by simp)
  | .error _, .ok _ => isFalse (by simp)

/-- Value of `(int)d` for a pointer difference `d`: reduction to 32 bits,
two's complement. -/
def toInt32 (d : Int) : Int :=
  (d + 2147483648) % 4294967296 - 2147483648

/-! ## Character strings -/

/-- Bytes of a string literal. -/
def bytes (s : String) : List Nat :=
  s.toList.map Char.toNat

/-- Read `a[i]` in the array behind the character string `a`: the bytes of
`a`, then the terminator at index `a.length`. -/
def cread (a : List Nat) (i : Int) : Except Fault Nat :=
  if i < 0 then .error .undefinedBehaviour
  else if i < a.length then .ok (a.getD i.toNat 0)
  else if i = a.length then .ok 0
  else .error .undefinedBehaviour

/-- Loop of `strchr`: `n` bounds the number of bytes still to read. -/
def strchrLoop (a : List Nat) (c : Nat) : Nat → Int → Except Fault (Option Int)
  | 0, _ => .error .undefinedBehaviour
  | n + 1, i => do
    let x ← cread a i
    if x = c then pure (some i)
    else if x = 0 then pure none
    else strchrLoop a c n (i + 1)

/-- Model of `strchr(a + i, c)`, the result being an index into `a` or `none`
for `NULL`.  The terminator counts as part of the string. -/
def strchr (a : List Nat) (i : Int) (c : Nat) : Except Fault (Option Int) :=
  strchrLoop a c (a.length + 1) i

/-- Loop of `strlen`. -/
def strlenLoop (a : List Nat) : Nat → Int → Int → Except Fault Int
  | 0, _, _ => .error .undefinedBehaviour
  | n + 1, i, k => do
    let x ← cread a i
    if x = 0 then pure k else strlenLoop a n (i + 1) (k + 1)

/-- Model of `(int)strlen(a + i)`. -/
def strlenAt (a : List Nat) (i : Int) : Except Fault Int :=
  strlenLoop a (a.length + 1) i 0

/-! ## `r3c-string.cpp`: passing and reaching characters -/

/-- Loop of `r3cStrPassChar(targetStr, passChar, charCount)`; `curChar` is the
byte at `result`, `n` is `charCount - charLoop`. -/
def r3cStrPassCharLoop (a : List Nat) (passChar : Nat) :
    Nat → Int → Nat → Except Fault Int
  | 0, result, _ => pure result
  | n + 1, result, curChar =>
    if curChar ≠ passChar ∧ curChar ≠ 0 then do
      let next ← cread a (result + 1)
      r3cStrPassCharLoop a passChar n (result + 1) next
    else pure result

/-- `r3cStrPassChar(const char* targetStr, char passChar, int charCount)` for
a non-null `targetStr`, the pointer being `a + i`. -/
def r3cStrPassChar (a : List Nat) (i : Int) (passChar : Nat) (charCount : Int) :
    Except Fault Int :=
  if charCount < 0 then .error .illegalArgument
  else if charCount = 0 then pure i
  else do
    let curChar ← cread a i
    r3cStrPassCharLoop a passChar charCount.toNat i curChar

/-- Loop of `r3cStrReachChar`. -/
def r3cStrReachCharLoop (a : List Nat) (reachChar : Nat) :
    Nat → Int → Except Fault Int
  | 0, _ => .error .undefinedBehaviour
  | n + 1, result => do
    let curChar ← cread a result
    if curChar ≠ reachChar ∧ curChar ≠ 0 then
      r3cStrReachCharLoop a reachChar n (result + 1)
    else pure result

/-- `r3cStrReachChar(const char* targetStr, char reachChar)` for a non-null
`targetStr`, the pointer being `a + i`. -/
def r3cStrReachChar (a : List Nat) (i : Int) (reachChar : Nat) : Except Fault Int :=
  r3cStrReachCharLoop a reachChar (a.length + 1) i

/-! ## `r3c-string.cpp`: the filename pattern matcher -/

/-- Loop of `r3cQmarkMatch`: `str` is `a + i`, `pattern` is `b + j`, and `n`
iterations remain.  `63` is `?`. -/
def r3cQmarkMatchLoop (a : List Nat) (b : List Nat) :
    Nat → Int → Int → Except Fault Bool
  | 0, _, _ => pure true
  | n + 1, i, j => do
    let patternChar ← cread b j
    let strChar ← cread a i
    if patternChar = 0 ∨ strChar = 0 then pure false
    else if patternChar ≠ 63 ∧ patternChar ≠ strChar then pure false
    else r3cQmarkMatchLoop a b n (i + 1) (j + 1)

/-- `r3cQmarkMatch(const char* str, const char* pattern, int charCount)` with
`str = a + i` and `pattern = b + j`. -/
def r3cQmarkMatch (a : List Nat) (i : Int) (b : List Nat) (j : Int)
    (charCount : Int) : Except Fault Bool :=
  r3cQmarkMatchLoop a b charCount.toNat i j

/-- The `do ... while ( !done )` loop of `r3cFindQmarkMatch`, at most `n`
iterations.  Every pointer of the loop points into the array of `str`. -/
def r3cFindQmarkMatchLoop (a : List Nat) (str nonQmarkPatternPtr : Int)
    (nonQmarkCount charCount : Int) (matchChar : Nat) :
    Nat → Int → Except Fault Int
  | 0, _ => .error .diverges
  | n + 1, searchStrPtr => do
    match ← strchr a searchStrPtr matchChar with
    | none => pure 0
    | some found =>
      let done ← r3cQmarkMatch a found a nonQmarkPatternPtr nonQmarkCount
      if done then pure ((found - str) + charCount)
      else
        (r3cFindQmarkMatchLoop a str nonQmarkPatternPtr nonQmarkCount charCount
          matchChar n found)

/-- `r3cFindQmarkMatch(const char* str, const char* pattern, int charCount)`
with `str = a + i` and `pattern` the element `j` of the pattern array.  The
function applies `r3cStrPassChar` to `str` and subtracts `pattern` from the
resulting pointer; `delta` is the address of `a` minus the address of the pattern
array, so that the difference is `delta + nonQmarkPatternPtr - j`.

A second iteration of the loop starts from the pointer the first one found,
where `strchr` finds the same byte again: the loop state repeats, and two
iterations decide whether the loop ends. -/
def r3cFindQmarkMatch (delta : Int) (a : List Nat) (i j : Int) (charCount : Int) :
    Except Fault Int := do
  let nonQmarkPatternPtr ← r3cStrPassChar a i 63 charCount
  let qmarkCount := toInt32 (delta + nonQmarkPatternPtr - j)
  if qmarkCount = charCount then pure charCount
  else
    let nonQmarkCount := charCount - qmarkCount
    let matchChar ← cread a nonQmarkPatternPtr
    if matchChar = 0 then pure 0
    else
      (r3cFindQmarkMatchLoop a i nonQmarkPatternPtr nonQmarkCount charCount
        matchChar 2 (i + qmarkCount))

/-- The `while ( !done )` loop of `r3cPathMatch`, at most `n` iterations.
`str` is the subject, `pattern` the pattern, `strPtr` and `patternPtr` index
them, and `result` is `none` while the local variable is unassigned.  `42` is
`*`. -/
def r3cPathMatchLoop (delta : Int) (str pattern : List Nat) :
    Nat → Int → Int → Option Bool → Except Fault (Option Bool)
  | 0, _, _, _ => .error .fuel
  | n + 1, strPtr, patternPtr, result => do
    match ← strchr pattern patternPtr 42 with
    | none =>
      let charCount ← strlenAt str strPtr
      let r ← r3cQmarkMatch str strPtr pattern patternPtr charCount
      pure (some r)
    | some starPtr =>
      if starPtr ≠ patternPtr then
        let charCount := starPtr - patternPtr
        let r ← r3cQmarkMatch str strPtr pattern patternPtr charCount
        if r then
          r3cPathMatchLoop delta str pattern n (strPtr + charCount)
            (patternPtr + charCount) (some r)
        else pure (some r)
      else
        let patternPtr := patternPtr + 1
        let starPtr ← r3cStrReachChar pattern patternPtr 42
        if starPtr ≠ patternPtr then
          let charCount ← r3cFindQmarkMatch delta str strPtr patternPtr
            (starPtr - patternPtr)
          if charCount > 0 then
            r3cPathMatchLoop delta str pattern n (strPtr + charCount)
              (patternPtr + charCount) result
          else pure result
        else r3cPathMatchLoop delta str pattern n strPtr patternPtr result

/-- `r3cPathMatch(const char* str, const char* pattern)` for non-null
arguments.  `delta` is the address of the array of `str` minus the address of
the array of `pattern`.  Every iteration that does not end the loop moves
`patternPtr` forward, so `pattern.length + 2` iterations suffice.  Returning
the local `result` before any assignment to it is undefined. -/
def r3cPathMatch (delta : Int) (str pattern : List Nat) : Except Fault Bool := do
  match ← r3cPathMatchLoop delta str pattern (pattern.length + 2) 0 0 none with
  | some r => pure r
  | none => .error .undefinedBehaviour

/-! ## `R3CString.cpp`: storage and the C library calls on it -/

/-- Array behind a buffer: one cell for each `char`, `none` for a cell that
was never written. -/
abbrev Storage := List (Option Nat)

/-- Result of `new char[n]`: `n` cells, none of them written. -/
def allocChars (n : Int) : Storage :=
  List.replicate n.toNat none

/-- Write the bytes `bs` into the cells `off, off + 1, ...` of `m`. -/
def writeAt (m : Storage) (off : Int) (bs : List Nat) : Except Fault Storage :=
  if 0 ≤ off ∧ off + bs.length ≤ m.length then
    .ok (m.take off.toNat ++ bs.map some ++ m.drop (off.toNat + bs.length))
  else .error .undefinedBehaviour

/-- Characters of a character string up to its terminator. -/
def chars (src : List Nat) : List Nat :=
  src.takeWhile (fun c => c ≠ 0)

/-- Model of `strlen(src)` for a character string argument. -/
def strlen (src : List Nat) : Int :=
  (chars src).length

/-- Model of `strcpy(m + off, src)`: the characters of `src` and the
terminator. -/
def strcpy (m : Storage) (off : Int) (src : List Nat) : Except Fault Storage :=
  writeAt m off (chars src ++ [0])

/-- Characters held by cells, read up to the first terminator. -/
def cellsStr : Storage → Except Fault (List Nat)
  | [] => .error .undefinedBehaviour
  | none :: _ => .error .undefinedBehaviour
  | some c :: rest =>
    if c = 0 then .ok [] else (cellsStr rest).map (fun cs => c :: cs)

/-- The character string that starts at cell `off` of `m`. -/
def storageStr (m : Storage) (off : Int) : Except Fault (List Nat) :=
  if off < 0 then .error .undefinedBehaviour else cellsStr (m.drop off.toNat)

/-- Model of `strncpy(m + off, src + start, n)`: `n` bytes are written, the
characters of the source first and `0` bytes after its terminator.  The size
is unsigned: a negative `n` asks for more bytes than any array holds. -/
def strncpy (m : Storage) (off : Int) (src : List Nat) (start n : Int) :
    Except Fault Storage :=
  if n < 0 then .error .undefinedBehaviour
  else if n = 0 then writeAt m off []
  else if start < 0 ∨ (src.length : Int) < start then .error .undefinedBehaviour
  else
    let cs := (chars (src.drop start.toNat)).take n.toNat
    writeAt m off (cs ++ List.replicate (n.toNat - cs.length) 0)

/-- Model of `memmove(m + dst, m + src, n)` inside one array.  Cells never
written are copied as such. -/
def memmove (m : Storage) (dst src n : Int) : Except Fault Storage :=
  if n < 0 then .error .undefinedBehaviour
  else if 0 ≤ dst ∧ dst + n ≤ m.length ∧ 0 ≤ src ∧ src + n ≤ m.length then
    .ok (m.take dst.toNat ++ (m.drop src.toNat).take n.toNat
      ++ m.drop (dst.toNat + n.toNat))
  else .error .undefinedBehaviour

/-- Write one byte: `m[i] = c`. -/
def setCell (m : Storage) (i : Int) (c : Nat) : Except Fault Storage :=
  writeAt m i [c]

/-! ## `R3CString.cpp`: the class -/

/-- Member variables of `R3CString`. -/
structure R3CString where
  /-- `char* str`, the array it points to. -/
  str : Storage
  /-- `int curLength`. -/
  curLength : Int
  /-- `int maxLength`. -/
  maxLength : Int
  deriving DecidableEq, Repr

namespace R3CString

/-- `void R3CString::initMaxLength(int capacity)`, as the new `maxLength`.
`%` is the remainder of C++. -/
def initMaxLength (capacity : Int) : Int :=
  if capacity < 127 then 127
  else capacity + (64 - Int.tmod capacity 64 - 1)

/-- `R3CString::R3CString()`. -/
def new : Except Fault R3CString := do
  let str ← setCell (allocChars 128) 0 0
  pure { str := str, curLength := 0, maxLength := 127 }

/-- `R3CString::R3CString(int capacity)`. -/
def newCapacity (capacity : Int) : Except Fault R3CString :=
  if capacity < 0 then .error .illegalArgument
  else do
    let str ← setCell (allocChars (127 + 1)) 0 0
    pure { str := str, curLength := 0, maxLength := 127 }

/-- `R3CString::R3CString(const char* sourceStr)`; `none` is `NULL`. -/
def newFromChars (sourceStr : Option (List Nat)) : Except Fault R3CString :=
  match sourceStr with
  | some src => do
    let curLength := strlen src
    let maxLength := initMaxLength curLength
    let str ← strcpy (allocChars (maxLength + 1)) 0 src
    pure { str := str, curLength := curLength, maxLength := maxLength }
  | none => do
    let str ← setCell (allocChars (127 + 1)) 0 0
    pure { str := str, curLength := 0, maxLength := 127 }

/-- `R3CString::R3CString(const char* sourceStr, int capacity)`. -/
def newFromCharsCapacity (sourceStr : Option (List Nat)) (capacity : Int) :
    Except Fault R3CString :=
  if capacity < 0 then .error .illegalArgument
  else
    let curLength : Int := match sourceStr with
      | some src => strlen src
      | none => 0
    let maxLength := if capacity < curLength then curLength else capacity
    match sourceStr with
    | some src => do
      let str ← strcpy (allocChars (maxLength + 1)) 0 src
      pure { str := str, curLength := curLength, maxLength := maxLength }
    | none => do
      let str ← setCell (allocChars (maxLength + 1)) 0 0
      pure { str := str, curLength := curLength, maxLength := maxLength }

/-- `R3CString::R3CString(R3CString* sourceStr)`. -/
def newFromString (sourceStr : Option R3CString) : Except Fault R3CString :=
  match sourceStr with
  | none => .error .illegalArgument
  | some src => do
    let cs ← storageStr src.str 0
    let str ← strcpy (allocChars (src.maxLength + 1)) 0 cs
    pure { str := str, curLength := src.curLength, maxLength := src.maxLength }

/-- `char* R3CString::getChars()`, read as a character string. -/
def getChars (b : R3CString) : Except Fault (List Nat) :=
  storageStr b.str 0

/-- `int R3CString::getLength()`. -/
def getLength (b : R3CString) : Int :=
  b.curLength

/-- `int R3CString::getCapacity()`. -/
def getCapacity (b : R3CString) : Int :=
  b.maxLength

/-- `void R3CString::ensureCapacity(int newLength)`. -/
def ensureCapacity (b : R3CString) (newLength : Int) : Except Fault R3CString :=
  if newLength ≤ b.maxLength then pure b
  else do
    let doubled := b.maxLength * 2
    let maxLength := if doubled < newLength then newLength else doubled
    let remainder := Int.tmod maxLength 16
    let maxLength := maxLength + (16 - remainder - 1)
    let cs ← storageStr b.str 0
    let str ← strcpy (allocChars (maxLength + 1)) 0 cs
    pure { str := str, curLength := b.curLength, maxLength := maxLength }

/-- `int R3CString::clear()`. -/
def clear (b : R3CString) : Except Fault (Int × R3CString) := do
  let deleteLength := b.curLength
  let str ← setCell b.str 0 0
  pure (deleteLength, { b with str := str, curLength := 0 })

/-- `int R3CString::set(const char* sourceStr)`. -/
def set (b : R3CString) (sourceStr : Option (List Nat)) :
    Except Fault (Int × R3CString) :=
  match sourceStr with
  | none => do
    let (_, b) ← b.clear
    pure (b.curLength, b)
  | some src => do
    let newStrLength := strlen src
    let b ← b.ensureCapacity newStrLength
    let str ← strcpy b.str 0 src
    pure (newStrLength, { b with str := str, curLength := newStrLength })

/-- `int R3CString::set(R3CString* sourceStr)`. -/
def setString (b : R3CString) (sourceStr : Option R3CString) :
    Except Fault (Int × R3CString) :=
  match sourceStr with
  | none => .error .illegalArgument
  | some src => do
    let b ← b.ensureCapacity src.curLength
    let cs ← storageStr src.str 0
    let str ← strcpy b.str 0 cs
    pure (src.curLength, { b with str := str, curLength := src.curLength })

/-- `int R3CString::append(char charToAppend)`. -/
def appendChar (b : R3CString) (charToAppend : Nat) :
    Except Fault (Int × R3CString) :=
  if charToAppend = 0 then .error .illegalArgument
  else do
    let b ← b.ensureCapacity (b.curLength + 1)
    let str ← setCell b.str b.curLength charToAppend
    let str ← setCell str (b.curLength + 1) 0
    pure (1, { b with str := str, curLength := b.curLength + 1 })

/-- `int R3CString::append(const char* sourceStr)`. -/
def append (b : R3CString) (sourceStr : Option (List Nat)) :
    Except Fault (Int × R3CString) :=
  match sourceStr with
  | none => pure (0, b)
  | some src => do
    let sourceStrLength := strlen src
    let b ← b.ensureCapacity (b.curLength + sourceStrLength)
    let str ← strcpy b.str b.curLength src
    pure (sourceStrLength, { b with str := str, curLength := b.curLength + sourceStrLength })

/-- `int R3CString::append(const char* sourceStr, int startPos, int charCount)`. -/
def appendSub (b : R3CString) (sourceStr : Option (List Nat)) (startPos charCount : Int) :
    Except Fault (Int × R3CString) :=
  match sourceStr with
  | none => pure (0, b)
  | some src => do
    let sourceStrLength := strlen src
    let charCount :=
      if startPos + charCount > sourceStrLength then sourceStrLength - startPos
      else charCount
    let b ← b.ensureCapacity (b.curLength + charCount)
    let str ← strncpy b.str b.curLength src startPos charCount
    let str ← setCell str (b.curLength + charCount) 0
    pure (charCount, { b with str := str, curLength := b.curLength + charCount })

/-- `int R3CString::append(R3CString* sourceStr)`. -/
def appendString (b : R3CString) (sourceStr : Option R3CString) :
    Except Fault (Int × R3CString) :=
  match sourceStr with
  | none => .error .illegalArgument
  | some src => do
    let sourceStrLength := src.curLength
    let b ← b.ensureCapacity (b.curLength + sourceStrLength)
    let cs ← storageStr src.str 0
    let str ← strcpy b.str b.curLength cs
    pure (sourceStrLength, { b with str := str, curLength := b.curLength + sourceStrLength })

/-- `int R3CString::insert(int pos, char charToInsert)`. -/
def insertChar (b : R3CString) (pos : Int) (charToInsert : Nat) :
    Except Fault (Int × R3CString) :=
  if charToInsert = 0 then .error .illegalArgument
  else if pos < 0 ∨ pos > b.curLength then .error .outOfRange
  else do
    let b ← b.ensureCapacity (b.curLength + 1)
    let str ← memmove b.str (pos + 1) pos (b.curLength - pos + 1)
    let str ← setCell str pos charToInsert
    pure (1, { b with str := str, curLength := b.curLength + 1 })

/-- `int R3CString::insert(int pos, const char* sourceStr)`. -/
def insert (b : R3CString) (pos : Int) (sourceStr : Option (List Nat)) :
    Except Fault (Int × R3CString) :=
  if pos < 0 ∨ pos > b.curLength then .error .outOfRange
  else
    match sourceStr with
    | none => pure (0, b)
    | some src => do
      let sourceStrLen := strlen src
      let b ← b.ensureCapacity (b.curLength + sourceStrLen)
      let charsToMove := b.curLength - pos + 1
      let str ← memmove b.str (pos + sourceStrLen) pos charsToMove
      let str ← strncpy str pos src 0 sourceStrLen
      pure (sourceStrLen, { b with str := str, curLength := b.curLength + sourceStrLen })

/-- `int R3CString::insert(int pos, const char* sourceStr, int startPos,
int charCount)`. -/
def insertSub (b : R3CString) (pos : Int) (sourceStr : Option (List Nat))
    (startPos charCount : Int) : Except Fault (Int × R3CString) :=
  if pos < 0 ∨ pos > b.curLength then .error .outOfRange
  else if startPos < 0 then .error .illegalArgument
  else
    match sourceStr with
    | none => pure (0, b)
    | some src =>
      let sourceStrLen := strlen src
      if startPos ≥ sourceStrLen then pure (0, b)
      else do
        let charCount :=
          if startPos + charCount > sourceStrLen then sourceStrLen - startPos
          else charCount
        let b ← b.ensureCapacity (b.curLength + charCount)
        let charsToMove := b.curLength - pos + 1
        let str ← memmove b.str (pos + charCount) pos charsToMove
        let str ← strncpy str pos src startPos charCount
        pure (charCount, { b with str := str, curLength := b.curLength + charCount })

/-- `int R3CString::insert(int pos, R3CString* sourceStr)`.  `strncpy` reads the
source up to its terminator and fills the rest of `curLength` bytes with `0`. -/
def insertString (b : R3CString) (pos : Int) (sourceStr : Option R3CString) :
    Except Fault (Int × R3CString) :=
  if pos < 0 ∨ pos > b.curLength then .error .outOfRange
  else
    match sourceStr with
    | none => .error .illegalArgument
    | some src => do
      let b ← b.ensureCapacity (b.curLength + src.curLength)
      let charsToMove := b.curLength - pos + 1
      let str ← memmove b.str (pos + src.curLength) pos charsToMove
      let cs ← if src.curLength ≤ 0 then pure [] else storageStr src.str 0
      let str ← strncpy str pos cs 0 src.curLength
      pure (src.curLength, { b with str := str, curLength := b.curLength + src.curLength })

/-- `int R3CString::deleteCharAt(int pos)`. -/
def deleteCharAt (b : R3CString) (pos : Int) : Except Fault (Int × R3CString) :=
  if pos < 0 ∨ pos ≥ b.curLength then .error .outOfRange
  else do
    let str ← memmove b.str pos (pos + 1) (b.curLength - pos + 1)
    pure (1, { b with str := str, curLength := b.curLength - 1 })

/-- `int R3CString::deleteChars(int startPos, int endPos)`. -/
def deleteChars (b : R3CString) (startPos endPos : Int) :
    Except Fault (Int × R3CString) :=
  if startPos < 0 ∨ endPos > b.curLength then .error .outOfRange
  else if endPos ≤ startPos then pure (0, b)
  else do
    let deleteLength := endPos - startPos
    let charsToShift := b.curLength - startPos - deleteLength + 1
    let str ← memmove b.str startPos (startPos + deleteLength) charsToShift
    pure (deleteLength, { b with str := str, curLength := b.curLength - deleteLength })

/-- The loop `while ( strchr(trimChars, *curPtr) != NULL ) curPtr++` of
`trimLeft`, over the cells from `curPtr` on; `k` is `curPtr - str`.  `strchr`
finds every character of `trimChars` and also its terminator. -/
def trimLeftLoop (trimChars : List Nat) : Storage → Int → Except Fault Int
  | [], _ => .error .undefinedBehaviour
  | none :: _, _ => .error .undefinedBehaviour
  | some c :: rest, k =>
    if c ∈ chars trimChars ∨ c = 0 then trimLeftLoop trimChars rest (k + 1)
    else pure k

/-- `int R3CString::trimLeft(const char* trimChars)`. -/
def trimLeft (b : R3CString) (trimChars : Option (List Nat)) :
    Except Fault (Int × R3CString) :=
  match trimChars with
  | none => .error .illegalArgument
  | some trimChars =>
    if b.curLength = 0 then pure (0, b)
    else do
      let result ← trimLeftLoop trimChars b.str 0
      if result > 0 then
        let str ← memmove b.str 0 result (b.curLength - result + 1)
        pure (result, { b with str := str, curLength := b.curLength - result })
      else pure (0, b)

/-- Invariant of the data model: `0 <= curLength <= maxLength` and the
terminator is stored at `str[curLength]`. -/
def Invariant (b : R3CString) : Prop :=
  0 ≤ b.curLength ∧ b.curLength ≤ b.maxLength ∧
    b.str.get? b.curLength.toNat = some (some 0)

instance (b : R3CString) : Decidable (Invariant b) := by
  unfold Invariant
  infer_instance

end R3CString

/-! ## `R3CStringBlock.cpp`: the block arena -/

/-- A `char*` into a pool block: the index of the block in `memBlock` and the
offset in it.  Pool blocks are separate arrays of `bytesPerBlock` bytes that
are never freed or moved while the arena lives. -/
structure PoolPtr where
  /-- Index of the block in `memBlock`. -/
  block : Int
  /-- Offset of the byte in the block. -/
  offset : Int
  deriving DecidableEq, Repr

/-- A `char*` returned by `addString`. -/
inductive StrPtr where
  /-- `NULL`. -/
  | null
  /-- Pointer into a pool block. -/
  | pool (p : PoolPtr)
  /-- Pointer to the start of the `n`-th array that `insertString` allocated
  outside the pool. -/
  | alone (n : Nat)
  deriving DecidableEq, Repr

/-- Member variables of `R3CStringBlock`, and the arrays it allocated outside
the pool. -/
structure R3CStringBlock where
  /-- `int bytesPerBlock`. -/
  bytesPerBlock : Int
  /-- `int memBlockAlloc`. -/
  memBlockAlloc : Int
  /-- `char** memBlock`, the array of block pointers; `none` is `NULL`. -/
  memBlock : List (Option Storage)
  /-- `int currMemBlock`. -/
  currMemBlock : Int
  /-- `char* nextStrPtr`. -/
  nextStrPtr : PoolPtr
  /-- `int bytesUsedInBlock`. -/
  bytesUsedInBlock : Int
  /-- Arrays allocated by `insertString` for strings stored alone, in the
  order of allocation.  The object keeps no pointer to them. -/
  alone : List Storage
  deriving DecidableEq, Repr

/-- Result of `memset(p, 0, n)` on a whole array of `n` bytes. -/
def zeroBlock (n : Int) : Storage :=
  List.replicate n.toNat (some 0)

/-- Read `m[i]` in an array of block pointers. -/
def readPtr (m : List (Option Storage)) (i : Int) : Except Fault (Option Storage) :=
  if 0 ≤ i ∧ i < m.length then .ok (m.getD i.toNat none)
  else .error .undefinedBehaviour

/-- The block that `m[i]` points to; a `NULL` entry has none. -/
def readBlock (m : List (Option Storage)) (i : Int) : Except Fault Storage := do
  match ← readPtr m i with
  | some blk => pure blk
  | none => .error .undefinedBehaviour

namespace R3CStringBlock

/-- `MAX_KB_PER_BLOCK`. -/
def MAX_KB_PER_BLOCK : Int := 64

/-- `ALLOC_BLOCK_PTR_SIZE`. -/
def ALLOC_BLOCK_PTR_SIZE : Nat := 16

/-- `void R3CStringBlock::init(int kbPerBlock)`.  The first statement assigns
to the parameter, which is not read afterwards; `bytesPerBlock` was set by the
constructor before the call. -/
def init (b : R3CStringBlock) (kbPerBlock : Int) : R3CStringBlock :=
  let _kbPerBlock := if kbPerBlock > MAX_KB_PER_BLOCK then MAX_KB_PER_BLOCK else kbPerBlock
  let memBlock : List (Option Storage) := List.replicate ALLOC_BLOCK_PTR_SIZE none
  let memBlock := memBlock.set 0 (some (zeroBlock b.bytesPerBlock))
  { b with memBlock := memBlock, nextStrPtr := ⟨0, 0⟩ }

/-- The member initialisers of both constructors, for a given
`bytesPerBlock`: `memBlockAlloc(ALLOC_BLOCK_PTR_SIZE)`, `memBlock(NULL)`,
`currMemBlock(0)`, `nextStrPtr(NULL)`, `bytesUsedInBlock(0)`.  The two null
pointers are set by `init` before they are read. -/
def members (bytesPerBlock : Int) : R3CStringBlock :=
  { bytesPerBlock := bytesPerBlock, memBlockAlloc := ALLOC_BLOCK_PTR_SIZE, memBlock := [],
    currMemBlock := 0, nextStrPtr := ⟨0, 0⟩, bytesUsedInBlock := 0, alone := [] }

/-- `R3CStringBlock::R3CStringBlock()`. -/
def new : R3CStringBlock :=
  init (members 4096) 4

/-- `R3CStringBlock::R3CStringBlock(int kbPerBlock)`; `kbPerBlock << 10` is
`kbPerBlock * 1024`. -/
def newKb (kbPerBlock : Int) : Except Fault R3CStringBlock :=
  if kbPerBlock < 1 then .error .illegalArgument
  else pure (init (members (kbPerBlock * 1024)) kbPerBlock)

/-- `void R3CStringBlock::ensureBlockCapacity(int charsToAlloc)`. -/
def ensureBlockCapacity (b : R3CStringBlock) (charsToAlloc : Int) :
    Except Fault R3CStringBlock :=
  if b.bytesUsedInBlock + charsToAlloc ≥ b.bytesPerBlock then do
    let currMemBlock := b.currMemBlock + 1
    let (memBlock, memBlockAlloc) :=
      if currMemBlock ≥ b.memBlockAlloc then
        (b.memBlock ++ List.replicate b.memBlockAlloc.toNat none, b.memBlockAlloc * 2)
      else (b.memBlock, b.memBlockAlloc)
    let _ ← readPtr memBlock currMemBlock
    let memBlock := memBlock.set currMemBlock.toNat (some (zeroBlock b.bytesPerBlock))
    pure { b with memBlockAlloc := memBlockAlloc, memBlock := memBlock,
                  currMemBlock := currMemBlock, nextStrPtr := ⟨currMemBlock, 0⟩,
                  bytesUsedInBlock := 0 }
  else pure b

/-- `bool R3CStringBlock::shouldAllocAlone(int charsToAlloc)`;
`bytesPerBlock >> 1` is `bytesPerBlock / 2`. -/
def shouldAllocAlone (b : R3CStringBlock) (charsToAlloc : Int) : Bool :=
  decide (charsToAlloc > b.bytesPerBlock / 2)

/-- `char* R3CStringBlock::insertString(const char* str, int charsToAlloc)`. -/
def insertString (b : R3CStringBlock) (str : List Nat) (charsToAlloc : Int) :
    Except Fault (StrPtr × R3CStringBlock) :=
  if b.shouldAllocAlone charsToAlloc then do
    let result ← strcpy (allocChars charsToAlloc) 0 str
    pure (.alone b.alone.length, { b with alone := b.alone ++ [result] })
  else do
    let b ← b.ensureBlockCapacity charsToAlloc
    let blk ← readBlock b.memBlock b.nextStrPtr.block
    let blk ← strcpy blk b.nextStrPtr.offset str
    let memBlock := b.memBlock.set b.nextStrPtr.block.toNat (some blk)
    pure (.pool b.nextStrPtr,
      { b with memBlock := memBlock,
               nextStrPtr := ⟨b.nextStrPtr.block, b.nextStrPtr.offset + charsToAlloc⟩,
               bytesUsedInBlock := b.bytesUsedInBlock + charsToAlloc })

/-- `char* R3CStringBlock::addString(const char* str)`; `none` is `NULL`. -/
def addString (b : R3CStringBlock) (str : Option (List Nat)) :
    Except Fault (StrPtr × R3CStringBlock) :=
  match str with
  | none => pure (.null, b)
  | some str => b.insertString str (strlen str + 1)

/-- `char* R3CStringBlock::addString(const char* str, int maxLength)`. -/
def addStringMax (b : R3CStringBlock) (str : Option (List Nat)) (maxLength : Int) :
    Except Fault (StrPtr × R3CStringBlock) :=
  match str with
  | none => pure (.null, b)
  | some str =>
    let charsToAlloc := strlen str
    let charsToAlloc := if maxLength > charsToAlloc then maxLength else charsToAlloc
    let charsToAlloc := charsToAlloc + 1
    b.insertString str charsToAlloc

/-- The character string stored at a pointer that `addString` returned. -/
def readStr (b : R3CStringBlock) (h : StrPtr) : Except Fault (List Nat) :=
  match h with
  | .null => .error .undefinedBehaviour
  | .pool p => do
    let blk ← readBlock b.memBlock p.block
    storageStr blk p.offset
  | .alone n =>
    match b.alone[n]? with
    | some a => storageStr a 0
    | none => .error .undefinedBehaviour

/-- The byte `j` of pool block `i`, if the block is allocated and has one. -/
def cellAt (b : R3CStringBlock) (i j : Nat) : Option (Option Nat) :=
  match b.memBlock[i]? with
  | some (some blk) => blk[j]?
  | _ => none

end R3CStringBlock

/-! ## `R3CStringBlockStack.cpp`: the arena with stack levels -/

/-- Member variables of `R3CStringBlockStack`, on top of those of
`R3CStringBlock`. -/
structure R3CStringBlockStack extends R3CStringBlock where
  /-- `int stackLevel`. -/
  stackLevel : Int
  /-- `char** stackStartPtr`; `none` is `NULL`. -/
  stackStartPtr : List (Option PoolPtr)
  /-- `int stackStartPtrAlloc`. -/
  stackStartPtrAlloc : Int
  deriving DecidableEq, Repr

namespace R3CStringBlockStack

/-- `ALLOC_STACK_SIZE`. -/
def ALLOC_STACK_SIZE : Nat := 64

/-- `R3CStringBlockStack::init()`, applied to the constructed base object. -/
def init (b : R3CStringBlock) : R3CStringBlockStack :=
  let stackStartPtr : List (Option PoolPtr) := List.replicate ALLOC_STACK_SIZE none
  let stackStartPtr := stackStartPtr.set 0 (some b.nextStrPtr)
  { toR3CStringBlock := b, stackLevel := 0, stackStartPtr := stackStartPtr,
    stackStartPtrAlloc := ALLOC_STACK_SIZE }

/-- `R3CStringBlockStack::R3CStringBlockStack()`. -/
def new : R3CStringBlockStack :=
  init R3CStringBlock.new

/-- `R3CStringBlockStack::R3CStringBlockStack(int kbPerBlock)`. -/
def newKb (kbPerBlock : Int) : Except Fault R3CStringBlockStack := do
  let b ← R3CStringBlock.newKb kbPerBlock
  pure (init b)

/-- `int R3CStringBlockStack::getStackLevel()`. -/
def getStackLevel (s : R3CStringBlockStack) : Int :=
  s.stackLevel

/-- `addString(const char* str)`, inherited from `R3CStringBlock`. -/
def addString (s : R3CStringBlockStack) (str : Option (List Nat)) :
    Except Fault (StrPtr × R3CStringBlockStack) := do
  let (h, b) ← s.toR3CStringBlock.addString str
  pure (h, { s with toR3CStringBlock := b })

/-- `addString(const char* str, int maxLength)`, inherited from
`R3CStringBlock`. -/
def addStringMax (s : R3CStringBlockStack) (str : Option (List Nat)) (maxLength : Int) :
    Except Fault (StrPtr × R3CStringBlockStack) := do
  let (h, b) ← s.toR3CStringBlock.addStringMax str maxLength
  pure (h, { s with toR3CStringBlock := b })

/-- `int R3CStringBlockStack::push()`. -/
def push (s : R3CStringBlockStack) : Except Fault (Int × R3CStringBlockStack) :=
  let stackLevel := s.stackLevel + 1
  let (stackStartPtr, stackStartPtrAlloc) :=
    if stackLevel ≥ s.stackStartPtrAlloc then
      (s.stackStartPtr ++ List.replicate s.stackStartPtrAlloc.toNat none,
        s.stackStartPtrAlloc * 2)
    else (s.stackStartPtr, s.stackStartPtrAlloc)
  if 0 ≤ stackLevel ∧ stackLevel < stackStartPtr.length then
    pure (stackLevel,
      { s with stackLevel := stackLevel,
               stackStartPtr := stackStartPtr.set stackLevel.toNat (some s.nextStrPtr),
               stackStartPtrAlloc := stackStartPtrAlloc })
  else .error .undefinedBehaviour

/-- The loop `while ( !isFound )` of `pop`, with `foundInMemBlock = n`.  The
test `ptrToFind >= foundInMemBlockPtr && ptrToFind < foundInMemBlockPtr +
bytesPerBlock` holds when `ptrToFind` points into block `n`.  After block 0 the
loop would read `memBlock[-1]`. -/
def popSearch (bytesPerBlock : Int) (ptrToFind : PoolPtr) :
    Nat → List (Option Storage) → Except Fault (List (Option Storage) × Int)
  | n, memBlock => do
    let _ ← readBlock memBlock n
    if ptrToFind.block = n ∧ 0 ≤ ptrToFind.offset ∧ ptrToFind.offset < bytesPerBlock then
      pure (memBlock, n)
    else
      let memBlock := memBlock.set n (some (zeroBlock bytesPerBlock))
      match n with
      | 0 => .error .undefinedBehaviour
      | k + 1 => popSearch bytesPerBlock ptrToFind k memBlock

/-- `int R3CStringBlockStack::pop()`. -/
def pop (s : R3CStringBlockStack) : Except Fault (Int × R3CStringBlockStack) :=
  if s.stackLevel ≤ 0 then .error .emptyStack
  else if ¬ (s.stackLevel < s.stackStartPtr.length) then .error .undefinedBehaviour
  else
    match s.stackStartPtr.getD s.stackLevel.toNat none with
    | none => .error .undefinedBehaviour
    | some ptrToFind =>
      if s.currMemBlock < 0 then .error .undefinedBehaviour
      else do
        let (memBlock, foundInMemBlock) ←
          popSearch s.bytesPerBlock ptrToFind s.currMemBlock.toNat s.memBlock
        let blk ← readBlock memBlock foundInMemBlock
        let bytesToClear := s.bytesPerBlock - ptrToFind.offset
        let blk ← writeAt blk ptrToFind.offset (List.replicate bytesToClear.toNat 0)
        let memBlock := memBlock.set foundInMemBlock.toNat (some blk)
        pure (s.stackLevel - 1,
          { s with memBlock := memBlock, currMemBlock := foundInMemBlock,
                   nextStrPtr := ptrToFind,
                   bytesUsedInBlock := s.bytesPerBlock - bytesToClear,
                   stackLevel := s.stackLevel - 1,
                   stackStartPtr := s.stackStartPtr.set s.stackLevel.toNat none })

end R3CStringBlockStack

/-! ## Invariants of the arena -/

/-- Order of positions in the pool: by block, then by offset. -/
def PoolPtr.le (p q : PoolPtr) : Prop :=
  p.block < q.block ∨ (p.block = q.block ∧ p.offset ≤ q.offset)

instance (p q : PoolPtr) : Decidable (PoolPtr.le p q) := by
  unfold PoolPtr.le
  infer_instance

namespace R3CStringBlock

/-- Invariant of `R3CStringBlock`: the pointer array has `memBlockAlloc`
entries, the blocks `0 .. currMemBlock` are allocated with `bytesPerBlock`
bytes each, the cursor `nextStrPtr` is at offset `bytesUsedInBlock` of block
`currMemBlock`, strictly inside the block, and the bytes of the current block
from the cursor on are `0`. -/
structure Inv (b : R3CStringBlock) : Prop where
  hB : 0 < b.bytesPerBlock
  hlen : (b.memBlock.length : Int) = b.memBlockAlloc
  hcur0 : 0 ≤ b.currMemBlock
  hcur : b.currMemBlock < b.memBlockAlloc
  hblk : ∀ i : Nat, (i : Int) ≤ b.currMemBlock →
    ∃ blk, b.memBlock[i]? = some (some blk) ∧ (blk.length : Int) = b.bytesPerBlock
  hptr : b.nextStrPtr = ⟨b.currMemBlock, b.bytesUsedInBlock⟩
  hu0 : 0 ≤ b.bytesUsedInBlock
  hu : b.bytesUsedInBlock < b.bytesPerBlock
  hzero : ∀ j : Nat, b.bytesUsedInBlock ≤ j → (j : Int) < b.bytesPerBlock →
    b.cellAt b.currMemBlock.toNat j = some (some 0)

/-- States of an `R3CStringBlock` reached from a constructor by `addString`
calls that return. -/
inductive Reachable : R3CStringBlock → Prop where
  | new : Reachable R3CStringBlock.new
  | newKb (kbPerBlock : Int) (b : R3CStringBlock) :
      R3CStringBlock.newKb kbPerBlock = .ok b → Reachable b
  | addString (b : R3CStringBlock) (str : Option (List Nat)) (h : StrPtr)
      (b1 : R3CStringBlock) :
      Reachable b → b.addString str = .ok (h, b1) → Reachable b1
  | addStringMax (b : R3CStringBlock) (str : Option (List Nat)) (maxLength : Int)
      (h : StrPtr) (b1 : R3CStringBlock) :
      Reachable b → b.addStringMax str maxLength = .ok (h, b1) → Reachable b1

end R3CStringBlock

/-! ## Calls of `addString` and what they reserve -/

/-- A call of `addString` with a character string. -/
inductive AddCall where
  /-- `addString(str)`; `none` is `NULL`. -/
  | str (s : Option (List Nat))
  /-- `addString(str, maxLength)`. -/
  | strMax (s : Option (List Nat)) (maxLength : Int)
  deriving DecidableEq, Repr

/-- The `charsToAlloc` that the call passes to `insertString` for the string
`s`: `strlen(s) + 1`, or `max(strlen(s), maxLength) + 1`. -/
def AddCall.charsToAlloc : AddCall → List Nat → Int
  | .str _, s => strlen s + 1
  | .strMax _ maxLength, s => (if maxLength > strlen s then maxLength else strlen s) + 1

/-- The string argument of the call. -/
def AddCall.arg : AddCall → Option (List Nat)
  | .str s => s
  | .strMax s _ => s

namespace R3CStringBlock

/-- One call of `addString`. -/
def addCall (b : R3CStringBlock) : AddCall → Except Fault (StrPtr × R3CStringBlock)
  | .str s => b.addString s
  | .strMax s maxLength => b.addStringMax s maxLength

/-- Calls of `addString` one after the other; the result lists the pointers
that were returned, each with the `charsToAlloc` of its call. -/
def addCalls (b : R3CStringBlock) :
    List AddCall → Except Fault (List (StrPtr × Int) × R3CStringBlock)
  | [] => pure ([], b)
  | call :: calls => do
    let (h, b1) ← b.addCall call
    let (hs, b2) ← b1.addCalls calls
    pure ((h, call.charsToAlloc (call.arg.getD [])) :: hs, b2)

/-- The call that returned `h` reserved exactly `n` bytes: for a pointer into
the pool the cursor of the state after the call is `n` bytes behind `h`; for a
string stored alone the array allocated by the call has `n` bytes. -/
def Reserved (b b1 : R3CStringBlock) (h : StrPtr) (n : Int) : Prop :=
  match h with
  | .null => False
  | .pool p =>
    b1.nextStrPtr = ⟨p.block, p.offset + n⟩ ∧ b1.currMemBlock = p.block ∧
      b1.bytesUsedInBlock = p.offset + n
  | .alone k =>
    k = b.alone.length ∧ ∃ a, b1.alone = b.alone ++ [a] ∧ (a.length : Int) = n

/-- The cursor of `b` is not behind the cursor of `b1`. -/
def cursorLe (b b1 : R3CStringBlock) : Prop :=
  b.currMemBlock < b1.currMemBlock ∨
    (b.currMemBlock = b1.currMemBlock ∧ b.bytesUsedInBlock ≤ b1.bytesUsedInBlock)

/-- The position `(i, j)` of the pool lies before the cursor of `b`. -/
def Before (b : R3CStringBlock) (i j : Nat) : Prop :=
  (i : Int) < b.currMemBlock ∨ ((i : Int) = b.currMemBlock ∧ (j : Int) < b.bytesUsedInBlock)

/-- Two regions of the pool, each given by its start and its number of bytes,
have no byte in common. -/
def Disjoint (p : PoolPtr) (n : Int) (q : PoolPtr) (k : Int) : Prop :=
  p.block ≠ q.block ∨ p.offset + n ≤ q.offset ∨ q.offset + k ≤ p.offset

end R3CStringBlock

namespace R3CStringBlockStack

/-- One call of `addString` on the arena with stack levels. -/
def addCall (s : R3CStringBlockStack) (call : AddCall) :
    Except Fault (StrPtr × R3CStringBlockStack) := do
  let (h, b) ← s.toR3CStringBlock.addCall call
  pure (h, { s with toR3CStringBlock := b })

/-- Calls of `addString` one after the other on the arena with stack levels;
the result lists the pointers that were returned, each with the `charsToAlloc`
of its call. -/
def addCalls (s : R3CStringBlockStack) (calls : List AddCall) :
    Except Fault (List (StrPtr × Int) × R3CStringBlockStack) := do
  let (hs, b) ← s.toR3CStringBlock.addCalls calls
  pure (hs, { s with toR3CStringBlock := b })

/-- The cursor of the arena as a position in the pool. -/
def cursor (s : R3CStringBlockStack) : PoolPtr :=
  ⟨s.currMemBlock, s.bytesUsedInBlock⟩

/-- Invariant of `R3CStringBlockStack`: the invariant of the arena, a level
inside the array of recorded positions, and for every level up to the current
one a recorded position inside a block, not behind the cursor, the positions
being in order. -/
structure Inv (s : R3CStringBlockStack) : Prop where
  hb : s.toR3CStringBlock.Inv
  hlev0 : 0 ≤ s.stackLevel
  hslen : (s.stackStartPtr.length : Int) = s.stackStartPtrAlloc
  hlev : s.stackLevel < s.stackStartPtrAlloc
  hrec : ∀ i : Nat, (i : Int) ≤ s.stackLevel →
    ∃ p, s.stackStartPtr[i]? = some (some p) ∧ 0 ≤ p.block ∧ 0 ≤ p.offset ∧
      p.offset < s.bytesPerBlock ∧ PoolPtr.le p s.cursor
  hmono : ∀ i j : Nat, i ≤ j → (j : Int) ≤ s.stackLevel → ∀ p q,
    s.stackStartPtr[i]? = some (some p) → s.stackStartPtr[j]? = some (some q) →
    PoolPtr.le p q

/-- States of an `R3CStringBlockStack` reached from a constructor by calls of
`addString`, `push` and `pop` that return. -/
inductive Reachable : R3CStringBlockStack → Prop where
  | new : Reachable R3CStringBlockStack.new
  | newKb (kbPerBlock : Int) (s : R3CStringBlockStack) :
      R3CStringBlockStack.newKb kbPerBlock = .ok s → Reachable s
  | addString (s : R3CStringBlockStack) (str : Option (List Nat)) (h : StrPtr)
      (s1 : R3CStringBlockStack) :
      Reachable s → s.addString str = .ok (h, s1) → Reachable s1
  | addStringMax (s : R3CStringBlockStack) (str : Option (List Nat)) (maxLength : Int)
      (h : StrPtr) (s1 : R3CStringBlockStack) :
      Reachable s → s.addStringMax str maxLength = .ok (h, s1) → Reachable s1
  | push (s : R3CStringBlockStack) (level : Int) (s1 : R3CStringBlockStack) :
      Reachable s → s.push = .ok (level, s1) → Reachable s1
  | pop (s : R3CStringBlockStack) (level : Int) (s1 : R3CStringBlockStack) :
      Reachable s → s.pop = .ok (level, s1) → Reachable s1

end R3CStringBlockStack

/-! ## `R3CString.cpp`: comparing, and buffers that hold a string -/

/-- Model of `strcmp(a, b)` on the characters of two strings: the difference
of the first two bytes that differ, a string that has ended counting as the
byte `0`.  The C library fixes only the sign of the result. -/
def strcmp : List Nat → List Nat → Int
  | [], [] => 0
  | [], y :: _ => 0 - (y : Int)
  | x :: _, [] => (x : Int)
  | x :: xs, y :: ys => if x = y then strcmp xs ys else (x : Int) - (y : Int)

namespace R3CString

/-- `int R3CString::compare(const char* str)`; `none` is `NULL`. -/
def compare (b : R3CString) (str : Option (List Nat)) : Except Fault Int :=
  match str with
  | none => pure (if b.curLength = 0 then 0 else 1)
  | some s => do
    let cs ← storageStr b.str 0
    pure (strcmp cs (chars s))

/-- The buffer holds the string `cs`: its array has `maxLength + 1` cells and
reads as `cs` up to the first terminator, and `curLength` is the length of
`cs`. -/
def Holds (b : R3CString) (cs : List Nat) : Prop :=
  (b.str.length : Int) = b.maxLength + 1 ∧ b.getChars = .ok cs ∧ b.curLength = cs.length

end R3CString

/-! ## `r3c-string.cpp`: trimming -/

/-- Read `m[i]` in an array of cells. -/
def readCell (m : Storage) (i : Int) : Except Fault Nat :=
  if i < 0 then .error .undefinedBehaviour
  else
    match m[i.toNat]? with
    | some (some c) => pure c
    | _ => .error .undefinedBehaviour

/-- The loop `while ( !done )` of `r3cStrTrim`, with `curPtr = str + k`.  The
result is `curPtr - str` when the loop ends: `-1` when `curPtr` was moved
before `str`.  `strchr` finds every character of `trimChars` and also its
terminator. -/
def r3cStrTrimBackLoop (trimChars : List Nat) (m : Storage) : Nat → Except Fault Int
  | 0 => do
    let curChar ← readCell m 0
    if curChar ∈ chars trimChars ∨ curChar = 0 then pure (-1) else pure 0
  | k + 1 => do
    let curChar ← readCell m (k + 1 : Nat)
    if curChar ∈ chars trimChars ∨ curChar = 0 then r3cStrTrimBackLoop trimChars m k
    else pure ((k + 1 : Nat) : Int)

/-- `int r3cStrTrim(char* str, const char* trimChars)`; `str` points to the
first cell of the array `m`, and `none` is `NULL`.  The result is the value
returned and the array after the call. -/
def r3cStrTrim (str : Option Storage) (trimChars : Option (List Nat)) :
    Except Fault (Int × Option Storage) :=
  match str, trimChars with
  | some m, some trimChars => do
    let cs ← storageStr m 0
    let strLength : Int := cs.length
    if strLength = 0 then pure (0, some m)
    else do
      let endPtr := strLength - 1
      let curPtr ← r3cStrTrimBackLoop trimChars m endPtr.toNat
      let (m, result, strLength) ←
        (if curPtr < endPtr then do
          let m ← setCell m (curPtr + 1) 0
          let result := endPtr - curPtr
          pure (m, result, strLength - result)
        else pure (m, (0 : Int), strLength) : Except Fault (Storage × Int × Int))
      let first ← readCell m 0
      let curPtr ← if first ≠ 0 then R3CString.trimLeftLoop trimChars m 0 else pure 0
      if curPtr > 0 then do
        let charsTrimmed := curPtr
        let m ← memmove m 0 curPtr (strLength - charsTrimmed + 1)
        pure (result + charsTrimmed, some m)
      else pure (result, some m)
  | _, _ => pure (0, str)

/-- What the documentation asks of `r3cStrTrim`: the string `cs` without its
longest leading run and its longest trailing run of characters of
`trimChars`. -/
def trimmed (trimChars cs : List Nat) : List Nat :=
  (cs.dropWhile (fun c => decide (c ∈ chars trimChars))).rdropWhile
    (fun c => decide (c ∈ chars trimChars))

/-! ## The cursor of the arena -/

namespace R3CStringBlock

/-- The cursor of `b` sits at offset `bytesUsedInBlock` of block
`currMemBlock`, which is allocated with `bytesPerBlock` bytes, and
`0 <= bytesUsedInBlock < bytesPerBlock`. -/
def CursorInside (b : R3CStringBlock) : Prop :=
  b.nextStrPtr = ⟨b.currMemBlock, b.bytesUsedInBlock⟩ ∧ 0 ≤ b.currMemBlock ∧
    0 ≤ b.bytesUsedInBlock ∧ b.bytesUsedInBlock < b.bytesPerBlock ∧
    ∃ blk, b.memBlock[b.currMemBlock.toNat]? = some (some blk) ∧
      (blk.length : Int) = b.bytesPerBlock

/-- The call `call` of `addString` on `b` returns, and when it returns a
pointer `p` into the pool, the bytes reserved for the request, from `p.offset`
up to the new cursor, lie in the block that is current after the call, below
its end. -/
def WritesInside (b : R3CStringBlock) (call : AddCall) : Prop :=
  ∃ h b1, b.addCall call = .ok (h, b1) ∧ b1.CursorInside ∧
    ∀ p, h = .pool p → ∃ s, call.arg = some s ∧ p.block = b1.currMemBlock ∧
      0 ≤ p.offset ∧ p.offset + call.charsToAlloc s = b1.bytesUsedInBlock

end R3CStringBlock

/-! ## `r3c-string.cpp`: passing over characters -/

/-- Loop of `r3cStrPassChar(const char* targetStr, char passChar)`, the
overload without `charCount`; `curChar` is the byte at `result`.  Every
iteration moves `result` forward and the terminator ends the loop, so the
bound is not used up. -/
def r3cStrPassChar2Loop (a : List Nat) (passChar : Nat) :
    Nat → Int → Nat → Except Fault Int
  | 0, _, _ => .error .fuel
  | n + 1, result, curChar =>
    if curChar ≠ passChar ∧ curChar ≠ 0 then do
      let next ← cread a (result + 1)
      r3cStrPassChar2Loop a passChar n (result + 1) next
    else pure result

/-- `r3cStrPassChar(const char* targetStr, char passChar)` for a non-null
`targetStr`, the pointer being `a + i`. -/
def r3cStrPassChar2 (a : List Nat) (i : Int) (passChar : Nat) : Except Fault Int := do
  let curChar ← cread a i
  r3cStrPassChar2Loop a passChar (a.length + 1) i curChar

/-- Loop `while ( strchr(passChars, *result) != NULL ) result++` of
`r3cStrPassChars(const char* targetStr, const char* passChars)`. -/
def r3cStrPassCharsLoop (a passChars : List Nat) : Nat → Int → Except Fault Int
  | 0, _ => .error .fuel
  | n + 1, result => do
    let c ← cread a result
    match ← strchr passChars 0 c with
    | some _ => r3cStrPassCharsLoop a passChars n (result + 1)
    | none => pure result

/-- `r3cStrPassChars(const char* targetStr, const char* passChars)` for
non-null arguments, `targetStr` being `a + i`.  A read behind the terminator
of `a` ends the loop with a fault, so `a.length + 2` iterations suffice. -/
def r3cStrPassChars (a : List Nat) (i : Int) (passChars : List Nat) : Except Fault Int :=
  r3cStrPassCharsLoop a passChars (a.length + 2) i

/-- Loop of `r3cStrPassChars(const char* targetStr, char firstPassChar, char
lastPassChar)`; `curChar` is the byte at `result`. -/
def r3cStrPassCharsRangeLoop (a : List Nat) (firstPassChar lastPassChar : Nat) :
    Nat → Int → Nat → Except Fault Int
  | 0, _, _ => .error .fuel
  | n + 1, result, curChar =>
    if curChar ≥ firstPassChar ∧ curChar ≤ lastPassChar ∧ curChar ≠ 0 then do
      let next ← cread a (result + 1)
      r3cStrPassCharsRangeLoop a firstPassChar lastPassChar n (result + 1) next
    else pure result

/-- `r3cStrPassChars(const char* targetStr, char firstPassChar, char
lastPassChar)` for a non-null `targetStr`, the pointer being `a + i`.  The
bounds are compared as byte values; for bounds below 128, such as `0` and `9`,
the comparison of `char` values gives the same result. -/
def r3cStrPassCharsRange (a : List Nat) (i : Int) (firstPassChar lastPassChar : Nat) :
    Except Fault Int :=
  if firstPassChar > lastPassChar then .error .illegalArgument
  else do
    let curChar ← cread a i
    r3cStrPassCharsRangeLoop a firstPassChar lastPassChar (a.length + 1) i curChar

/-! ## `R3CFormatParser.cpp` -/

/-- The values of `dataType`: `R3C_FORMAT_LITERAL`, `R3C_FORMAT_INT`,
`R3C_FORMAT_FLOAT`, `R3C_FORMAT_STRING`, `R3C_FORMAT_POINTER`. -/
inductive FormatType where
  | literal
  | int
  | float
  | string
  | pointer
  deriving DecidableEq, Repr

/-- `struct R3CFormatPiece`. -/
structure R3CFormatPiece where
  /-- `int startPos`. -/
  startPos : Int
  /-- `int charCount`. -/
  charCount : Int
  /-- `int dataType`. -/
  dataType : FormatType
  deriving DecidableEq, Repr

/-- Member variables of `R3CFormatParser` that `parse` uses. -/
structure R3CFormatParser where
  /-- `const char* formatString`; `none` is `NULL`. -/
  formatString : Option (List Nat)
  /-- `int piecesAlloc`. -/
  piecesAlloc : Int
  /-- `int piecesSet`. -/
  piecesSet : Int
  /-- `R3CFormatPiece* pieces`, the array; `none` is an element never
  written. -/
  pieces : List (Option R3CFormatPiece)
  /-- `char stringDelimiter`. -/
  stringDelimiter : Nat
  deriving DecidableEq, Repr

namespace R3CFormatParser

/-- `R3CFormatParser::R3CFormatParser()`. -/
def new : R3CFormatParser :=
  R3CFormatParser.mk none 16 0 (List.replicate 16 none) 0

/-- `void R3CFormatParser::ensurePieceCapacity()`. -/
def ensurePieceCapacity (p : R3CFormatParser) : R3CFormatParser :=
  if p.piecesSet ≥ p.piecesAlloc then
    { p with piecesAlloc := p.piecesAlloc * 2,
             pieces := p.pieces ++ List.replicate p.piecesAlloc.toNat none }
  else p

/-- `passFlags(const char* strPtr)`, with `strPtr = a + i`. -/
def passFlags (a : List Nat) (i : Int) : Except Fault Int :=
  r3cStrPassChars a i (bytes "-+# ")

/-- `passNumber(const char* strPtr)`; `48` and `57` are the digits `0` and
`9`. -/
def passNumber (a : List Nat) (i : Int) : Except Fault Int :=
  r3cStrPassCharsRange a i 48 57

/-- `passPrecision(const char* strPtr)`; `46` is the dot.  After `result++` the
code assigns `this->passNumber(strPtr)` to `result`. -/
def passPrecision (a : List Nat) (i : Int) : Except Fault Int := do
  let c ← cread a i
  if c = 46 then passNumber a i else pure i

/-- `passSize(const char* strPtr)`; `108` is the letter `l`. -/
def passSize (a : List Nat) (i : Int) : Except Fault Int := do
  let c ← cread a i
  if c = 108 then pure (i + 1) else pure i

/-- `passConversion(const char* strPtr)`. -/
def passConversion (a : List Nat) (i : Int) : Except Fault Int := do
  let result := i + 1
  let result ← passFlags a result
  let result ← passNumber a result
  let result ← passPrecision a result
  passSize a result

/-- `int R3CFormatParser::resolveFormatType(char curChar)`. -/
def resolveFormatType (curChar : Nat) : FormatType :=
  if curChar ∈ bytes "dicCuxXo" then .int
  else if curChar ∈ bytes "fgGeE" then .float
  else if curChar ∈ bytes "s" then .string
  else if curChar ∈ bytes "p" then .pointer
  else .literal

/-- Write the three members of `pieces[piecesSet]`. -/
def setPiece (p : R3CFormatParser) (piece : R3CFormatPiece) : Except Fault R3CFormatParser :=
  if 0 ≤ p.piecesSet ∧ p.piecesSet < p.pieces.length then
    pure { p with pieces := p.pieces.set p.piecesSet.toNat (some piece) }
  else .error .undefinedBehaviour

/-- The loop `while ( !done )` of `parse`; `strPtr` is an index into the format
string `a`, and `37` is `%`.  Every iteration that does not end the loop moves
`strPtr` forward. -/
def parseLoop (a : List Nat) : Nat → Int → R3CFormatParser → Except Fault R3CFormatParser
  | 0, _, _ => .error .fuel
  | n + 1, strPtr, p => do
    let percentPtr ← strchr a strPtr 37
    if percentPtr ≠ some strPtr then
      let p := p.ensurePieceCapacity
      match percentPtr with
      | none => do
        let charCount ← strlenAt a strPtr
        let p ← p.setPiece ⟨strPtr, charCount, .literal⟩
        pure { p with piecesSet := p.piecesSet + 1 }
      | some q => do
        let p ← p.setPiece ⟨strPtr, q - strPtr, .literal⟩
        parseLoop a n q { p with piecesSet := p.piecesSet + 1 }
    else do
      let conversionPtr ← passConversion a strPtr
      let p := p.ensurePieceCapacity
      let c ← cread a conversionPtr
      let charCount := (conversionPtr - strPtr) + 1
      let charCount :=
        if c = 37 ∧ conversionPtr = strPtr + 1 then charCount - 1 else charCount
      let p ← p.setPiece ⟨strPtr, charCount, resolveFormatType c⟩
      let strPtr := conversionPtr + 1
      let p := { p with piecesSet := p.piecesSet + 1 }
      let next ← cread a strPtr
      if next = 0 then pure p else parseLoop a n strPtr p

/-- `void R3CFormatParser::parse(const char* formatString)`; `none` is
`NULL`. -/
def parse (p : R3CFormatParser) (formatString : Option (List Nat)) :
    Except Fault R3CFormatParser :=
  match formatString with
  | none => .error .illegalArgument
  | some a =>
    parseLoop a (a.length + 2) 0 { p with formatString := some a, piecesSet := 0 }

/-- `int R3CFormatParser::getPieceCount()`. -/
def getPieceCount (p : R3CFormatParser) : Int :=
  p.piecesSet

/-- `int R3CFormatParser::getPieceType(int index)`. -/
def getPieceType (p : R3CFormatParser) (index : Int) : Except Fault FormatType :=
  if index < 0 ∨ index ≥ p.piecesSet then .error .outOfRange
  else
    match p.pieces[index.toNat]? with
    | some (some piece) => pure piece.dataType
    | _ => .error .undefinedBehaviour

/-- The pieces that were set, in order. -/
def piecesList (p : R3CFormatParser) : List (Option R3CFormatPiece) :=
  p.pieces.take p.piecesSet.toNat

end R3CFormatParser

/-! ## `R3CTextInputFile.cpp`, the file being a finite stream of characters -/

/-- `EOF`. -/
def EOF : Int := -1

/-- `R3C_STR_NEWLINE`, the characters `\n\r\v\f`. -/
def R3C_STR_NEWLINE : List Nat := [10, 13, 11, 12]

/-- Member variable of `R3CTextInputFile`: `FILE* fileHandle`, `none` for
`NULL`, and for an open file the characters that `getc` has not returned yet.
No read of the stream fails. -/
structure R3CTextInputFile where
  fileHandle : Option (List Nat)
  deriving DecidableEq, Repr

namespace R3CTextInputFile

/-- The test `(curChar == '\0') || (strchr(R3C_STR_NEWLINE, curChar) != NULL)`
of `readLine`. -/
def endsLine (curChar : Nat) : Bool :=
  decide (curChar = 0 ∨ curChar ∈ R3C_STR_NEWLINE)

/-- The loop `while ( !done )` of `readLine`; the first argument is what is
left of the stream, an empty list being the end of the file. -/
def readLineLoop : List Nat → R3CString → Int → Bool →
    Except Fault (Int × List Nat × R3CString)
  | [], targetStr, charsRead, _ =>
    pure (if charsRead = 0 then EOF else charsRead, [], targetStr)
  | curChar :: rest, targetStr, charsRead, pastNewlines =>
    if endsLine curChar then
      if pastNewlines then pure (charsRead, rest, targetStr)
      else readLineLoop rest targetStr charsRead pastNewlines
    else do
      let (_, targetStr) ← targetStr.appendChar curChar
      readLineLoop rest targetStr (charsRead + 1) true

/-- `int R3CTextInputFile::readLine(R3CString* targetStr)`; the result is the
value returned, the file and the buffer after the call. -/
def readLine (f : R3CTextInputFile) (targetStr : Option R3CString) :
    Except Fault (Int × R3CTextInputFile × R3CString) :=
  match targetStr with
  | none => .error .illegalArgument
  | some targetStr =>
    match f.fileHandle with
    | none => .error .streamNotOpen
    | some stream => do
      let (charsRead, stream, targetStr) ← readLineLoop stream targetStr 0 false
      pure (charsRead, { fileHandle := some stream }, targetStr)

/-- The line that `readLine` is documented to read from a stream: the
characters after the leading newline characters, up to the next newline
character.  A `0` byte counts as a newline character. -/
def nextLine (stream : List Nat) : List Nat :=
  (stream.dropWhile endsLine).takeWhile (fun c => !endsLine c)

end R3CTextInputFile

/-! # Theorems -/

/-! ## Results of calls -/

@[simp] theorem ok_bind {ε α β : Type} (a : α) (f : α → Except ε β) :
    (Except.ok a >>= f) = f a := rfl

@[simp] theorem error_bind {ε α β : Type} (e : ε) (f : α → Except ε β) :
    ((Except.error e : Except ε α) >>= f) = Except.error e := rfl

@[simp] theorem pure_eq_ok {ε α : Type} (a : α) :
    (pure a : Except ε α) = Except.ok a := rfl

/-! ## Character strings held in storage -/

/-- Cells that read as the string `cs` hold the characters of `cs`, none of
them `0`, and then a terminator. -/
theorem cellsStr_ok {m : Storage} {cs : List Nat} (h : cellsStr m = .ok cs) :
    0 ∉ cs ∧ ∃ rest, m = cs.map some ++ some 0 :: rest := by
  induction m generalizing cs with
  | nil => simp [cellsStr] at h
  | cons x m ih =>
    cases x with
    | none => simp [cellsStr] at h
    | some c =>
      by_cases hc : c = 0
      · simp [cellsStr, hc] at h
        subst h
        exact ⟨by simp, m, by simp [hc]⟩
      · simp only [cellsStr, hc, if_false] at h
        cases hr : cellsStr m with
        | error e => simp [hr, Except.map] at h
        | ok cs0 =>
          simp [hr, Except.map] at h
          subst h
          obtain ⟨h0, rest, hm⟩ := ih hr
          refine ⟨?_, rest, ?_⟩
          · simp only [List.mem_cons, not_or]
            exact ⟨fun h => hc h.symm, h0⟩
          · simp [hm]

/-- Reading back cells that were filled with a string and its terminator. -/
theorem cellsStr_build (cs : List Nat) (rest : Storage) (h : 0 ∉ cs) :
    cellsStr (cs.map some ++ some 0 :: rest) = .ok cs := by
  induction cs with
  | nil => simp [cellsStr]
  | cons c cs ih =>
    simp only [List.mem_cons, not_or] at h
    have hc : c ≠ 0 := fun hc => h.1 hc.symm
    simp [cellsStr, hc, ih h.2, Except.map]

theorem chars_of_no_zero {cs : List Nat} (h : 0 ∉ cs) : chars cs = cs := by
  unfold chars
  rw [List.takeWhile_eq_self_iff]
  intro x hx
  simp only [ne_eq, decide_not, Bool.not_eq_true', decide_eq_false_iff_not]
  intro h0
  exact h (h0 ▸ hx)

namespace R3CString

/-! ## `ensureCapacity` -/

/-- In a buffer whose array has `maxLength + 1` cells and holds a terminated
string, the string has no `0` byte and at most `maxLength` characters. -/
theorem wf_bounds {b : R3CString} {cs : List Nat}
    (hsize : (b.str.length : Int) = b.maxLength + 1)
    (hstr : b.getChars = .ok cs) :
    0 ∉ cs ∧ (cs.length : Int) ≤ b.maxLength := by
  unfold getChars storageStr at hstr
  simp at hstr
  obtain ⟨h0, rest, hm⟩ := cellsStr_ok hstr
  refine ⟨h0, ?_⟩
  rw [hm] at hsize
  simp at hsize
  omega

/-- Copying a string into a fresh array that is large enough succeeds, and the
array then reads as that string. -/
theorem getChars_strcpy_alloc {cs : List Nat} {M : Int} (h0 : 0 ∉ cs)
    (hM : (cs.length : Int) ≤ M) :
    ∃ str, strcpy (allocChars (M + 1)) 0 cs = .ok str ∧ storageStr str 0 = .ok cs := by
  unfold strcpy writeAt allocChars
  rw [chars_of_no_zero h0]
  have hlen : (0 : Int) ≤ 0 ∧
      (0 : Int) + ((cs ++ [0]).length : Int) ≤
        ((List.replicate (M + 1).toNat (none : Option Nat)).length : Int) := by
    simp
    omega
  rw [if_pos hlen]
  refine ⟨_, rfl, ?_⟩
  unfold storageStr
  simp
  exact cellsStr_build cs _ h0

/-- What `ensureCapacity` does to a buffer whose array has `maxLength + 1`
cells and holds a terminated string. -/
theorem ensureCapacity_spec (b : R3CString) (n : Int) (cs : List Nat)
    (hsize : (b.str.length : Int) = b.maxLength + 1)
    (hstr : b.getChars = .ok cs) :
    0 ≤ b.maxLength ∧
    (n ≤ b.maxLength → b.ensureCapacity n = .ok b) ∧
    (b.maxLength < n → ∃ r, b.ensureCapacity n = .ok r ∧
        max (2 * b.maxLength) n ≤ r.maxLength ∧ (16 : Int) ∣ r.maxLength + 1 ∧
        (∀ c : Int, max (2 * b.maxLength) n ≤ c → (16 : Int) ∣ c + 1 → r.maxLength ≤ c) ∧
        r.getChars = .ok cs ∧ r.curLength = b.curLength) := by
  obtain ⟨h0, hlen⟩ := wf_bounds hsize hstr
  have hC : 0 ≤ b.maxLength := by omega
  refine ⟨hC, ?_, ?_⟩
  · intro h
    simp [ensureCapacity, h]
  · intro h
    have hn : ¬ n ≤ b.maxLength := by omega
    obtain ⟨m, hm⟩ : ∃ m, m = (if b.maxLength * 2 < n then n else b.maxLength * 2) := ⟨_, rfl⟩
    have hm0 : 0 ≤ m := by rw [hm]; split <;> omega
    have hmax : m = max (2 * b.maxLength) n := by rw [hm]; split <;> omega
    have htmod : Int.tmod m 16 = m % 16 := Int.tmod_eq_emod hm0 (by decide)
    obtain ⟨str, hcpy, hget⟩ :=
      getChars_strcpy_alloc (M := m + (16 - m % 16 - 1)) h0 (by omega)
    refine ⟨{ str := str, curLength := b.curLength, maxLength := m + (16 - m % 16 - 1) },
      ?_, ?_, ?_, ?_, ?_, rfl⟩
    · unfold getChars at hstr
      simp only [ensureCapacity, hn, if_false, ← hm, htmod, hstr, ok_bind, hcpy, pure_eq_ok,
        bind_pure_comp]
    · rw [← hmax]; show m ≤ m + (16 - m % 16 - 1); omega
    · show (16 : Int) ∣ m + (16 - m % 16 - 1) + 1; omega
    · intro c hc hd
      rw [← hmax] at hc
      show m + (16 - m % 16 - 1) ≤ c
      omega
    · exact hget

/-- C3.  For a buffer with capacity `C` (its array has `C + 1` cells and holds
the terminated string `cs`): `C >= 0`; `ensureCapacity(n)` with `n <= C` returns
the buffer unchanged; with `n > C` it returns a buffer whose capacity is the
least `c >= max(2*C, n)` with `c + 1` divisible by 16, holding the same string
`cs` with the same length. -/
theorem ensureCapacity_growth (b : R3CString) (n : Int) (cs : List Nat)
    (hsize : (b.str.length : Int) = b.maxLength + 1)
    (hstr : b.getChars = .ok cs) :
    0 ≤ b.getCapacity ∧
    (n ≤ b.getCapacity → b.ensureCapacity n = .ok b) ∧
    (b.getCapacity < n → ∃ r, b.ensureCapacity n = .ok r ∧
        max (2 * b.getCapacity) n ≤ r.getCapacity ∧ (16 : Int) ∣ r.getCapacity + 1 ∧
        (∀ c : Int, max (2 * b.getCapacity) n ≤ c → (16 : Int) ∣ c + 1 →
          r.getCapacity ≤ c) ∧
        r.getChars = .ok cs ∧ r.getLength = b.getLength) :=
  ensureCapacity_spec b n cs hsize hstr

/-- Instance of C3: the buffer built by `R3CString("a", 1)` (capacity 1) and
`n = 5`; the new capacity is 15. -/
theorem ensureCapacity_growth_witness :
    (({ str := [some 97, some 0], curLength := 1, maxLength := 1 } : R3CString).ensureCapacity 5
      = .ok { str := [some 97, some 0] ++ List.replicate 14 none, curLength := 1,
              maxLength := 15 }) ∧
    ∃ r, ({ str := [some 97, some 0], curLength := 1, maxLength := 1 } : R3CString).ensureCapacity 5
        = .ok r ∧
      max (2 * 1) 5 ≤ r.getCapacity ∧ (16 : Int) ∣ r.getCapacity + 1 ∧
      (∀ c : Int, max (2 * 1) 5 ≤ c → (16 : Int) ∣ c + 1 → r.getCapacity ≤ c) ∧
      r.getChars = .ok [97] ∧ r.getLength = 1 :=
  ⟨by decide,
   (ensureCapacity_growth { str := [some 97, some 0], curLength := 1, maxLength := 1 } 5 [97]
      (by decide) (by decide)).2.2 (by decide)⟩

/-- C4.  For a buffer whose array has `maxLength + 1` cells and holds a
terminated string, `ensureCapacity(n)` returns a buffer on which a second
`ensureCapacity(n)` changes nothing: capacity, content and length after two
calls are those after one. -/
theorem ensureCapacity_idempotent (b : R3CString) (n : Int) (cs : List Nat)
    (hsize : (b.str.length : Int) = b.maxLength + 1)
    (hstr : b.getChars = .ok cs) :
    ∃ r, b.ensureCapacity n = .ok r ∧ r.ensureCapacity n = .ok r ∧
      (b.ensureCapacity n >>= fun r1 => r1.ensureCapacity n) = b.ensureCapacity n := by
  obtain ⟨_, hle, hgt⟩ := ensureCapacity_spec b n cs hsize hstr
  by_cases h : n ≤ b.maxLength
  · exact ⟨b, hle h, hle h, by rw [hle h]; exact hle h⟩
  · obtain ⟨r, hr, hmax, _⟩ := hgt (by omega)
    have hn : n ≤ r.maxLength := le_trans (le_max_right _ _) hmax
    have h2 : r.ensureCapacity n = .ok r := by simp [ensureCapacity, hn]
    exact ⟨r, hr, h2, by rw [hr]; exact h2⟩

/-- Instance of C4: the buffer built by `R3CString("a", 1)` and `n = 5`. -/
theorem ensureCapacity_idempotent_witness :
    ∃ r, ({ str := [some 97, some 0], curLength := 1, maxLength := 1 } : R3CString).ensureCapacity 5
        = .ok r ∧ r.ensureCapacity 5 = .ok r ∧
      (({ str := [some 97, some 0], curLength := 1, maxLength := 1 } : R3CString).ensureCapacity 5
        >>= fun r1 => r1.ensureCapacity 5)
        = ({ str := [some 97, some 0], curLength := 1, maxLength := 1 } : R3CString).ensureCapacity 5 :=
  ensureCapacity_idempotent { str := [some 97, some 0], curLength := 1, maxLength := 1 } 5 [97]
    (by decide) (by decide)

/-! ## `insert`, `deleteChars`, `trimLeft` on concrete buffers -/

/-- C1.  On the buffer `"abc"`, `insert(1, "x")` followed by
`deleteChars(1, 1 + 1 - 1)` deletes nothing and leaves `"axbc"`, length 4; and
`insert(1, "xy")` followed by `deleteChars(1, 1 + 2 - 1)` deletes one character
and leaves `"aybc"`, length 4: `deleteChars` treats `endPos` as exclusive, so the
original content and length are not restored. -/
theorem insert_deleteChars_keeps_char :
    (do let b ← newFromCharsCapacity (some (bytes "abc")) 8
        let (n, b1) ← b.insert 1 (some (bytes "x"))
        let (k, b2) ← b1.deleteChars 1 (1 + n - 1)
        let cs ← b2.getChars
        pure (n, k, cs, b2.getLength)) = Except.ok (1, 0, bytes "axbc", 4) ∧
    (do let b ← newFromCharsCapacity (some (bytes "abc")) 8
        let (n, b1) ← b.insert 1 (some (bytes "xy"))
        let (k, b2) ← b1.deleteChars 1 (1 + n - 1)
        let cs ← b2.getChars
        pure (n, k, cs, b2.getLength)) = Except.ok (2, 1, bytes "aybc", 4) := by
  constructor <;> decide

/-- C2.  `R3CString("aXc", 3)` followed by `set(" ")` gives a buffer that
satisfies the invariant (length 1, array `' ', 0, 'c', 0`).  On it
`trimLeft(" ")` returns 2 and leaves `curLength = -1`: the loop passes the
terminator, because `strchr` finds the terminator of `trimChars`, and stops on
the `'c'` left behind it.  The invariant no longer holds. -/
theorem trimLeft_breaks_invariant :
    (do let b ← newFromCharsCapacity (some (bytes "aXc")) 3
        let (_, b1) ← b.set (some (bytes " "))
        pure b1)
      = Except.ok { str := [some 32, some 0, some 99, some 0], curLength := 1, maxLength := 3 } ∧
    Invariant { str := [some 32, some 0, some 99, some 0], curLength := 1, maxLength := 3 } ∧
    trimLeft { str := [some 32, some 0, some 99, some 0], curLength := 1, maxLength := 3 }
        (some (bytes " "))
      = Except.ok (2, { str := [some 32, some 0, some 99, some 0], curLength := -1,
                        maxLength := 3 }) ∧
    ¬ Invariant { str := [some 32, some 0, some 99, some 0], curLength := -1, maxLength := 3 } := by
  refine ⟨by decide, by decide, by decide, by decide⟩

end R3CString

/-! ## The filename pattern matcher -/

theorem cread_oob (a : List Nat) (i : Int) (h : i < 0 ∨ (a.length : Int) < i) :
    cread a i = .error .undefinedBehaviour := by
  unfold cread
  rcases h with h | h
  · simp [h]
  · have h1 : ¬ i < 0 := by omega
    have h2 : ¬ i < (a.length : Int) := by omega
    have h3 : ¬ i = (a.length : Int) := by omega
    simp [h1, h2, h3]

theorem strchr_oob (a : List Nat) (i : Int) (c : Nat) (h : i < 0 ∨ (a.length : Int) < i) :
    strchr a i c = .error .undefinedBehaviour := by
  simp [strchr, strchrLoop, cread_oob a i h]

/-- The search loop of `r3cFindQmarkMatch` started outside the array of `str`. -/
theorem r3cFindQmarkMatchLoop_oob (a : List Nat) (str nq nonQ cc : Int) (mc n : Nat) (p : Int)
    (h : p < 0 ∨ (a.length : Int) < p) :
    r3cFindQmarkMatchLoop a str nq nonQ cc mc (n + 1) p = .error .undefinedBehaviour := by
  simp [r3cFindQmarkMatchLoop, strchr_oob a p mc h]

/-- `r3cFindQmarkMatch` once `r3cStrPassChar` has returned `nq`. -/
theorem r3cFindQmarkMatch_eq (delta : Int) (a : List Nat) (i j cc nq : Int)
    (h : r3cStrPassChar a i 63 cc = .ok nq) :
    r3cFindQmarkMatch delta a i j cc =
      if toInt32 (delta + nq - j) = cc then .ok cc
      else (cread a nq >>= fun matchChar =>
        if matchChar = 0 then .ok 0
        else r3cFindQmarkMatchLoop a i nq (cc - toInt32 (delta + nq - j)) cc matchChar 2
          (i + toInt32 (delta + nq - j))) := by
  simp [r3cFindQmarkMatch, h]

theorem strchrLoop_found (a : List Nat) (c : Nat) (n : Nat) (i f : Int)
    (h : strchrLoop a c n i = .ok (some f)) : cread a f = .ok c := by
  induction n generalizing i with
  | zero => simp [strchrLoop] at h
  | succ n ih =>
    unfold strchrLoop at h
    cases hx : cread a i with
    | error e => simp [hx] at h
    | ok x =>
      simp only [hx, ok_bind, pure_eq_ok] at h
      by_cases hxc : x = c
      · simp [hxc] at h
        subst h
        rw [hx, hxc]
      · by_cases hx0 : x = 0
        · subst hx0
          rw [if_neg (fun h0 => hxc h0)] at h
          simp at h
        · simp only [hxc, hx0, if_false] at h
          exact ih _ h

/-- Where `strchr` found the character, a second `strchr` finds it again. -/
theorem strchr_found_fixed (a : List Nat) (c : Nat) (i f : Int)
    (h : strchr a i c = .ok (some f)) : strchr a f c = .ok (some f) := by
  have hf := strchrLoop_found a c _ i f h
  simp [strchr, strchrLoop, hf]

/-- Once `strchr` has found the character at a place where `r3cQmarkMatch`
fails, the loop of `r3cFindQmarkMatch` does not end, whatever the bound. -/
theorem r3cFindQmarkMatchLoop_diverges (a : List Nat) (str nq nonQ cc : Int) (mc : Nat)
    (p f : Int) (hs : strchr a p mc = .ok (some f))
    (hm : r3cQmarkMatch a f a nq nonQ = .ok false) (n : Nat) :
    r3cFindQmarkMatchLoop a str nq nonQ cc mc n p = .error .diverges := by
  induction n generalizing p with
  | zero => rfl
  | succ n ih =>
    unfold r3cFindQmarkMatchLoop
    simp only [hs, ok_bind, hm]
    exact ih f (strchr_found_fixed a mc p f hs)

/-! ## The iteration bounds are never used up -/

theorem bind_ne_fuel {α β : Type} {x : Except Fault α} {f : α → Except Fault β}
    (hx : x ≠ .error .fuel) (hf : ∀ a, x = .ok a → f a ≠ .error .fuel) :
    (x >>= f) ≠ .error .fuel := by
  cases x with
  | error e => simpa using hx
  | ok a => simpa using hf a rfl

theorem cread_ne_fuel (a : List Nat) (i : Int) : cread a i ≠ .error .fuel := by
  unfold cread
  split_ifs <;> simp

theorem cread_ok_bounds {a : List Nat} {i : Int} {x : Nat} (h : cread a i = .ok x) :
    0 ≤ i ∧ i ≤ a.length := by
  unfold cread at h
  split_ifs at h <;> omega

theorem strchrLoop_ne_fuel (a : List Nat) (c : Nat) (n : Nat) (i : Int) :
    strchrLoop a c n i ≠ .error .fuel := by
  induction n generalizing i with
  | zero => simp [strchrLoop]
  | succ n ih =>
    unfold strchrLoop
    refine bind_ne_fuel (cread_ne_fuel a i) ?_
    intro x _
    split_ifs
    · simp
    · simp
    · exact ih _

theorem strchrLoop_ge (a : List Nat) (c : Nat) (n : Nat) (i f : Int)
    (h : strchrLoop a c n i = .ok (some f)) : i ≤ f := by
  induction n generalizing i with
  | zero => simp [strchrLoop] at h
  | succ n ih =>
    unfold strchrLoop at h
    cases hx : cread a i with
    | error e => simp [hx] at h
    | ok x =>
      simp only [hx, ok_bind, pure_eq_ok] at h
      split_ifs at h
      · simp at h; omega
      · simp at h
      · have := ih _ h; omega

theorem strchr_ok_bounds {a : List Nat} {c : Nat} {i f : Int}
    (h : strchr a i c = .ok (some f)) : 0 ≤ i ∧ i ≤ f ∧ f ≤ a.length := by
  have h1 := strchrLoop_ge a c _ i f h
  have h2 := cread_ok_bounds (strchrLoop_found a c _ i f h)
  have h3 : 0 ≤ i := by
    unfold strchr strchrLoop at h
    cases hx : cread a i with
    | error e => simp [hx] at h
    | ok x => exact (cread_ok_bounds hx).1
  exact ⟨h3, h1, h2.2⟩

theorem strlenLoop_ne_fuel (a : List Nat) (n : Nat) (i k : Int) :
    strlenLoop a n i k ≠ .error .fuel := by
  induction n generalizing i k with
  | zero => simp [strlenLoop]
  | succ n ih =>
    unfold strlenLoop
    refine bind_ne_fuel (cread_ne_fuel a i) ?_
    intro x _
    split_ifs
    · simp
    · exact ih _ _

theorem r3cStrReachCharLoop_ne_fuel (a : List Nat) (c : Nat) (n : Nat) (i : Int) :
    r3cStrReachCharLoop a c n i ≠ .error .fuel := by
  induction n generalizing i with
  | zero => simp [r3cStrReachCharLoop]
  | succ n ih =>
    unfold r3cStrReachCharLoop
    refine bind_ne_fuel (cread_ne_fuel a i) ?_
    intro x _
    split_ifs
    · exact ih _
    · simp

theorem r3cStrPassCharLoop_ne_fuel (a : List Nat) (c : Nat) (n : Nat) (i : Int) (x : Nat) :
    r3cStrPassCharLoop a c n i x ≠ .error .fuel := by
  induction n generalizing i x with
  | zero => simp [r3cStrPassCharLoop]
  | succ n ih =>
    unfold r3cStrPassCharLoop
    split_ifs
    · exact bind_ne_fuel (cread_ne_fuel a _) (fun y _ => ih _ y)
    · simp

theorem r3cStrPassChar_ne_fuel (a : List Nat) (i : Int) (c : Nat) (cc : Int) :
    r3cStrPassChar a i c cc ≠ .error .fuel := by
  unfold r3cStrPassChar
  split_ifs
  · simp
  · simp
  · exact bind_ne_fuel (cread_ne_fuel a i) (fun x _ => r3cStrPassCharLoop_ne_fuel a c _ i x)

theorem r3cQmarkMatchLoop_ne_fuel (a b : List Nat) (n : Nat) (i j : Int) :
    r3cQmarkMatchLoop a b n i j ≠ .error .fuel := by
  induction n generalizing i j with
  | zero => simp [r3cQmarkMatchLoop]
  | succ n ih =>
    unfold r3cQmarkMatchLoop
    refine bind_ne_fuel (cread_ne_fuel b j) (fun pc _ => ?_)
    refine bind_ne_fuel (cread_ne_fuel a i) (fun sc _ => ?_)
    split_ifs
    · simp
    · simp
    · exact ih _ _

theorem r3cFindQmarkMatchLoop_ne_fuel (a : List Nat) (str nq nonQ cc : Int) (mc : Nat)
    (n : Nat) (p : Int) :
    r3cFindQmarkMatchLoop a str nq nonQ cc mc n p ≠ .error .fuel := by
  induction n generalizing p with
  | zero => simp [r3cFindQmarkMatchLoop]
  | succ n ih =>
    unfold r3cFindQmarkMatchLoop
    refine bind_ne_fuel (strchrLoop_ne_fuel a mc _ p) (fun r _ => ?_)
    cases r with
    | none => simp
    | some f =>
      refine bind_ne_fuel (r3cQmarkMatchLoop_ne_fuel a a _ f nq) (fun d _ => ?_)
      split_ifs
      · simp
      · exact ih _

theorem r3cFindQmarkMatch_ne_fuel (delta : Int) (a : List Nat) (i j cc : Int) :
    r3cFindQmarkMatch delta a i j cc ≠ .error .fuel := by
  unfold r3cFindQmarkMatch
  refine bind_ne_fuel (r3cStrPassChar_ne_fuel a i 63 cc) (fun nq _ => ?_)
  dsimp only
  split_ifs
  · simp
  · refine bind_ne_fuel (cread_ne_fuel a nq) (fun mc _ => ?_)
    split_ifs
    · simp
    · exact r3cFindQmarkMatchLoop_ne_fuel _ _ _ _ _ _ _ _

/-- The loop of `r3cPathMatch` does not use up a bound `n` with
`pattern.length + 2 <= n + patternPtr`. -/
theorem r3cPathMatchLoop_ne_fuel (delta : Int) (str pattern : List Nat) (n : Nat)
    (strPtr patternPtr : Int) (result : Option Bool) (hn : 1 ≤ n)
    (hj : (pattern.length : Int) + 2 ≤ n + patternPtr) :
    r3cPathMatchLoop delta str pattern n strPtr patternPtr result ≠ .error .fuel := by
  induction n generalizing strPtr patternPtr result with
  | zero => omega
  | succ n ih =>
    unfold r3cPathMatchLoop
    refine bind_ne_fuel (strchrLoop_ne_fuel pattern 42 _ patternPtr) (fun r hr => ?_)
    cases r with
    | none =>
      refine bind_ne_fuel (strlenLoop_ne_fuel str _ strPtr 0) (fun k _ => ?_)
      refine bind_ne_fuel (r3cQmarkMatchLoop_ne_fuel str pattern _ strPtr patternPtr)
        (fun m _ => ?_)
      simp
    | some starPtr =>
      obtain ⟨h0, h1, h2⟩ := strchr_ok_bounds hr
      simp only
      split_ifs with hne
      · refine bind_ne_fuel (r3cQmarkMatchLoop_ne_fuel str pattern _ strPtr patternPtr)
          (fun m _ => ?_)
        split_ifs
        · refine ih _ _ _ ?_ ?_
          · push_cast at hj; omega
          · push_cast at hj; omega
        · simp
      · refine bind_ne_fuel (r3cStrReachCharLoop_ne_fuel pattern 42 _ _) (fun e _ => ?_)
        split_ifs
        · refine bind_ne_fuel (r3cFindQmarkMatch_ne_fuel _ _ _ _ _) (fun cc _ => ?_)
          split_ifs
          · refine ih _ _ _ ?_ ?_
            · push_cast at hj; omega
            · push_cast at hj; omega
          · simp
        · refine ih _ _ _ ?_ ?_
          · push_cast at hj; omega
          · push_cast at hj; omega

/-- `r3cPathMatch` never uses up its iteration bound. -/
theorem r3cPathMatch_ne_fuel (delta : Int) (str pattern : List Nat) :
    r3cPathMatch delta str pattern ≠ .error .fuel := by
  unfold r3cPathMatch
  refine bind_ne_fuel (r3cPathMatchLoop_ne_fuel delta str pattern _ 0 0 none ?_ ?_) ?_
  · omega
  · push_cast; omega
  · intro r _
    cases r <;> simp

/-! ## The matcher on the examples of the specification -/

/-- C5.  Whatever the addresses of the two arrays, the pattern `a?c` matches
the subject `ac`, and the pattern `abc` matches the empty subject: a pattern
without `*` is compared over the length of the subject only. -/
theorem r3cPathMatch_nostar_shorter_subject (delta : Int) :
    r3cPathMatch delta (bytes "ac") (bytes "a?c") = .ok true ∧
    r3cPathMatch delta (bytes "") (bytes "abc") = .ok true :=
  ⟨rfl, rfl⟩

/-- C6.  Whatever the addresses of the two arrays, the pattern `*` does not
match the subject `x`, and the pattern `ab*` does not match `abc`: after a
trailing `*` the rest of the subject is compared with the empty pattern. -/
theorem r3cPathMatch_trailing_star (delta : Int) :
    r3cPathMatch delta (bytes "x") (bytes "*") = .ok false ∧
    r3cPathMatch delta (bytes "abc") (bytes "ab*") = .ok false :=
  ⟨rfl, rfl⟩

/-- C7.  Whatever the addresses of the two arrays, matching `report.txt`
against `*.txt` does not return true: the call returns false, reads outside an
array or returns its unassigned result, or loops for ever. -/
theorem r3cPathMatch_star_suffix (delta : Int) :
    r3cPathMatch delta (bytes "report.txt") (bytes "*.txt") = .ok false ∨
    r3cPathMatch delta (bytes "report.txt") (bytes "*.txt") = .error .undefinedBehaviour ∨
    r3cPathMatch delta (bytes "report.txt") (bytes "*.txt") = .error .diverges := by
  have key : r3cPathMatch delta (bytes "report.txt") (bytes "*.txt") =
      ((r3cFindQmarkMatch delta (bytes "report.txt") 0 1 4 >>= fun cc =>
          if cc > 0 then
            r3cPathMatchLoop delta (bytes "report.txt") (bytes "*.txt") 6 (0 + cc) (1 + cc) none
          else pure none) >>= fun r =>
        match r with
        | some r => pure r
        | none => .error .undefinedBehaviour) := rfl
  rw [key, r3cFindQmarkMatch_eq delta (bytes "report.txt") 0 1 4 4 (by decide)]
  generalize toInt32 (delta + 4 - 1) = q
  by_cases h4 : q = 4
  · subst h4
    exact of_decide_eq_true rfl
  · rw [if_neg h4]
    have hc : cread (bytes "report.txt") 4 = .ok 114 := by decide
    rw [hc, ok_bind, if_neg (by decide)]
    by_cases hr : 0 + q < 0 ∨ ((bytes "report.txt").length : Int) < 0 + q
    · rw [r3cFindQmarkMatchLoop_oob _ _ _ _ _ _ _ _ hr]
      exact of_decide_eq_true rfl
    · have hlen : ((bytes "report.txt").length : Int) = 10 := by decide
      rw [hlen] at hr
      have h0 : 0 ≤ q := by omega
      have h1 : q ≤ 10 := by omega
      interval_cases q <;> first | exact absurd rfl h4 | exact of_decide_eq_true rfl

/-- C8.  Whatever the addresses of the two arrays, matching `axxbyy` against
`a*b*c` does not return false: the call returns true (the result of the first
segment, never reassigned), reads outside an array, or loops for ever. -/
theorem r3cPathMatch_two_stars (delta : Int) :
    r3cPathMatch delta (bytes "axxbyy") (bytes "a*b*c") = .ok true ∨
    r3cPathMatch delta (bytes "axxbyy") (bytes "a*b*c") = .error .undefinedBehaviour ∨
    r3cPathMatch delta (bytes "axxbyy") (bytes "a*b*c") = .error .diverges := by
  have key : r3cPathMatch delta (bytes "axxbyy") (bytes "a*b*c") =
      ((r3cFindQmarkMatch delta (bytes "axxbyy") 1 2 1 >>= fun cc =>
          if cc > 0 then
            r3cPathMatchLoop delta (bytes "axxbyy") (bytes "a*b*c") 5 (1 + cc) (2 + cc) (some true)
          else pure (some true)) >>= fun r =>
        match r with
        | some r => pure r
        | none => .error .undefinedBehaviour) := rfl
  have key2 : (((Except.ok 1 : Except Fault Int) >>= fun cc =>
          if cc > 0 then
            r3cPathMatchLoop delta (bytes "axxbyy") (bytes "a*b*c") 5 (1 + cc) (2 + cc) (some true)
          else pure (some true)) >>= fun r =>
        match r with
        | some r => pure r
        | none => .error .undefinedBehaviour) =
      ((r3cFindQmarkMatch delta (bytes "axxbyy") 2 4 1 >>= fun cc =>
          if cc > 0 then
            r3cPathMatchLoop delta (bytes "axxbyy") (bytes "a*b*c") 4 (2 + cc) (4 + cc) (some true)
          else pure (some true)) >>= fun r =>
        match r with
        | some r => pure r
        | none => .error .undefinedBehaviour) := rfl
  have hc : cread (bytes "axxbyy") 2 = .ok 120 := by decide
  rw [key, r3cFindQmarkMatch_eq delta (bytes "axxbyy") 1 2 1 2 (by decide)]
  by_cases h1 : toInt32 (delta + 2 - 2) = 1
  · have hq : toInt32 (delta + 3 - 4) = 0 := by
      unfold toInt32 at h1 ⊢
      omega
    rw [if_pos h1, key2, r3cFindQmarkMatch_eq delta (bytes "axxbyy") 2 4 1 3 (by decide), hq]
    exact of_decide_eq_true rfl
  · rw [if_neg h1, hc, ok_bind, if_neg (by decide)]
    by_cases h0 : toInt32 (delta + 2 - 2) = 0
    · have hq : toInt32 (delta + 3 - 4) = -1 := by
        unfold toInt32 at h0 ⊢
        omega
      have e1 : r3cFindQmarkMatchLoop (bytes "axxbyy") 1 2 (1 - 0) 1 120 2 (1 + 0) = .ok 1 := by
        decide
      rw [h0, e1, key2, r3cFindQmarkMatch_eq delta (bytes "axxbyy") 2 4 1 3 (by decide), hq]
      exact of_decide_eq_true rfl
    · generalize toInt32 (delta + 2 - 2) = q at h1 h0 ⊢
      by_cases hr : 1 + q < 0 ∨ ((bytes "axxbyy").length : Int) < 1 + q
      · rw [r3cFindQmarkMatchLoop_oob _ _ _ _ _ _ _ _ hr]
        exact of_decide_eq_true rfl
      · have hlen : ((bytes "axxbyy").length : Int) = 6 := by decide
        rw [hlen] at hr
        have hlo : -1 ≤ q := by omega
        have hhi : q ≤ 5 := by omega
        interval_cases q <;>
          first
          | exact absurd rfl h1
          | exact absurd rfl h0
          | exact of_decide_eq_true rfl

/-- C9.  Matching the subject `a` against the pattern `a*b`: the segment `b`
does not occur in what is left of the subject, and the call returns true, the
result of the first segment (or, for one residue of the address difference,
reads past the subject).  It never returns false. -/
theorem r3cPathMatch_missing_literal (delta : Int) :
    r3cPathMatch delta (bytes "a") (bytes "a*b") =
      if toInt32 (delta + 1 - 2) = 1 then .error .undefinedBehaviour else .ok true := by
  have key : r3cPathMatch delta (bytes "a") (bytes "a*b") =
      ((r3cFindQmarkMatch delta (bytes "a") 1 2 1 >>= fun cc =>
          if cc > 0 then
            r3cPathMatchLoop delta (bytes "a") (bytes "a*b") 3 (1 + cc) (2 + cc) (some true)
          else pure (some true)) >>= fun r =>
        match r with
        | some r => pure r
        | none => .error .undefinedBehaviour) := rfl
  rw [key, r3cFindQmarkMatch_eq delta (bytes "a") 1 2 1 1 (by decide)]
  by_cases h : toInt32 (delta + 1 - 2) = 1
  · rw [if_pos h, if_pos h]; rfl
  · rw [if_neg h, if_neg h]; rfl

/-- C10.  Two layouts in which `a**a` and `a*a` differ.  With the subject
array `2^32 + 2` bytes above the pattern array, `aaa` does not match `a**a`
and matches `a*a`.  With the subject array 5 bytes above the pattern array,
matching `abbbbb` against `a**a` reads outside the pattern, and against `a*a`
returns true. -/
theorem r3cPathMatch_double_star_differs :
    r3cPathMatch 4294967298 (bytes "aaa") (bytes "a**a") = .ok false ∧
    r3cPathMatch 4294967298 (bytes "aaa") (bytes "a*a") = .ok true ∧
    r3cPathMatch 5 (bytes "abbbbb") (bytes "a**a") = .error .undefinedBehaviour ∧
    r3cPathMatch 5 (bytes "abbbbb") (bytes "a*a") = .ok true := by
  refine ⟨by decide, by decide, by decide, by decide⟩

/-! ## Writing into an array -/

/-- Length of an array after a segment of it was overwritten. -/
theorem splice_length {α : Type} (m bs : List α) (o : Nat) (h : o + bs.length ≤ m.length) :
    (m.take o ++ bs ++ m.drop (o + bs.length)).length = m.length := by
  simp
  omega

/-- Elements of an array after a segment of it was overwritten. -/
theorem splice_getElem? {α : Type} (m bs : List α) (o : Nat) (h : o + bs.length ≤ m.length)
    (j : Nat) :
    (m.take o ++ bs ++ m.drop (o + bs.length))[j]? =
      if j < o then m[j]? else if j < o + bs.length then bs[j - o]? else m[j]? := by
  have hto : (m.take o).length = o := by simp; omega
  by_cases h1 : j < o
  · rw [if_pos h1, List.append_assoc, List.getElem?_append_left (by omega)]
    simp [List.getElem?_take, h1]
  · rw [if_neg h1, List.append_assoc, List.getElem?_append_right (by omega), hto]
    by_cases h2 : j < o + bs.length
    · rw [if_pos h2, List.getElem?_append_left (by omega)]
    · rw [if_neg h2, List.getElem?_append_right (by omega), List.getElem?_drop]
      congr 1
      omega

theorem writeAt_eq {m : Storage} {off : Int} {bs : List Nat} (h0 : 0 ≤ off)
    (h1 : off + bs.length ≤ m.length) :
    writeAt m off bs
      = .ok (m.take off.toNat ++ bs.map some ++ m.drop (off.toNat + bs.length)) := by
  simp [writeAt, h0, h1]

theorem writeAt_ok {m m1 : Storage} {off : Int} {bs : List Nat} (h : writeAt m off bs = .ok m1) :
    0 ≤ off ∧ off + bs.length ≤ m.length ∧
      m1 = m.take off.toNat ++ bs.map some ++ m.drop (off.toNat + bs.length) := by
  unfold writeAt at h
  split_ifs at h with hc
  exact ⟨hc.1, hc.2, by simpa using h.symm⟩

theorem writeAt_length {m m1 : Storage} {off : Int} {bs : List Nat}
    (h : writeAt m off bs = .ok m1) : m1.length = m.length := by
  obtain ⟨h0, h1, rfl⟩ := writeAt_ok h
  have := splice_length m (bs.map some) off.toNat (by simp; omega)
  simpa using this

theorem writeAt_getElem? {m m1 : Storage} {off : Int} {bs : List Nat}
    (h : writeAt m off bs = .ok m1) (j : Nat) :
    m1[j]? = if (j : Int) < off then m[j]?
      else if (j : Int) < off + bs.length then (bs[j - off.toNat]?).map some else m[j]? := by
  obtain ⟨h0, h1, rfl⟩ := writeAt_ok h
  have := splice_getElem? m (bs.map some) off.toNat (by simp; omega) j
  simp only [List.length_map] at this
  rw [this]
  have e1 : (j < off.toNat) ↔ ((j : Int) < off) := by omega
  have e2 : (j < off.toNat + bs.length) ↔ ((j : Int) < off + bs.length) := by omega
  simp only [e1, e2, List.getElem?_map]
/-! ## The block arena: `ensureBlockCapacity` and `insertString` -/

namespace R3CStringBlock

theorem zeroBlock_length (n : Int) (h : 0 ≤ n) : ((zeroBlock n).length : Int) = n := by
  simp [zeroBlock, h]

theorem zeroBlock_getElem? (n : Int) (j : Nat) (h : (j : Int) < n) :
    (zeroBlock n)[j]? = some (some 0) := by
  unfold zeroBlock
  rw [List.getElem?_replicate]
  have : j < n.toNat := by omega
  simp [this]

theorem cellAt_of_block {b : R3CStringBlock} {i : Nat} {blk : Storage}
    (h : b.memBlock[i]? = some (some blk)) (j : Nat) : b.cellAt i j = blk[j]? := by
  simp [cellAt, h]

theorem readBlock_of_getElem? {m : List (Option Storage)} {i : Int} {blk : Storage}
    (h0 : 0 ≤ i) (h : m[i.toNat]? = some (some blk)) : readBlock m i = .ok blk := by
  have hlt : i.toNat < m.length := by
    by_contra hn
    rw [List.getElem?_eq_none (by omega)] at h
    simp at h
  have hc : 0 ≤ i ∧ i < (m.length : Int) := ⟨h0, by omega⟩
  have hg : m.getD i.toNat none = some blk := by
    rw [List.getD_eq_getElem?_getD, h]; rfl
  unfold readBlock readPtr
  rw [if_pos hc]
  simp only [ok_bind, hg, pure_eq_ok]

theorem chars_no_zero (str : List Nat) : 0 ∉ chars str := by
  unfold chars
  intro h
  have := List.mem_takeWhile_imp h
  simp at this

theorem chars_chars (str : List Nat) : chars (chars str) = chars str :=
  chars_of_no_zero (chars_no_zero str)

/-- `ensureBlockCapacity` on a state that satisfies the invariant: the state is
returned as it is when `bytesUsedInBlock + charsToAlloc < bytesPerBlock`, and
otherwise the cursor moves to the start of the next block, which is cleared.
No byte before the old cursor changes. -/
theorem ensureBlockCapacity_spec {b : R3CStringBlock} (hI : b.Inv) (c : Int) :
    ∃ b1, b.ensureBlockCapacity c = .ok b1 ∧ b1.Inv ∧
      b1.bytesPerBlock = b.bytesPerBlock ∧ b1.alone = b.alone ∧
      (b.bytesUsedInBlock + c < b.bytesPerBlock → b1 = b) ∧
      (b.bytesPerBlock ≤ b.bytesUsedInBlock + c →
        b1.currMemBlock = b.currMemBlock + 1 ∧ b1.bytesUsedInBlock = 0) ∧
      (∀ i j : Nat, (i : Int) ≤ b.currMemBlock → b1.cellAt i j = b.cellAt i j) := by
  by_cases hfit : b.bytesUsedInBlock + c < b.bytesPerBlock
  · refine ⟨b, ?_, hI, rfl, rfl, fun _ => rfl, fun h => by omega, fun _ _ _ => rfl⟩
    have : ¬ b.bytesUsedInBlock + c ≥ b.bytesPerBlock := by omega
    simp [ensureBlockCapacity, this]
  · have hge : b.bytesUsedInBlock + c ≥ b.bytesPerBlock := by omega
    -- the pointer array after the optional growth
    obtain ⟨m1, a1, hm1⟩ : ∃ m1 a1, (m1, a1) =
        (if b.currMemBlock + 1 ≥ b.memBlockAlloc then
          (b.memBlock ++ List.replicate b.memBlockAlloc.toNat none, b.memBlockAlloc * 2)
        else (b.memBlock, b.memBlockAlloc)) := ⟨_, _, rfl⟩
    have hlen1 : (m1.length : Int) = a1 ∧ b.currMemBlock + 1 < a1 ∧
        ∀ i : Nat, (i : Int) ≤ b.currMemBlock → m1[i]? = b.memBlock[i]? := by
      have hl := hI.hlen
      have hc := hI.hcur
      have hc0 := hI.hcur0
      split_ifs at hm1 with hg
      · simp only [Prod.mk.injEq] at hm1
        obtain ⟨rfl, rfl⟩ := hm1
        refine ⟨by simp; omega, by omega, ?_⟩
        intro i hi
        rw [List.getElem?_append_left (by omega)]
      · simp only [Prod.mk.injEq] at hm1
        obtain ⟨rfl, rfl⟩ := hm1
        exact ⟨hl, by omega, fun _ _ => rfl⟩
    obtain ⟨hl1, hc1, hsame⟩ := hlen1
    have hc0 := hI.hcur0
    have hrd : readPtr m1 (b.currMemBlock + 1)
        = .ok (m1.getD (b.currMemBlock + 1).toNat none) := by
      have : 0 ≤ b.currMemBlock + 1 ∧ b.currMemBlock + 1 < (m1.length : Int) :=
        ⟨by omega, by omega⟩
      simp [readPtr, this]
    refine ⟨{ b with memBlockAlloc := a1,
                     memBlock := m1.set (b.currMemBlock + 1).toNat (some (zeroBlock b.bytesPerBlock)),
                     currMemBlock := b.currMemBlock + 1,
                     nextStrPtr := ⟨b.currMemBlock + 1, 0⟩,
                     bytesUsedInBlock := 0 }, ?_, ?_, rfl, rfl, fun h => by omega,
            fun _ => ⟨rfl, rfl⟩, ?_⟩
    · simp only [ensureBlockCapacity, hge, if_true, ← hm1, hrd, ok_bind, pure_eq_ok,
        bind_pure_comp]
    · have hB := hI.hB
      refine ⟨hB, by simp; omega, by simp; omega, by simp; omega, ?_, rfl, le_refl _, hB, ?_⟩
      · intro i hi
        simp only at hi
        by_cases hie : i = (b.currMemBlock + 1).toNat
        · refine ⟨zeroBlock b.bytesPerBlock, ?_, zeroBlock_length _ (by omega)⟩
          subst hie
          simp only
          rw [List.getElem?_set_self (by omega)]
        · obtain ⟨blk, h1, h2⟩ := hI.hblk i (by omega)
          refine ⟨blk, ?_, h2⟩
          simp only
          rw [List.getElem?_set_ne (fun h => hie h.symm), hsame i (by omega), h1]
      · intro j _ hj
        simp only at hj ⊢
        rw [@cellAt_of_block _ _ (zeroBlock b.bytesPerBlock)
          (by simp only; rw [List.getElem?_set_self (by omega)])]
        exact zeroBlock_getElem? _ _ hj
    · intro i j hi
      have hne : (b.currMemBlock + 1).toNat ≠ i := by omega
      simp only [cellAt]
      rw [List.getElem?_set_ne hne, hsame i hi]

end R3CStringBlock
namespace R3CStringBlock

theorem drop_splice {α : Type} (m bs : List α) (o : Nat) (h : o ≤ m.length) :
    (m.take o ++ bs ++ m.drop (o + bs.length)).drop o = bs ++ m.drop (o + bs.length) := by
  have hto : (m.take o).length = o := by simp; omega
  rw [List.append_assoc, List.drop_append_eq_append_drop, hto]
  simp [List.drop_eq_nil_of_le, hto]

/-- The pooled branch of `insertString` on a state that satisfies the invariant,
for a request that is large enough for the string and at most half a block. -/
theorem insertString_pool_spec {b : R3CStringBlock} (hI : b.Inv) (str : List Nat) (c : Int)
    (hlen : strlen str + 1 ≤ c) (hhalf : c ≤ b.bytesPerBlock / 2) :
    ∃ p b2, b.insertString str c = .ok (.pool p, b2) ∧ b2.Inv ∧
      b2.bytesPerBlock = b.bytesPerBlock ∧ b2.alone = b.alone ∧
      (b.bytesUsedInBlock + c < b.bytesPerBlock → p = ⟨b.currMemBlock, b.bytesUsedInBlock⟩) ∧
      (b.bytesPerBlock ≤ b.bytesUsedInBlock + c → p = ⟨b.currMemBlock + 1, 0⟩) ∧
      b2.currMemBlock = p.block ∧ b2.bytesUsedInBlock = p.offset + c ∧
      (∀ i j : Nat, ((i : Int) < b.currMemBlock ∨
          ((i : Int) = b.currMemBlock ∧ (j : Int) < b.bytesUsedInBlock)) →
        b2.cellAt i j = b.cellAt i j) ∧
      (∀ j : Nat, (j : Int) < c →
        b2.cellAt p.block.toNat (p.offset.toNat + j)
          = some (some ((chars str ++ [0]).getD j 0))) ∧
      b2.readStr (.pool p) = .ok (chars str) := by
  have hB := hI.hB
  have hsl : strlen str = ((chars str).length : Int) := rfl
  have hcB : c < b.bytesPerBlock := by omega
  obtain ⟨b1, he, hI1, hB1, hal1, hfit, hadv, hfr1⟩ := ensureBlockCapacity_spec hI c
  have hfit1 : b1.bytesUsedInBlock + c < b1.bytesPerBlock := by
    by_cases h : b.bytesUsedInBlock + c < b.bytesPerBlock
    · rw [hfit h]; exact h
    · rw [(hadv (by omega)).2, hB1]; omega
  have hc0 := hI1.hcur0
  have hu0 := hI1.hu0
  obtain ⟨blk, hblk, hblen⟩ := hI1.hblk b1.currMemBlock.toNat (by omega)
  have hptr := hI1.hptr
  have hrb : readBlock b1.memBlock b1.nextStrPtr.block = .ok blk := by
    rw [hptr]; exact readBlock_of_getElem? hc0 hblk
  have hw : strcpy blk b1.nextStrPtr.offset str
      = .ok (blk.take b1.bytesUsedInBlock.toNat ++ (chars str ++ [0]).map some
          ++ blk.drop (b1.bytesUsedInBlock.toNat + (chars str ++ [0]).length)) := by
    rw [hptr]
    unfold strcpy
    exact writeAt_eq hu0 (by simp; omega)
  obtain ⟨blk2, hblk2⟩ : ∃ blk2, blk2 = blk.take b1.bytesUsedInBlock.toNat
      ++ (chars str ++ [0]).map some
      ++ blk.drop (b1.bytesUsedInBlock.toNat + (chars str ++ [0]).length) := ⟨_, rfl⟩
  rw [← hblk2] at hw
  have hw2 : writeAt blk b1.bytesUsedInBlock (chars str ++ [0]) = .ok blk2 := by
    rw [hblk2]; exact writeAt_eq hu0 (by simp; omega)
  have hnot : b.shouldAllocAlone c = false := by
    simp [shouldAllocAlone]; omega
  have hmlt : b1.currMemBlock.toNat < b1.memBlock.length := by
    have := hI1.hlen; have := hI1.hcur; omega
  refine ⟨b1.nextStrPtr,
    { b1 with memBlock := b1.memBlock.set b1.nextStrPtr.block.toNat (some blk2),
              nextStrPtr := ⟨b1.nextStrPtr.block, b1.nextStrPtr.offset + c⟩,
              bytesUsedInBlock := b1.bytesUsedInBlock + c }, ?_, ?_, hB1, hal1, ?_, ?_, ?_, ?_,
    ?_, ?_, ?_⟩
  · simp only [insertString, hnot, he, ok_bind, hrb, hw, pure_eq_ok, Bool.false_eq_true,
      if_false]
  · rw [hptr]
    refine ⟨hI1.hB, by simpa using hI1.hlen, hc0, hI1.hcur, ?_, rfl, by simp; omega,
      by simp; omega, ?_⟩
    · intro i hi
      by_cases hie : i = b1.currMemBlock.toNat
      · refine ⟨blk2, ?_, ?_⟩
        · subst hie; simp only; rw [List.getElem?_set_self hmlt]
        · rw [writeAt_length hw2]; exact hblen
      · obtain ⟨blk0, h1, h2⟩ := hI1.hblk i hi
        refine ⟨blk0, ?_, h2⟩
        simp only
        rw [List.getElem?_set_ne (fun h => hie h.symm), h1]
    · intro j hj hjB
      simp only at hj hjB ⊢
      rw [@cellAt_of_block _ _ blk2 (by simp only; rw [List.getElem?_set_self hmlt])]
      rw [writeAt_getElem? hw2 j, if_neg (by omega), if_neg (by simp; omega)]
      have := hI1.hzero j (by omega) hjB
      rwa [cellAt_of_block hblk] at this
  · intro h; rw [hfit h, hI.hptr]
  · intro h; rw [hptr, (hadv h).1, (hadv h).2]
  · rw [hptr]
  · rw [hptr]
  · intro i j hij
    have hle : (i : Int) ≤ b.currMemBlock := by omega
    rw [← hfr1 i j hle]
    rw [hptr]
    simp only [cellAt]
    by_cases hie : i = b1.currMemBlock.toNat
    · -- the written block: only possible when no new block was taken
      have hcur : b1.currMemBlock = b.currMemBlock ∧ b1.bytesUsedInBlock = b.bytesUsedInBlock := by
        by_cases h : b.bytesUsedInBlock + c < b.bytesPerBlock
        · rw [hfit h]; exact ⟨rfl, rfl⟩
        · have := (hadv (by omega)).1; omega
      subst hie
      rw [List.getElem?_set_self hmlt, hblk]
      simp only
      rw [writeAt_getElem? hw2 j, if_pos (by omega)]
    · rw [List.getElem?_set_ne (fun h => hie h.symm)]
  · intro j hj
    rw [hptr]
    simp only
    rw [@cellAt_of_block _ _ blk2 (by simp only; rw [List.getElem?_set_self hmlt])]
    rw [writeAt_getElem? hw2, if_neg (by omega)]
    by_cases hjl : j < (chars str ++ [0]).length
    · rw [if_pos (by omega)]
      have e : b1.bytesUsedInBlock.toNat + j - b1.bytesUsedInBlock.toNat = j := by omega
      rw [e, List.getD_eq_getElem?_getD, List.getElem?_eq_getElem hjl]
      rfl
    · rw [if_neg (by omega)]
      have hjc : ((chars str ++ [0]).length : Int) ≤ j := by omega
      have := hI1.hzero (b1.bytesUsedInBlock.toNat + j) (by omega) (by omega)
      rw [cellAt_of_block hblk] at this
      rw [this, List.getD_eq_getElem?_getD, List.getElem?_eq_none (by omega)]
      rfl
  · rw [hptr]
    simp only [readStr]
    rw [@readBlock_of_getElem? _ _ blk2 hc0 (by rw [List.getElem?_set_self hmlt])]
    simp only [ok_bind, storageStr, if_neg (not_lt.mpr hu0)]
    have hds := drop_splice blk ((chars str ++ [0]).map some) b1.bytesUsedInBlock.toNat
      (by omega)
    simp only [List.length_map] at hds
    rw [hblk2, hds]
    simp only [List.map_append, List.map_cons, List.map_nil, List.append_assoc,
      List.singleton_append]
    exact cellsStr_build _ _ (chars_no_zero str)

end R3CStringBlock
namespace R3CStringBlock

/-- The branch of `insertString` that stores the string alone: an array of
exactly `charsToAlloc` bytes is allocated, and nothing of the pool changes. -/
theorem insertString_alone_spec (b : R3CStringBlock) (str : List Nat) (c : Int)
    (hlen : strlen str + 1 ≤ c) (hbig : b.bytesPerBlock / 2 < c) :
    ∃ a, b.insertString str c = .ok (.alone b.alone.length, { b with alone := b.alone ++ [a] })
      ∧ (a.length : Int) = c ∧ storageStr a 0 = .ok (chars str) := by
  have hsl : strlen str = ((chars str).length : Int) := rfl
  have hyes : b.shouldAllocAlone c = true := by
    simp [shouldAllocAlone]; omega
  have hw : strcpy (allocChars c) 0 str
      = .ok ((allocChars c).take (0 : Int).toNat ++ (chars str ++ [0]).map some
          ++ (allocChars c).drop ((0 : Int).toNat + (chars str ++ [0]).length)) := by
    unfold strcpy
    exact writeAt_eq (le_refl _) (by simp [allocChars]; omega)
  obtain ⟨a, ha⟩ : ∃ a, a = (allocChars c).take (0 : Int).toNat ++ (chars str ++ [0]).map some
      ++ (allocChars c).drop ((0 : Int).toNat + (chars str ++ [0]).length) := ⟨_, rfl⟩
  rw [← ha] at hw
  refine ⟨a, ?_, ?_, ?_⟩
  · simp only [insertString, hyes, if_true, hw, ok_bind, pure_eq_ok]
  · rw [ha]
    have := splice_length (allocChars c) ((chars str ++ [0]).map some) 0
      (by simp [allocChars]; omega)
    simp only [List.length_map] at this
    simp only [Int.toNat_zero]
    rw [this]
    simp [allocChars]; omega
  · rw [ha]
    simp only [storageStr, lt_irrefl, if_false, Int.toNat_zero, List.drop_zero, List.take_zero,
      List.nil_append, List.map_append, List.map_cons, List.map_nil, List.append_assoc,
      List.singleton_append]
    exact cellsStr_build _ _ (chars_no_zero str)

theorem charsToAlloc_ge (call : AddCall) (s : List Nat) :
    strlen s + 1 ≤ call.charsToAlloc s := by
  cases call with
  | str _ => simp [AddCall.charsToAlloc]
  | strMax _ m =>
    simp only [AddCall.charsToAlloc]
    split_ifs <;> omega

/-- A call of `addString` is `insertString` with the `charsToAlloc` of the call,
or returns `NULL` without touching the arena. -/
theorem addCall_eq (b : R3CStringBlock) (call : AddCall) :
    b.addCall call =
      match call.arg with
      | none => .ok (.null, b)
      | some s => b.insertString s (call.charsToAlloc s) := by
  cases call with
  | str s => cases s <;> rfl
  | strMax s m => cases s <;> rfl

theorem cursorLe_refl (b : R3CStringBlock) : cursorLe b b := Or.inr ⟨rfl, le_refl _⟩

theorem cursorLe_trans {a b c : R3CStringBlock} (h1 : cursorLe a b) (h2 : cursorLe b c) :
    cursorLe a c := by
  unfold cursorLe at *
  omega

theorem Before_mono {a b : R3CStringBlock} (h : cursorLe a b) {i j : Nat} (hb : Before a i j) :
    Before b i j := by
  unfold cursorLe at h
  unfold Before at *
  omega

/-- Effect of one call of `addString` on a state that satisfies the invariant:
the call returns, the invariant holds afterwards, the cursor does not move
back, no byte before the old cursor changes, the arrays stored alone before are
kept, and a pointer into the pool that the call returns is at or behind the old
cursor, with its region ending at the new cursor. -/
theorem addCall_spec {b : R3CStringBlock} (hI : b.Inv) (call : AddCall) :
    ∃ h b1, b.addCall call = .ok (h, b1) ∧ b1.Inv ∧
      b1.bytesPerBlock = b.bytesPerBlock ∧ cursorLe b b1 ∧
      (∀ i j : Nat, Before b i j → b1.cellAt i j = b.cellAt i j) ∧
      (∀ (k : Nat) (a : Storage), b.alone[k]? = some a → b1.alone[k]? = some a) ∧
      (∀ p, h = .pool p →
        ∃ s, call.arg = some s ∧ 0 ≤ p.offset ∧ 0 ≤ p.block ∧
          (b.currMemBlock < p.block ∨
            (b.currMemBlock = p.block ∧ b.bytesUsedInBlock ≤ p.offset)) ∧
          b1.currMemBlock = p.block ∧
          b1.bytesUsedInBlock = p.offset + call.charsToAlloc s ∧
          p.offset + call.charsToAlloc s < b.bytesPerBlock) := by
  rw [addCall_eq]
  cases harg : call.arg with
  | none =>
    exact ⟨.null, b, rfl, hI, rfl, cursorLe_refl b, fun _ _ _ => rfl, fun _ _ h => h,
      fun p hp => by cases hp⟩
  | some s =>
    simp only
    have hge := charsToAlloc_ge call s
    by_cases hbig : b.bytesPerBlock / 2 < call.charsToAlloc s
    · obtain ⟨a, ha, _, _⟩ := insertString_alone_spec b s _ hge hbig
      refine ⟨_, _, ha, ?_, rfl, cursorLe_refl b, fun _ _ _ => rfl, ?_, fun p hp => by cases hp⟩
      · exact ⟨hI.hB, hI.hlen, hI.hcur0, hI.hcur, hI.hblk, hI.hptr, hI.hu0, hI.hu, hI.hzero⟩
      · intro k a0 hk
        have hlt : k < b.alone.length := by
          by_contra hn
          rw [List.getElem?_eq_none (by omega)] at hk
          cases hk
        simp only
        rw [List.getElem?_append_left hlt, hk]
    · obtain ⟨p, b2, hins, hI2, hB2, hal2, hfit, hadv, hcur2, hu2, hfr, _, _⟩ :=
        insertString_pool_spec hI s _ hge (by omega)
      have hu0 := hI.hu0
      have hc0 := hI.hcur0
      have hpos : 0 ≤ p.offset ∧ 0 ≤ p.block ∧
          (b.currMemBlock < p.block ∨
            (b.currMemBlock = p.block ∧ b.bytesUsedInBlock ≤ p.offset)) := by
        by_cases h : b.bytesUsedInBlock + call.charsToAlloc s < b.bytesPerBlock
        · rw [hfit h]
          exact ⟨hu0, hc0, Or.inr ⟨rfl, le_refl _⟩⟩
        · rw [hadv (by omega)]
          exact ⟨le_refl _, by show 0 ≤ b.currMemBlock + 1; omega,
            Or.inl (by show b.currMemBlock < b.currMemBlock + 1; omega)⟩
      have hslen : 0 ≤ strlen s := by unfold strlen; omega
      refine ⟨_, _, hins, hI2, hB2, ?_, hfr, ?_, ?_⟩
      · unfold cursorLe
        rw [hcur2, hu2]
        omega
      · intro k a hk; rw [hal2]; exact hk
      · intro q hq
        cases hq
        have hlt := hI2.hu
        rw [hu2, hB2] at hlt
        exact ⟨s, rfl, hpos.1, hpos.2.1, hpos.2.2, hcur2, hu2, hlt⟩

end R3CStringBlock
namespace R3CStringBlock

/-- The state built by `init` satisfies the invariant when `bytesPerBlock` is
positive. -/
theorem init_inv (B : Int) (hB : 0 < B) (kb : Int) :
    (init (members B) kb).Inv := by
  have hget : ((List.replicate ALLOC_BLOCK_PTR_SIZE (none : Option Storage)).set 0
      (some (zeroBlock B)))[0]? = some (some (zeroBlock B)) := by
    rw [List.getElem?_set_self (by simp [ALLOC_BLOCK_PTR_SIZE])]
  refine ⟨hB, by simp [init, members], le_refl _, by simp [init, members, ALLOC_BLOCK_PTR_SIZE], ?_, rfl,
    le_refl _, hB, ?_⟩
  · intro i hi
    have hi0 : i = 0 := by
      simp only [init, members] at hi
      omega
    subst hi0
    exact ⟨zeroBlock B, hget, zeroBlock_length B (by omega)⟩
  · intro j _ hj
    simp only [init, members] at hj ⊢
    rw [Int.toNat_zero, cellAt_of_block hget]
    exact zeroBlock_getElem? B j hj

theorem new_inv : R3CStringBlock.new.Inv :=
  init_inv 4096 (by decide) 4

theorem newKb_ok (kb : Int) (h : 1 ≤ kb) :
    newKb kb = .ok (init (members (kb * 1024)) kb) := by
  have : ¬ kb < 1 := by omega
  simp [newKb, this]

theorem newKb_spec {kb : Int} {b : R3CStringBlock} (h : newKb kb = .ok b) :
    1 ≤ kb ∧ b.Inv ∧ b.bytesPerBlock = kb * 1024 ∧ b.currMemBlock = 0 ∧
      b.bytesUsedInBlock = 0 ∧ b.alone = [] := by
  unfold newKb at h
  split_ifs at h with hk
  simp only [pure_eq_ok, Except.ok.injEq] at h
  subst h
  exact ⟨by omega, init_inv _ (by omega) kb, rfl, rfl, rfl, rfl⟩

theorem addString_eq_addCall (b : R3CStringBlock) (s : Option (List Nat)) :
    b.addString s = b.addCall (.str s) := rfl

theorem addStringMax_eq_addCall (b : R3CStringBlock) (s : Option (List Nat)) (m : Int) :
    b.addStringMax s m = b.addCall (.strMax s m) := rfl

/-- Every reachable state satisfies the invariant, and its block size is a
positive multiple of 1024. -/
theorem Reachable.inv {b : R3CStringBlock} (hr : b.Reachable) :
    b.Inv ∧ ∃ kb : Int, 1 ≤ kb ∧ b.bytesPerBlock = kb * 1024 := by
  induction hr with
  | new => exact ⟨new_inv, 4, by decide, rfl⟩
  | newKb kb b h =>
    obtain ⟨h1, h2, h3, _⟩ := newKb_spec h
    exact ⟨h2, kb, h1, h3⟩
  | addString b s h b1 _ hadd ih =>
    obtain ⟨h', b1', he, hI1, hB1, _⟩ := addCall_spec ih.1 (.str s)
    rw [← addString_eq_addCall, hadd] at he
    cases he
    exact ⟨hI1, by rw [hB1]; exact ih.2⟩
  | addStringMax b s m h b1 _ hadd ih =>
    obtain ⟨h', b1', he, hI1, hB1, _⟩ := addCall_spec ih.1 (.strMax s m)
    rw [← addStringMax_eq_addCall, hadd] at he
    cases he
    exact ⟨hI1, by rw [hB1]; exact ih.2⟩

/-- `insertString` on a state that satisfies the invariant, for a request large
enough for the string: the call returns, reserves exactly `charsToAlloc` bytes,
and the string can be read back at the pointer it returns. -/
theorem insertString_spec {b : R3CStringBlock} (hI : b.Inv) (str : List Nat) (c : Int)
    (hlen : strlen str + 1 ≤ c) :
    ∃ h b1, b.insertString str c = .ok (h, b1) ∧ Reserved b b1 h c ∧
      b1.readStr h = .ok (chars str) := by
  by_cases hbig : b.bytesPerBlock / 2 < c
  · obtain ⟨a, ha, hal, hrd⟩ := insertString_alone_spec b str c hlen hbig
    refine ⟨_, _, ha, ⟨rfl, a, rfl, hal⟩, ?_⟩
    simp only [readStr]
    rw [List.getElem?_append_right (le_refl _)]
    simpa using hrd
  · obtain ⟨p, b2, hins, hI2, _, _, _, _, hcur2, hu2, _, _, hrd⟩ :=
      insertString_pool_spec hI str c hlen (by omega)
    refine ⟨_, _, hins, ⟨?_, hcur2, hu2⟩, hrd⟩
    rw [hI2.hptr, hcur2, hu2]

/-- Calls of `addString` one after the other, from a state that satisfies the
invariant: all calls return, the invariant holds afterwards, the cursor has not
moved back, no byte before the first cursor has changed, and every pointer into
the pool that was returned lies at or behind the first cursor. -/
theorem addCalls_spec {b : R3CStringBlock} (hI : b.Inv) (calls : List AddCall) :
    ∃ hs b2, b.addCalls calls = .ok (hs, b2) ∧ b2.Inv ∧
      b2.bytesPerBlock = b.bytesPerBlock ∧ cursorLe b b2 ∧
      (∀ i j : Nat, Before b i j → b2.cellAt i j = b.cellAt i j) ∧
      (∀ (k : Nat) (a : Storage), b.alone[k]? = some a → b2.alone[k]? = some a) ∧
      (∀ q n, (StrPtr.pool q, n) ∈ hs →
        0 ≤ q.offset ∧ 0 ≤ q.block ∧ 1 ≤ n ∧
        (b.currMemBlock < q.block ∨
          (b.currMemBlock = q.block ∧ b.bytesUsedInBlock ≤ q.offset)) ∧
        (q.block < b2.currMemBlock ∨
          (q.block = b2.currMemBlock ∧ q.offset + n ≤ b2.bytesUsedInBlock)) ∧
        q.offset + n < b.bytesPerBlock) := by
  induction calls generalizing b with
  | nil =>
    exact ⟨[], b, rfl, hI, rfl, cursorLe_refl b, fun _ _ _ => rfl, fun _ _ h => h,
      fun q n h => by simp at h⟩
  | cons call calls ih =>
    obtain ⟨h, b1, he, hI1, hB1, hle1, hfr1, hal1, hp1⟩ := addCall_spec hI call
    obtain ⟨hs, b2, he2, hI2, hB2, hle2, hfr2, hal2, hp2⟩ := ih hI1
    refine ⟨(h, call.charsToAlloc (call.arg.getD [])) :: hs, b2, ?_, hI2, by rw [hB2, hB1],
      cursorLe_trans hle1 hle2, ?_, fun k a hk => hal2 k a (hal1 k a hk), ?_⟩
    · simp only [addCalls, he, ok_bind, he2, pure_eq_ok]
    · intro i j hb
      rw [hfr2 i j (Before_mono hle1 hb), hfr1 i j hb]
    · intro q n hq
      simp only [List.mem_cons, Prod.mk.injEq] at hq
      unfold cursorLe at hle1 hle2
      rcases hq with ⟨hq1, hq2⟩ | hq
      · obtain ⟨s, hs1, h0, h0b, hpos, hc1, hu1, hlt⟩ := hp1 q hq1.symm
        have hn : n = call.charsToAlloc s := by rw [hq2, hs1]; rfl
        have hge := charsToAlloc_ge call s
        have hsl : 0 ≤ strlen s := by unfold strlen; omega
        refine ⟨h0, h0b, by omega, hpos, ?_, by omega⟩
        omega
      · obtain ⟨h0, h0b, hn, hpos, hend, hlt⟩ := hp2 q n hq
        exact ⟨h0, h0b, hn, by omega, hend, by omega⟩

end R3CStringBlock
namespace R3CStringBlock

theorem readBlock_ok {m : List (Option Storage)} {i : Int} {blk : Storage}
    (h : readBlock m i = .ok blk) : 0 ≤ i ∧ m[i.toNat]? = some (some blk) := by
  unfold readBlock readPtr at h
  split_ifs at h with hc
  · simp only [ok_bind] at h
    have hlt : i.toNat < m.length := by omega
    cases hg : m.getD i.toNat none with
    | none => rw [hg] at h; cases h
    | some blk0 =>
      rw [hg] at h
      simp only [pure_eq_ok, Except.ok.injEq] at h
      subst h
      refine ⟨hc.1, ?_⟩
      rw [List.getD_eq_getElem?_getD, List.getElem?_eq_getElem hlt] at hg
      rw [List.getElem?_eq_getElem hlt]
      simpa using hg
  · cases h

/-- The string read from cells depends only on the cells up to its
terminator. -/
theorem cellsStr_congr {m1 m2 : Storage} {cs : List Nat} (h : cellsStr m1 = .ok cs)
    (hc : ∀ j : Nat, j ≤ cs.length → m2[j]? = m1[j]?) : cellsStr m2 = .ok cs := by
  obtain ⟨h0, rest, hm⟩ := cellsStr_ok h
  have hlen : cs.length + 1 ≤ m2.length := by
    by_contra hn
    have := hc cs.length (le_refl _)
    rw [List.getElem?_eq_none (by omega), hm,
      List.getElem?_append_right (by simp)] at this
    simp at this
  have htake : m2.take (cs.length + 1) = cs.map some ++ [some 0] := by
    apply List.ext_getElem?
    intro j
    by_cases hj : j < cs.length + 1
    · rw [List.getElem?_take_of_lt hj, hc j (by omega), hm]
      by_cases hj2 : j < cs.length
      · rw [List.getElem?_append_left (by simpa using hj2),
          List.getElem?_append_left (by simpa using hj2)]
      · have : j = cs.length := by omega
        subst this
        rw [List.getElem?_append_right (by simp), List.getElem?_append_right (by simp)]
        simp
    · rw [List.getElem?_eq_none (by simp; omega), List.getElem?_eq_none (by simp; omega)]
  have hsplit : m2 = cs.map some ++ some 0 :: m2.drop (cs.length + 1) := by
    conv_lhs => rw [← List.take_append_drop (cs.length + 1) m2, htake]
    simp
  rw [hsplit]
  exact cellsStr_build cs _ h0

/-- The string read at a pointer into the pool depends only on the bytes from
the pointer to the terminator. -/
theorem readStr_pool_congr {b1 b2 : R3CStringBlock} {p : PoolPtr} {cs : List Nat}
    (hoff : 0 ≤ p.offset) (hr : b1.readStr (.pool p) = .ok cs)
    (hc : ∀ j : Nat, j ≤ cs.length →
      b2.cellAt p.block.toNat (p.offset.toNat + j)
        = b1.cellAt p.block.toNat (p.offset.toNat + j)) :
    b2.readStr (.pool p) = .ok cs := by
  simp only [readStr] at hr ⊢
  cases hb : readBlock b1.memBlock p.block with
  | error e => rw [hb] at hr; cases hr
  | ok blk1 =>
    rw [hb] at hr
    simp only [ok_bind, storageStr, if_neg (not_lt.mpr hoff)] at hr
    obtain ⟨hp0, hblk1⟩ := readBlock_ok hb
    obtain ⟨_, rest, hm⟩ := cellsStr_ok hr
    have hcell1 : ∀ j : Nat, b1.cellAt p.block.toNat (p.offset.toNat + j)
        = (blk1.drop p.offset.toNat)[j]? := by
      intro j
      rw [cellAt_of_block hblk1, List.getElem?_drop]
    have hfirst : b2.cellAt p.block.toNat (p.offset.toNat + 0) ≠ none := by
      rw [hc 0 (Nat.zero_le _), hcell1 0, hm]
      cases cs <;> simp
    obtain ⟨blk2, hblk2⟩ : ∃ blk2, b2.memBlock[p.block.toNat]? = some (some blk2) := by
      unfold cellAt at hfirst
      split at hfirst
      · exact ⟨_, by assumption⟩
      · exact absurd rfl hfirst
    rw [readBlock_of_getElem? hp0 hblk2]
    simp only [ok_bind, storageStr, if_neg (not_lt.mpr hoff)]
    refine cellsStr_congr hr ?_
    intro j hj
    rw [List.getElem?_drop, ← cellAt_of_block hblk2, hc j hj, hcell1 j]

/-- A call whose request is at most half a block is served from the pool. -/
theorem addCall_pool_spec {b : R3CStringBlock} (hI : b.Inv) (call : AddCall) (s : List Nat)
    (harg : call.arg = some s) (hhalf : call.charsToAlloc s ≤ b.bytesPerBlock / 2) :
    ∃ p b2, b.addCall call = .ok (.pool p, b2) ∧ b2.Inv ∧
      b2.bytesPerBlock = b.bytesPerBlock ∧ b2.alone = b.alone ∧
      (b.bytesUsedInBlock + call.charsToAlloc s < b.bytesPerBlock →
        p = ⟨b.currMemBlock, b.bytesUsedInBlock⟩) ∧
      (b.bytesPerBlock ≤ b.bytesUsedInBlock + call.charsToAlloc s →
        p = ⟨b.currMemBlock + 1, 0⟩) ∧
      b2.currMemBlock = p.block ∧ b2.bytesUsedInBlock = p.offset + call.charsToAlloc s ∧
      b2.readStr (.pool p) = .ok (chars s) := by
  rw [addCall_eq, harg]
  obtain ⟨p, b2, h1, h2, h3, h4, h5, h6, h7, h8, _, _, h9⟩ :=
    insertString_pool_spec hI s _ (charsToAlloc_ge call s) hhalf
  exact ⟨p, b2, h1, h2, h3, h4, h5, h6, h7, h8, h9⟩

/-- A call whose request exceeds half a block stores the string alone. -/
theorem addCall_alone_spec (b : R3CStringBlock) (call : AddCall) (s : List Nat)
    (harg : call.arg = some s) (hbig : b.bytesPerBlock / 2 < call.charsToAlloc s) :
    ∃ a, b.addCall call = .ok (.alone b.alone.length, { b with alone := b.alone ++ [a] }) ∧
      (a.length : Int) = call.charsToAlloc s ∧ storageStr a 0 = .ok (chars s) := by
  rw [addCall_eq, harg]
  exact insertString_alone_spec b s _ (charsToAlloc_ge call s) hbig

end R3CStringBlock
/-! ## The block arena: block size, reservation, placement, stability -/

namespace R3CStringBlock

/-- C16.  `R3CStringBlock(65)` returns an arena whose block size is
`65 * 1024 = 66560` bytes, and `R3CStringBlock(1000)` one of `1024000` bytes:
the constructor sets `bytesPerBlock` from its argument before `init` clamps its
own copy of the argument, so the size is not limited to 64 KB. -/
theorem newKb_block_size_not_clamped :
    (∃ b, newKb 65 = .ok b ∧ b.bytesPerBlock = 66560) ∧
    (∃ b, newKb 1000 = .ok b ∧ b.bytesPerBlock = 1024000) :=
  ⟨⟨_, newKb_ok 65 (by decide), rfl⟩, ⟨_, newKb_ok 1000 (by decide), rfl⟩⟩

/-- C17.  In every reachable arena, for every string `s` and reserve length
`r`: `addString(s, r)` returns, reserves exactly `max(strlen(s), r) + 1` bytes,
and the string read back at the pointer it returns is `s` (up to its
terminator); `addString(s)` does the same with `strlen(s) + 1` bytes; and
`addString` of `NULL` returns `NULL` and leaves the arena as it is. -/
theorem addString_reserves (b : R3CStringBlock) (hr : b.Reachable) (s : List Nat) (r : Int) :
    (∃ h b1, b.addStringMax (some s) r = .ok (h, b1) ∧
        Reserved b b1 h (max (strlen s) r + 1) ∧ b1.readStr h = .ok (chars s)) ∧
    (∃ h b1, b.addString (some s) = .ok (h, b1) ∧
        Reserved b b1 h (strlen s + 1) ∧ b1.readStr h = .ok (chars s)) ∧
    b.addString none = .ok (.null, b) ∧ b.addStringMax none r = .ok (.null, b) := by
  have hI := hr.inv.1
  refine ⟨?_, ?_, rfl, rfl⟩
  · have hc : (if r > strlen s then r else strlen s) + 1 = max (strlen s) r + 1 := by
      split_ifs <;> omega
    have := insertString_spec hI s (max (strlen s) r + 1) (by omega)
    simpa only [addStringMax, hc] using this
  · exact insertString_spec hI s (strlen s + 1) (le_refl _)

/-- Instance of C17: the arena built by `R3CStringBlock()`, the string `hi` and
the reserve length 10. -/
theorem addString_reserves_witness :
    (∃ h b1, R3CStringBlock.new.addStringMax (some (bytes "hi")) 10 = .ok (h, b1) ∧
        Reserved R3CStringBlock.new b1 h (max (strlen (bytes "hi")) 10 + 1) ∧
        b1.readStr h = .ok (chars (bytes "hi"))) ∧
    (∃ h b1, R3CStringBlock.new.addString (some (bytes "hi")) = .ok (h, b1) ∧
        Reserved R3CStringBlock.new b1 h (strlen (bytes "hi") + 1) ∧
        b1.readStr h = .ok (chars (bytes "hi"))) ∧
    R3CStringBlock.new.addString none = .ok (.null, R3CStringBlock.new) ∧
    R3CStringBlock.new.addStringMax none 10 = .ok (.null, R3CStringBlock.new) :=
  addString_reserves R3CStringBlock.new Reachable.new (bytes "hi") 10

/-- C18.  In every reachable arena, for a call of `addString` with the string
`s` and request `c` (its `charsToAlloc`): if `c` is strictly greater than half
the block size, the string is stored alone in a new array of exactly `c` bytes,
and the block pointers with the contents of the blocks, the current block
index, the cursor and the used-byte count are unchanged; if not, the pointer
returned points into the pool and no array is allocated outside it. -/
theorem addString_alone_iff (b : R3CStringBlock) (hr : b.Reachable) (call : AddCall)
    (s : List Nat) (harg : call.arg = some s) :
    (b.bytesPerBlock < 2 * call.charsToAlloc s →
      ∃ a b1, b.addCall call = .ok (.alone b.alone.length, b1) ∧
        b1.alone = b.alone ++ [a] ∧ (a.length : Int) = call.charsToAlloc s ∧
        b1.memBlock = b.memBlock ∧ b1.currMemBlock = b.currMemBlock ∧
        b1.nextStrPtr = b.nextStrPtr ∧ b1.bytesUsedInBlock = b.bytesUsedInBlock) ∧
    (2 * call.charsToAlloc s ≤ b.bytesPerBlock →
      ∃ p b1, b.addCall call = .ok (.pool p, b1) ∧ b1.alone = b.alone) := by
  obtain ⟨hI, kb, hkb, hB⟩ := hr.inv
  constructor
  · intro hbig
    obtain ⟨a, ha, hlen, _⟩ := addCall_alone_spec b call s harg (by omega)
    exact ⟨a, _, ha, rfl, hlen, rfl, rfl, rfl, rfl⟩
  · intro hsmall
    obtain ⟨p, b2, h1, _, _, h4, _⟩ := addCall_pool_spec hI call s harg (by omega)
    exact ⟨p, b2, h1, h4⟩

/-- Instance of C18: the arena built by `R3CStringBlock()` (blocks of 4096
bytes) and `addString("hi")`, a request of 3 bytes. -/
theorem addString_alone_iff_witness :
    (R3CStringBlock.new.bytesPerBlock < 2 * (AddCall.str (some (bytes "hi"))).charsToAlloc (bytes "hi") →
      ∃ a b1, R3CStringBlock.new.addCall (.str (some (bytes "hi")))
          = .ok (.alone R3CStringBlock.new.alone.length, b1) ∧
        b1.alone = R3CStringBlock.new.alone ++ [a] ∧
        (a.length : Int) = (AddCall.str (some (bytes "hi"))).charsToAlloc (bytes "hi") ∧
        b1.memBlock = R3CStringBlock.new.memBlock ∧
        b1.currMemBlock = R3CStringBlock.new.currMemBlock ∧
        b1.nextStrPtr = R3CStringBlock.new.nextStrPtr ∧
        b1.bytesUsedInBlock = R3CStringBlock.new.bytesUsedInBlock) ∧
    (2 * (AddCall.str (some (bytes "hi"))).charsToAlloc (bytes "hi") ≤ R3CStringBlock.new.bytesPerBlock →
      ∃ p b1, R3CStringBlock.new.addCall (.str (some (bytes "hi"))) = .ok (.pool p, b1) ∧
        b1.alone = R3CStringBlock.new.alone) :=
  addString_alone_iff R3CStringBlock.new Reachable.new (.str (some (bytes "hi")))
    (bytes "hi") rfl

theorem strlen_replicate (n : Nat) (c : Nat) (hc : c ≠ 0) :
    strlen (List.replicate n c) = n := by
  unfold strlen
  rw [chars_of_no_zero]
  · simp
  · intro h
    exact hc (List.eq_of_mem_replicate h).symm

/-- C19, the claim as stated fails.  In the arena built by `R3CStringBlock(1)`
(blocks of 1024 bytes), after `addString` of a string of 511 characters the
used-byte count is 512; a second `addString` of 511 characters requests
`c = 512` bytes, at most half a block, with `512 + 512 <= 1024`, and is placed at
the start of block 1, not in block 0. -/
theorem addString_advances_on_exact_fit :
    ∃ b0 p1 b1 p2 b2, newKb 1 = .ok b0 ∧
      b0.addString (some (List.replicate 511 97)) = .ok (.pool p1, b1) ∧
      b1.bytesUsedInBlock = 512 ∧ b1.bytesPerBlock = 1024 ∧ b1.currMemBlock = 0 ∧
      strlen (List.replicate 511 97) + 1 = 512 ∧
      b1.bytesUsedInBlock + 512 ≤ b1.bytesPerBlock ∧
      b1.addString (some (List.replicate 511 97)) = .ok (.pool p2, b2) ∧
      p2 = ⟨1, 0⟩ ∧ b2.currMemBlock = 1 := by
  have hs : strlen (List.replicate 511 97) = 511 := strlen_replicate 511 97 (by decide)
  have hI0 : (init (members (1 * 1024)) 1).Inv := init_inv _ (by decide) 1
  have hc : (AddCall.str (some (List.replicate 511 97))).charsToAlloc (List.replicate 511 97)
      = 512 := by
    simp only [AddCall.charsToAlloc, hs]; rfl
  obtain ⟨p1, b1, h1, hI1, hB1, _, hfit1, _, hcur1, hu1, _⟩ :=
    addCall_pool_spec hI0 (.str (some (List.replicate 511 97))) _ rfl
      (by rw [hc]; decide)
  have hp1 : p1 = ⟨0, 0⟩ := hfit1 (by rw [hc]; decide)
  have hB1' : b1.bytesPerBlock = 1024 := by rw [hB1]; rfl
  have hu1' : b1.bytesUsedInBlock = 512 := by rw [hu1, hp1, hc]; rfl
  have hcur1' : b1.currMemBlock = 0 := by rw [hcur1, hp1]
  obtain ⟨p2, b2, h2, _, _, _, _, hadv2, hcur2, _⟩ :=
    addCall_pool_spec hI1 (.str (some (List.replicate 511 97))) _ rfl
      (by rw [hc, hB1']; decide)
  have hp2 : p2 = ⟨1, 0⟩ := by
    rw [hadv2 (by rw [hc, hB1', hu1']; decide), hcur1']; rfl
  refine ⟨_, p1, b1, p2, b2, newKb_ok 1 (by decide), h1, hu1', hB1', hcur1', by rw [hs]; rfl,
    by rw [hu1', hB1']; decide, h2, hp2, by rw [hcur2, hp2]⟩

/-- C19, amended.  In every reachable arena with `u` bytes used in the current
block, a call of `addString` whose request `c` is at most half the block size
is served from the pool; it moves to the start of the next block exactly when
`u + c >= bytesPerBlock`, and when `u + c < bytesPerBlock` the string is placed
at the cursor of the current block and the used-byte count becomes `u + c`. -/
theorem addString_placement (b : R3CStringBlock) (hr : b.Reachable) (call : AddCall)
    (s : List Nat) (harg : call.arg = some s)
    (hhalf : 2 * call.charsToAlloc s ≤ b.bytesPerBlock) :
    ∃ p b1, b.addCall call = .ok (.pool p, b1) ∧
      (b.bytesPerBlock ≤ b.bytesUsedInBlock + call.charsToAlloc s →
        p = ⟨b.currMemBlock + 1, 0⟩ ∧ b1.currMemBlock = b.currMemBlock + 1 ∧
          b1.bytesUsedInBlock = call.charsToAlloc s) ∧
      (b.bytesUsedInBlock + call.charsToAlloc s < b.bytesPerBlock →
        p = ⟨b.currMemBlock, b.bytesUsedInBlock⟩ ∧ b1.currMemBlock = b.currMemBlock ∧
          b1.bytesUsedInBlock = b.bytesUsedInBlock + call.charsToAlloc s) := by
  obtain ⟨hI, kb, hkb, hB⟩ := hr.inv
  obtain ⟨p, b2, h1, _, _, _, hfit, hadv, hcur, hu, _⟩ :=
    addCall_pool_spec hI call s harg (by omega)
  refine ⟨p, b2, h1, ?_, ?_⟩
  · intro h
    have hp := hadv h
    rw [hcur, hu, hp]
    exact ⟨rfl, rfl, by simp⟩
  · intro h
    have hp := hfit h
    rw [hcur, hu, hp]
    exact ⟨rfl, rfl, rfl⟩

/-- Instance of C19 amended: the arena built by `R3CStringBlock()` and
`addString("hi")`. -/
theorem addString_placement_witness :
    ∃ p b1, R3CStringBlock.new.addCall (.str (some (bytes "hi"))) = .ok (.pool p, b1) ∧
      (R3CStringBlock.new.bytesPerBlock ≤ R3CStringBlock.new.bytesUsedInBlock
          + (AddCall.str (some (bytes "hi"))).charsToAlloc (bytes "hi") →
        p = ⟨R3CStringBlock.new.currMemBlock + 1, 0⟩ ∧
          b1.currMemBlock = R3CStringBlock.new.currMemBlock + 1 ∧
          b1.bytesUsedInBlock = (AddCall.str (some (bytes "hi"))).charsToAlloc (bytes "hi")) ∧
      (R3CStringBlock.new.bytesUsedInBlock
          + (AddCall.str (some (bytes "hi"))).charsToAlloc (bytes "hi")
          < R3CStringBlock.new.bytesPerBlock →
        p = ⟨R3CStringBlock.new.currMemBlock, R3CStringBlock.new.bytesUsedInBlock⟩ ∧
          b1.currMemBlock = R3CStringBlock.new.currMemBlock ∧
          b1.bytesUsedInBlock = R3CStringBlock.new.bytesUsedInBlock
            + (AddCall.str (some (bytes "hi"))).charsToAlloc (bytes "hi")) :=
  addString_placement R3CStringBlock.new Reachable.new (.str (some (bytes "hi")))
    (bytes "hi") rfl (by decide)

end R3CStringBlock
namespace R3CStringBlock

/-- C20.  In every reachable arena, when a call of `addString` with the string
`s` has returned the pointer `p` into the pool, every further sequence of
`addString` calls returns, leaves every byte of the region reserved at `p`
unchanged, so that `s` is still read at `p`, and every pointer into the pool
that it returns has a region without a byte in common with the region at `p`. -/
theorem addString_stable (b : R3CStringBlock) (hr : b.Reachable) (call : AddCall)
    (s : List Nat) (harg : call.arg = some s) (p : PoolPtr) (b1 : R3CStringBlock)
    (hadd : b.addCall call = .ok (.pool p, b1)) (calls : List AddCall) :
    ∃ hs b2, b1.addCalls calls = .ok (hs, b2) ∧
      (∀ j : Nat, (j : Int) < call.charsToAlloc s →
        b2.cellAt p.block.toNat (p.offset.toNat + j)
          = b1.cellAt p.block.toNat (p.offset.toNat + j)) ∧
      b1.readStr (.pool p) = .ok (chars s) ∧ b2.readStr (.pool p) = .ok (chars s) ∧
      ∀ q n, (StrPtr.pool q, n) ∈ hs → Disjoint p (call.charsToAlloc s) q n := by
  have hI := hr.inv.1
  have hpool : call.charsToAlloc s ≤ b.bytesPerBlock / 2 := by
    by_contra hn
    obtain ⟨a, ha, _⟩ := addCall_alone_spec b call s harg (by omega)
    rw [hadd] at ha
    cases ha
  obtain ⟨p', b1', h1, hI1, hB1, _, hfit, hadv, hcur, hu, hrd⟩ :=
    addCall_pool_spec hI call s harg hpool
  rw [hadd] at h1
  cases h1
  have hp0 : 0 ≤ p.offset ∧ 0 ≤ p.block := by
    have := hI.hu0
    have := hI.hcur0
    by_cases h : b.bytesUsedInBlock + call.charsToAlloc s < b.bytesPerBlock
    · rw [hfit h]; exact ⟨by assumption, by assumption⟩
    · rw [hadv (by omega)]; exact ⟨le_refl _, by show 0 ≤ b.currMemBlock + 1; omega⟩
  obtain ⟨hs, b2, h2, _, _, _, hfr, _, hpos⟩ := addCalls_spec hI1 calls
  have hcells : ∀ j : Nat, (j : Int) < call.charsToAlloc s →
      b2.cellAt p.block.toNat (p.offset.toNat + j)
        = b1.cellAt p.block.toNat (p.offset.toNat + j) := by
    intro j hj
    apply hfr
    unfold Before
    right
    omega
  refine ⟨hs, b2, h2, hcells, hrd, ?_, ?_⟩
  · refine readStr_pool_congr hp0.1 hrd ?_
    intro j hj
    apply hcells
    have := charsToAlloc_ge call s
    have : strlen s = ((chars s).length : Int) := rfl
    omega
  · intro q n hq
    obtain ⟨_, _, _, hge, _⟩ := hpos q n hq
    unfold Disjoint
    omega

/-- Instance of C20: in the arena built by `R3CStringBlock()`, `addString("x")`
followed by `addString("yz")` and `addString("w", 5)`. -/
theorem addString_stable_witness :
    ∃ p b1, R3CStringBlock.new.addCall (.str (some (bytes "x"))) = .ok (.pool p, b1) ∧
      ∃ hs b2, b1.addCalls [.str (some (bytes "yz")), .strMax (some (bytes "w")) 5]
          = .ok (hs, b2) ∧
        (∀ j : Nat, (j : Int) < (AddCall.str (some (bytes "x"))).charsToAlloc (bytes "x") →
          b2.cellAt p.block.toNat (p.offset.toNat + j)
            = b1.cellAt p.block.toNat (p.offset.toNat + j)) ∧
        b1.readStr (.pool p) = .ok (chars (bytes "x")) ∧
        b2.readStr (.pool p) = .ok (chars (bytes "x")) ∧
        ∀ q n, (StrPtr.pool q, n) ∈ hs →
          Disjoint p ((AddCall.str (some (bytes "x"))).charsToAlloc (bytes "x")) q n := by
  obtain ⟨p, b1, h1, _⟩ :=
    addCall_pool_spec new_inv (.str (some (bytes "x"))) (bytes "x") rfl (by decide)
  exact ⟨p, b1, h1,
    addString_stable R3CStringBlock.new Reachable.new (.str (some (bytes "x"))) (bytes "x") rfl
      p b1 h1 _⟩

end R3CStringBlock
/-! ## The arena with stack levels: `push` and `pop` -/

namespace R3CStringBlockStack

theorem PoolPtr_le_refl (p : PoolPtr) : PoolPtr.le p p := Or.inr ⟨rfl, le_refl _⟩

theorem PoolPtr_le_trans {p q r : PoolPtr} (h1 : PoolPtr.le p q) (h2 : PoolPtr.le q r) :
    PoolPtr.le p r := by
  unfold PoolPtr.le at *
  omega

/-- The state built by `init` on an arena that satisfies the invariant. -/
theorem stack_init_inv {b : R3CStringBlock} (hI : b.Inv) : (init b).Inv := by
  have hget : ((List.replicate ALLOC_STACK_SIZE (none : Option PoolPtr)).set 0
      (some b.nextStrPtr))[0]? = some (some b.nextStrPtr) := by
    rw [List.getElem?_set_self (by simp [ALLOC_STACK_SIZE])]
  refine ⟨hI, le_refl _, by simp [init], by simp [init, ALLOC_STACK_SIZE], ?_, ?_⟩
  · intro i hi
    have hi0 : i = 0 := by simp only [init] at hi; omega
    subst hi0
    refine ⟨b.nextStrPtr, hget, ?_⟩
    rw [hI.hptr]
    exact ⟨hI.hcur0, hI.hu0, hI.hu, PoolPtr_le_refl _⟩
  · intro i j hij hj p q hp hq
    have hj0 : j = 0 := by simp only [init] at hj; omega
    have hi0 : i = 0 := by omega
    subst hj0 hi0
    simp only [init] at hp hq
    rw [hp] at hq
    cases hq
    exact PoolPtr_le_refl _

/-- `push` on a state that satisfies the invariant. -/
theorem push_spec {s : R3CStringBlockStack} (hI : s.Inv) :
    ∃ s1, s.push = .ok (s.stackLevel + 1, s1) ∧ s1.Inv ∧
      s1.toR3CStringBlock = s.toR3CStringBlock ∧ s1.stackLevel = s.stackLevel + 1 ∧
      s1.stackStartPtr[(s.stackLevel + 1).toNat]? = some (some s.cursor) ∧
      (∀ i : Nat, (i : Int) ≤ s.stackLevel → s1.stackStartPtr[i]? = s.stackStartPtr[i]?) := by
  have hl0 := hI.hlev0
  have hl := hI.hlev
  have hsl := hI.hslen
  obtain ⟨m1, a1, hm1⟩ : ∃ m1 a1, (m1, a1) =
      (if s.stackLevel + 1 ≥ s.stackStartPtrAlloc then
        (s.stackStartPtr ++ List.replicate s.stackStartPtrAlloc.toNat none,
          s.stackStartPtrAlloc * 2)
      else (s.stackStartPtr, s.stackStartPtrAlloc)) := ⟨_, _, rfl⟩
  have hprop : (m1.length : Int) = a1 ∧ s.stackLevel + 1 < a1 ∧
      ∀ i : Nat, (i : Int) ≤ s.stackLevel → m1[i]? = s.stackStartPtr[i]? := by
    split_ifs at hm1 with hg
    · simp only [Prod.mk.injEq] at hm1
      obtain ⟨rfl, rfl⟩ := hm1
      refine ⟨by simp; omega, by omega, ?_⟩
      intro i hi
      rw [List.getElem?_append_left (by omega)]
    · simp only [Prod.mk.injEq] at hm1
      obtain ⟨rfl, rfl⟩ := hm1
      exact ⟨hsl, by omega, fun _ _ => rfl⟩
  obtain ⟨hl1, hlt1, hsame⟩ := hprop
  have hcond : 0 ≤ s.stackLevel + 1 ∧ s.stackLevel + 1 < (m1.length : Int) :=
    ⟨by omega, by omega⟩
  have hcur : s.nextStrPtr = s.cursor := hI.hb.hptr
  have hset : (m1.set (s.stackLevel + 1).toNat (some s.nextStrPtr))[(s.stackLevel + 1).toNat]?
      = some (some s.cursor) := by
    rw [List.getElem?_set_self (by omega), hcur]
  have hother : ∀ i : Nat, (i : Int) ≤ s.stackLevel →
      (m1.set (s.stackLevel + 1).toNat (some s.nextStrPtr))[i]? = s.stackStartPtr[i]? := by
    intro i hi
    rw [List.getElem?_set_ne (by omega), hsame i hi]
  refine ⟨{ s with stackLevel := s.stackLevel + 1,
                   stackStartPtr := m1.set (s.stackLevel + 1).toNat (some s.nextStrPtr),
                   stackStartPtrAlloc := a1 }, ?_, ?_, rfl, rfl, hset, hother⟩
  · simp only [push, ← hm1, hcond, and_self, if_true, pure_eq_ok]
  · refine ⟨hI.hb, by simp only; omega, by simp only [List.length_set]; exact hl1,
      by simp only; omega, ?_, ?_⟩
    · intro i hi
      simp only at hi
      by_cases hie : (i : Int) ≤ s.stackLevel
      · obtain ⟨p, hp, h1, h2, h3, h4⟩ := hI.hrec i hie
        exact ⟨p, by simp only; rw [hother i hie, hp], h1, h2, h3, h4⟩
      · have : i = (s.stackLevel + 1).toNat := by omega
        subst this
        refine ⟨s.cursor, hset, hI.hb.hcur0, hI.hb.hu0, hI.hb.hu, PoolPtr_le_refl _⟩
    · intro i j hij hj p q hp hq
      simp only at hj hp hq
      by_cases hje : (j : Int) ≤ s.stackLevel
      · rw [hother i (by omega)] at hp
        rw [hother j hje] at hq
        exact hI.hmono i j hij hje p q hp hq
      · have hjv : j = (s.stackLevel + 1).toNat := by omega
        subst hjv
        rw [hset] at hq
        cases hq
        by_cases hie : (i : Int) ≤ s.stackLevel
        · rw [hother i hie] at hp
          obtain ⟨p', hp', _, _, _, hle⟩ := hI.hrec i hie
          rw [hp] at hp'
          cases hp'
          exact hle
        · have hiv : i = (s.stackLevel + 1).toNat := by omega
          subst hiv
          rw [hset] at hp
          cases hp
          exact PoolPtr_le_refl _

end R3CStringBlockStack
namespace R3CStringBlockStack

open R3CStringBlock in
/-- The backward search of `pop` for a position recorded in block `p.block`,
started at block `n` with the blocks `0 .. n` allocated: it ends at block
`p.block`, having cleared the blocks after it up to `n`, and never reads below
block 0. -/
theorem popSearch_spec (B : Int) (p : PoolPtr) (hoff0 : 0 ≤ p.offset) (hoffB : p.offset < B)
    (hp0 : 0 ≤ p.block) (n : Nat) (m : List (Option Storage)) (hpn : p.block ≤ n)
    (hblk : ∀ i : Nat, i ≤ n → ∃ blk, m[i]? = some (some blk)) :
    ∃ m1, popSearch B p n m = .ok (m1, p.block) ∧ m1.length = m.length ∧
      ∀ i : Nat, m1[i]? =
        if p.block < i ∧ i ≤ n then some (some (zeroBlock B)) else m[i]? := by
  induction n generalizing m with
  | zero =>
    obtain ⟨blk, hb⟩ := hblk 0 (le_refl _)
    have hpb : p.block = 0 := by omega
    have hrd : readBlock m ((0 : Nat) : Int) = .ok blk :=
      readBlock_of_getElem? (le_refl _) (by simpa using hb)
    refine ⟨m, ?_, rfl, ?_⟩
    · unfold popSearch
      have hc : p.block = ((0 : Nat) : Int) ∧ 0 ≤ p.offset ∧ p.offset < B :=
        ⟨by simpa using hpb, hoff0, hoffB⟩
      simp only [hrd, ok_bind, hc, and_self, if_true, pure_eq_ok, hpb]
    · intro i
      have : ¬ (p.block < (i : Int) ∧ i ≤ 0) := by omega
      rw [if_neg this]
  | succ k ih =>
    obtain ⟨blk, hb⟩ := hblk (k + 1) (le_refl _)
    have hrd : readBlock m ((k + 1 : Nat) : Int) = .ok blk :=
      readBlock_of_getElem? (by omega) (by simpa using hb)
    by_cases hpb : p.block = ((k + 1 : Nat) : Int)
    · refine ⟨m, ?_, rfl, ?_⟩
      · unfold popSearch
        have hc : p.block = ((k + 1 : Nat) : Int) ∧ 0 ≤ p.offset ∧ p.offset < B :=
          ⟨hpb, hoff0, hoffB⟩
        simp only [hrd, ok_bind, hc, and_self, if_true, pure_eq_ok]
      · intro i
        have : ¬ (p.block < (i : Int) ∧ i ≤ k + 1) := by omega
        rw [if_neg this]
    · have hlt : k + 1 < m.length := by
        by_contra hn
        rw [List.getElem?_eq_none (by omega)] at hb
        cases hb
      have hblk1 : ∀ i : Nat, i ≤ k →
          ∃ blk, (m.set (k + 1) (some (zeroBlock B)))[i]? = some (some blk) := by
        intro i hi
        obtain ⟨blk0, h0⟩ := hblk i (by omega)
        exact ⟨blk0, by rw [List.getElem?_set_ne (by omega), h0]⟩
      obtain ⟨m1, h1, hl1, hg1⟩ := ih (m.set (k + 1) (some (zeroBlock B))) (by omega) hblk1
      refine ⟨m1, ?_, by rw [hl1, List.length_set], ?_⟩
      · unfold popSearch
        have hc : ¬ (p.block = ((k + 1 : Nat) : Int) ∧ 0 ≤ p.offset ∧ p.offset < B) :=
          fun h => hpb h.1
        simp only [hrd, ok_bind, hc, if_false]
        exact h1
      · intro i
        rw [hg1 i]
        by_cases hik : i = k + 1
        · subst hik
          have h1 : ¬ (p.block < ((k + 1 : Nat) : Int) ∧ k + 1 ≤ k) := by omega
          have h2 : p.block < ((k + 1 : Nat) : Int) ∧ k + 1 ≤ k + 1 := ⟨by omega, le_refl _⟩
          rw [if_neg h1, if_pos h2, List.getElem?_set_self hlt]
        · rw [List.getElem?_set_ne (fun h => hik h.symm)]
          by_cases hc : p.block < (i : Int) ∧ i ≤ k
          · rw [if_pos hc, if_pos ⟨hc.1, by omega⟩]
          · rw [if_neg hc, if_neg (by omega)]

end R3CStringBlockStack
namespace R3CStringBlockStack

open R3CStringBlock in
theorem zeroBlock_getElem?_ge (n : Int) (j : Nat) (h : n ≤ (j : Int)) :
    (zeroBlock n)[j]? = none := by
  unfold zeroBlock
  rw [List.getElem?_eq_none]
  simp
  omega

open R3CStringBlock in
/-- `pop` on a state that satisfies the invariant, at a level of at least 1:
the call returns `stackLevel - 1`; the cursor and the used-byte count go back to
the position `p` recorded for the level; every byte before `p` is kept and
every byte from `p` on, in the blocks up to the old current block, is `0`. -/
theorem pop_spec {s : R3CStringBlockStack} (hI : s.Inv) (hlev : 1 ≤ s.stackLevel) :
    ∃ p s1, s.stackStartPtr[s.stackLevel.toNat]? = some (some p) ∧
      s.pop = .ok (s.stackLevel - 1, s1) ∧ s1.Inv ∧
      s1.stackLevel = s.stackLevel - 1 ∧ s1.currMemBlock = p.block ∧
      s1.bytesUsedInBlock = p.offset ∧ s1.nextStrPtr = p ∧
      s1.bytesPerBlock = s.bytesPerBlock ∧ s1.alone = s.alone ∧
      (∀ i j : Nat, (i : Int) ≤ s.currMemBlock →
        s1.toR3CStringBlock.cellAt i j =
          if (i : Int) < p.block ∨ ((i : Int) = p.block ∧ (j : Int) < p.offset) then
            s.toR3CStringBlock.cellAt i j
          else if (j : Int) < s.bytesPerBlock then some (some 0) else none) ∧
      (∀ i : Nat, (i : Int) ≤ s.stackLevel - 1 → s1.stackStartPtr[i]? = s.stackStartPtr[i]?) ∧
      (∃ m1, popSearch s.bytesPerBlock p s.currMemBlock.toNat s.memBlock = .ok (m1, p.block)) ∧
      0 ≤ p.block ∧ p.block ≤ s.currMemBlock := by
  have hb := hI.hb
  have hB := hb.hB
  have hc0 := hb.hcur0
  obtain ⟨p, hp, hpb0, hpo0, hpoB, hple⟩ := hI.hrec s.stackLevel.toNat (by omega)
  have hpcur : p.block ≤ s.currMemBlock := by
    unfold PoolPtr.le cursor at hple
    simp only at hple
    omega
  have hslt : s.stackLevel.toNat < s.stackStartPtr.length := by
    have := hI.hslen; have := hI.hlev; omega
  have hgetD : s.stackStartPtr.getD s.stackLevel.toNat none = some p := by
    rw [List.getD_eq_getElem?_getD, hp]; rfl
  have hblkall : ∀ i : Nat, i ≤ s.currMemBlock.toNat → ∃ blk, s.memBlock[i]? = some (some blk) := by
    intro i hi
    obtain ⟨blk, h1, _⟩ := hb.hblk i (by omega)
    exact ⟨blk, h1⟩
  obtain ⟨m1, hsearch, hl1, hg1⟩ := popSearch_spec s.bytesPerBlock p hpo0 hpoB hpb0
    s.currMemBlock.toNat s.memBlock (by omega) hblkall
  obtain ⟨blk0, hblk0, hblen0⟩ := hb.hblk p.block.toNat (by omega)
  have hm1p : m1[p.block.toNat]? = some (some blk0) := by
    rw [hg1, if_neg (by omega), hblk0]
  have hrd : readBlock m1 p.block = .ok blk0 := readBlock_of_getElem? hpb0 hm1p
  have hwlen : ((List.replicate (s.bytesPerBlock - p.offset).toNat (0 : Nat)).length : Int)
      = s.bytesPerBlock - p.offset := by
    simp; omega
  obtain ⟨blk1, hblk1⟩ : ∃ blk1, blk1 = blk0.take p.offset.toNat
      ++ (List.replicate (s.bytesPerBlock - p.offset).toNat (0 : Nat)).map some
      ++ blk0.drop (p.offset.toNat
          + (List.replicate (s.bytesPerBlock - p.offset).toNat (0 : Nat)).length) := ⟨_, rfl⟩
  have hw : writeAt blk0 p.offset (List.replicate (s.bytesPerBlock - p.offset).toNat 0)
      = .ok blk1 := by
    rw [hblk1]
    exact writeAt_eq hpo0 (by rw [hwlen]; omega)
  have hplt : p.block.toNat < m1.length := by
    by_contra hn
    rw [List.getElem?_eq_none (by omega)] at hm1p
    cases hm1p
  have hcell1 : ∀ j : Nat, blk1[j]? =
      if (j : Int) < p.offset then blk0[j]?
      else if (j : Int) < s.bytesPerBlock then some (some 0) else none := by
    intro j
    rw [writeAt_getElem? hw j]
    by_cases h1 : (j : Int) < p.offset
    · rw [if_pos h1, if_pos h1]
    · rw [if_neg h1, if_neg h1, hwlen]
      by_cases h2 : (j : Int) < s.bytesPerBlock
      · rw [if_pos (by omega), if_pos h2, List.getElem?_replicate]
        have : j - p.offset.toNat < (s.bytesPerBlock - p.offset).toNat := by omega
        simp [this]
      · rw [if_neg (by omega), if_neg h2, List.getElem?_eq_none (by omega)]
  have hu1 : s.bytesPerBlock - (s.bytesPerBlock - p.offset) = p.offset := by omega
  refine ⟨p, { s with memBlock := m1.set p.block.toNat (some blk1), currMemBlock := p.block,
                      nextStrPtr := p,
                      bytesUsedInBlock := s.bytesPerBlock - (s.bytesPerBlock - p.offset),
                      stackLevel := s.stackLevel - 1,
                      stackStartPtr := s.stackStartPtr.set s.stackLevel.toNat none },
    hp, ?_, ?_, rfl, rfl, hu1, rfl, rfl, rfl, ?_, ?_, ⟨m1, hsearch⟩, hpb0, hpcur⟩
  · have h1 : ¬ s.stackLevel ≤ 0 := by omega
    have h2 : ¬ ¬ (s.stackLevel < (s.stackStartPtr.length : Int)) := by omega
    have h3 : ¬ s.currMemBlock < 0 := by omega
    simp only [pop, h1, h2, h3, if_false, hgetD, hsearch, ok_bind, hrd, hw, pure_eq_ok]
  · refine ⟨⟨hB, ?_, hpb0, ?_, ?_, ?_, ?_, ?_, ?_⟩, ?_, ?_, ?_, ?_, ?_⟩
    · simp only [List.length_set]; rw [hl1]; exact hb.hlen
    · simp only; have := hb.hcur; omega
    · intro i hi
      simp only at hi ⊢
      by_cases hie : i = p.block.toNat
      · subst hie
        refine ⟨blk1, by rw [List.getElem?_set_self hplt], ?_⟩
        rw [writeAt_length hw]; exact hblen0
      · obtain ⟨blk, h1, h2⟩ := hb.hblk i (by omega)
        refine ⟨blk, ?_, h2⟩
        rw [List.getElem?_set_ne (fun h => hie h.symm), hg1, if_neg (by omega), h1]
    · simp only; rw [hu1]
    · simp only; rw [hu1]; exact hpo0
    · simp only; rw [hu1]; exact hpoB
    · intro j hj hjB
      simp only at hj hjB ⊢
      rw [hu1] at hj
      rw [@cellAt_of_block _ _ blk1 (by simp only; rw [List.getElem?_set_self hplt]),
        hcell1 j, if_neg (by omega), if_pos hjB]
    · simp only; omega
    · simp only [List.length_set]; exact hI.hslen
    · simp only; have := hI.hlev; omega
    · intro i hi
      simp only at hi ⊢
      obtain ⟨q, hq, h1, h2, h3, _⟩ := hI.hrec i (by omega)
      refine ⟨q, by rw [List.getElem?_set_ne (by omega), hq], h1, h2, h3, ?_⟩
      have := hI.hmono i s.stackLevel.toNat (by omega) (by omega) q p hq hp
      unfold cursor
      simp only
      rw [hu1]
      exact this
    · intro i j hij hj q r hq hr
      simp only at hj hq hr
      rw [List.getElem?_set_ne (by omega)] at hq hr
      exact hI.hmono i j hij (by omega) q r hq hr
  · intro i j hi
    simp only [cellAt]
    by_cases hie : i = p.block.toNat
    · subst hie
      rw [List.getElem?_set_self hplt, hblk0]
      simp only
      rw [hcell1 j]
      by_cases h1 : (j : Int) < p.offset
      · rw [if_pos h1, if_pos (Or.inr ⟨by omega, h1⟩)]
      · have hnb : ¬ (((p.block.toNat : Nat) : Int) < p.block ∨
            (((p.block.toNat : Nat) : Int) = p.block ∧ (j : Int) < p.offset)) := by omega
        rw [if_neg h1, if_neg hnb]
    · rw [List.getElem?_set_ne (fun h => hie h.symm), hg1]
      by_cases h1 : (i : Int) < p.block
      · rw [if_neg (by omega), if_pos (Or.inl h1)]
      · have hnb : ¬ ((i : Int) < p.block ∨ ((i : Int) = p.block ∧ (j : Int) < p.offset)) := by
          omega
        rw [if_pos ⟨by omega, by omega⟩, if_neg hnb]
        simp only
        by_cases h2 : (j : Int) < s.bytesPerBlock
        · rw [if_pos h2, zeroBlock_getElem? _ _ h2]
        · rw [if_neg h2, zeroBlock_getElem?_ge _ _ (by omega)]
  · intro i hi
    simp only
    rw [List.getElem?_set_ne (by omega)]

end R3CStringBlockStack
namespace R3CStringBlockStack

open R3CStringBlock in
/-- Replacing the arena of a state by one whose cursor is not behind keeps the
invariant. -/
theorem inv_lift {s : R3CStringBlockStack} (hI : s.Inv) {b1 : R3CStringBlock} (hI1 : b1.Inv)
    (hB : b1.bytesPerBlock = s.bytesPerBlock) (hle : cursorLe s.toR3CStringBlock b1) :
    ({ s with toR3CStringBlock := b1 } : R3CStringBlockStack).Inv := by
  refine ⟨hI1, hI.hlev0, hI.hslen, hI.hlev, ?_, hI.hmono⟩
  intro i hi
  obtain ⟨p, hp, h1, h2, h3, h4⟩ := hI.hrec i hi
  refine ⟨p, hp, h1, h2, by simp only; rw [hB]; exact h3, ?_⟩
  unfold PoolPtr.le cursor at h4 ⊢
  unfold cursorLe at hle
  simp only at h4 ⊢
  omega

open R3CStringBlock in
/-- Calls of `addString` one after the other on a state that satisfies the
invariant: the stack level and the recorded positions are untouched, and the
arena changes as `R3CStringBlock.addCalls` says. -/
theorem stack_addCalls_spec {s : R3CStringBlockStack} (hI : s.Inv) (calls : List AddCall) :
    ∃ hs b2, s.toR3CStringBlock.addCalls calls = .ok (hs, b2) ∧
      s.addCalls calls = .ok (hs, { s with toR3CStringBlock := b2 }) ∧
      ({ s with toR3CStringBlock := b2 } : R3CStringBlockStack).Inv ∧
      b2.bytesPerBlock = s.bytesPerBlock ∧ cursorLe s.toR3CStringBlock b2 ∧
      (∀ i j : Nat, Before s.toR3CStringBlock i j →
        b2.cellAt i j = s.toR3CStringBlock.cellAt i j) ∧
      (∀ (k : Nat) (a : Storage), s.alone[k]? = some a → b2.alone[k]? = some a) ∧
      (∀ q n, (StrPtr.pool q, n) ∈ hs →
        0 ≤ q.offset ∧ 0 ≤ q.block ∧ 1 ≤ n ∧
        (s.currMemBlock < q.block ∨
          (s.currMemBlock = q.block ∧ s.bytesUsedInBlock ≤ q.offset)) ∧
        (q.block < b2.currMemBlock ∨
          (q.block = b2.currMemBlock ∧ q.offset + n ≤ b2.bytesUsedInBlock)) ∧
        q.offset + n < s.bytesPerBlock) := by
  obtain ⟨hs, b2, h1, hI2, hB2, hle, hfr, hal, hpos⟩ :=
    R3CStringBlock.addCalls_spec hI.hb calls
  refine ⟨hs, b2, h1, ?_, inv_lift hI hI2 hB2 hle, hB2, hle, hfr, hal, hpos⟩
  simp only [addCalls, h1, ok_bind, pure_eq_ok]

open R3CStringBlock in
/-- One call of `addString` on a state that satisfies the invariant. -/
theorem addCall_inv {s : R3CStringBlockStack} (hI : s.Inv) (call : AddCall) {h : StrPtr}
    {s1 : R3CStringBlockStack} (hadd : s.addCall call = .ok (h, s1)) : s1.Inv := by
  obtain ⟨h', b1, he, hI1, hB1, hle, _⟩ := R3CStringBlock.addCall_spec hI.hb call
  simp only [addCall, he, ok_bind, pure_eq_ok, Except.ok.injEq, Prod.mk.injEq] at hadd
  rw [← hadd.2]
  exact inv_lift hI hI1 hB1 hle

theorem stack_addString_eq_addCall (s : R3CStringBlockStack) (str : Option (List Nat)) :
    s.addString str = s.addCall (.str str) := rfl

theorem stack_addStringMax_eq_addCall (s : R3CStringBlockStack) (str : Option (List Nat))
    (m : Int) : s.addStringMax str m = s.addCall (.strMax str m) := rfl

theorem stack_new_inv : R3CStringBlockStack.new.Inv :=
  stack_init_inv R3CStringBlock.new_inv

theorem stack_newKb_spec {kb : Int} {s : R3CStringBlockStack} (h : newKb kb = .ok s) :
    s.Inv ∧ s.stackLevel = 0 ∧ s.bytesPerBlock = kb * 1024 := by
  unfold newKb at h
  cases hb : R3CStringBlock.newKb kb with
  | error e => rw [hb] at h; cases h
  | ok b =>
    rw [hb] at h
    simp only [ok_bind, pure_eq_ok, Except.ok.injEq] at h
    subst h
    obtain ⟨_, hI, hB, _⟩ := R3CStringBlock.newKb_spec hb
    exact ⟨stack_init_inv hI, rfl, hB⟩

/-- Every reachable state satisfies the invariant. -/
theorem Reachable.stack_inv {s : R3CStringBlockStack} (hr : s.Reachable) : s.Inv := by
  induction hr with
  | new => exact stack_new_inv
  | newKb kb s h => exact (stack_newKb_spec h).1
  | addString s str h s1 _ hadd ih =>
    rw [stack_addString_eq_addCall] at hadd
    exact addCall_inv ih _ hadd
  | addStringMax s str m h s1 _ hadd ih =>
    rw [stack_addStringMax_eq_addCall] at hadd
    exact addCall_inv ih _ hadd
  | push s level s1 _ hpush ih =>
    obtain ⟨s1', h1, hI1, _⟩ := push_spec ih
    rw [hpush] at h1
    cases h1
    exact hI1
  | pop s level s1 _ hpop ih =>
    have hlev : 1 ≤ s.stackLevel := by
      by_contra hn
      have : s.stackLevel ≤ 0 := by omega
      unfold R3CStringBlockStack.pop at hpop
      rw [if_pos this] at hpop
      cases hpop
    obtain ⟨p, s1', _, h1, hI1, _⟩ := pop_spec ih hlev
    rw [hpop] at h1
    cases h1
    exact hI1

end R3CStringBlockStack
/-! ## The arena with stack levels: what `push` and `pop` guarantee -/

namespace R3CStringBlockStack

open R3CStringBlock in
/-- `push`, calls of `addString`, then `pop`, from a state that satisfies the
invariant: all calls return; `pop` brings the cursor back to the position that
`push` recorded, keeps every byte before it and leaves `0` in every byte from it
on, in the blocks up to the one the calls reached. -/
theorem push_add_pop {s : R3CStringBlockStack} (hI : s.Inv) (calls : List AddCall) :
    ∃ s1 hs s2 s3, s.push = .ok (s.stackLevel + 1, s1) ∧
      s1.toR3CStringBlock = s.toR3CStringBlock ∧
      s1.addCalls calls = .ok (hs, s2) ∧ s2.pop = .ok (s.stackLevel, s3) ∧
      s3.stackLevel = s.stackLevel ∧ s3.currMemBlock = s.currMemBlock ∧
      s3.bytesUsedInBlock = s.bytesUsedInBlock ∧ s3.nextStrPtr = s.nextStrPtr ∧
      s3.alone = s2.alone ∧ s.currMemBlock ≤ s2.currMemBlock ∧
      (∀ (k : Nat) (a : Storage), s.alone[k]? = some a → s2.alone[k]? = some a) ∧
      (∀ i j : Nat, (i : Int) ≤ s2.currMemBlock →
        s3.toR3CStringBlock.cellAt i j =
          if (i : Int) < s.currMemBlock ∨
              ((i : Int) = s.currMemBlock ∧ (j : Int) < s.bytesUsedInBlock) then
            s.toR3CStringBlock.cellAt i j
          else if (j : Int) < s.bytesPerBlock then some (some 0) else none) ∧
      (∀ q n, (StrPtr.pool q, n) ∈ hs →
        0 ≤ q.offset ∧ 0 ≤ q.block ∧
        (s.currMemBlock < q.block ∨
          (s.currMemBlock = q.block ∧ s.bytesUsedInBlock ≤ q.offset)) ∧
        q.block ≤ s2.currMemBlock ∧ q.offset + n < s.bytesPerBlock) := by
  have hl0 := hI.hlev0
  obtain ⟨s1, hpush, hI1, hb1, hlev1, hrec1, _⟩ := push_spec hI
  obtain ⟨hs, b2, _, hadd, hI2, hB2, hle, hfr, hal, hpos⟩ := stack_addCalls_spec hI1 calls
  have hlev2 : 1 ≤ ({ s1 with toR3CStringBlock := b2 } : R3CStringBlockStack).stackLevel := by
    simp only; omega
  obtain ⟨p, s3, hp, hpop, _, hl3, hc3, hu3, hn3, hB3, hal3, hcells, _, _, _, _⟩ :=
    pop_spec hI2 hlev2
  have hpeq : p = s.cursor := by
    simp only [hlev1] at hp
    rw [hrec1] at hp
    cases hp
    rfl
  subst hpeq
  rw [hb1] at hle hfr hal hpos hB2
  unfold cursorLe at hle
  refine ⟨s1, hs, _, s3, hpush, hb1, hadd, ?_, ?_, hc3, hu3, ?_, hal3, ?_, hal, ?_, ?_⟩
  · rw [hpop]
    simp only [hlev1, add_sub_cancel_right]
  · rw [hl3]; simp only [hlev1, add_sub_cancel_right]
  · rw [hn3, hI.hb.hptr]; rfl
  · simp only; omega
  · intro i j hi
    rw [hcells i j hi]
    by_cases hbf : (i : Int) < s.currMemBlock ∨
        ((i : Int) = s.currMemBlock ∧ (j : Int) < s.bytesUsedInBlock)
    · have hbf' : (i : Int) < s.cursor.block ∨
          ((i : Int) = s.cursor.block ∧ (j : Int) < s.cursor.offset) := hbf
      rw [if_pos hbf', if_pos hbf]
      exact hfr i j hbf
    · have hbf' : ¬ ((i : Int) < s.cursor.block ∨
          ((i : Int) = s.cursor.block ∧ (j : Int) < s.cursor.offset)) := hbf
      rw [if_neg hbf', if_neg hbf]
      simp only [hB2]
  · intro q n hq
    obtain ⟨h1, h2, _, h4, h5, h6⟩ := hpos q n hq
    refine ⟨h1, h2, h4, ?_, h6⟩
    simp only
    omega

open R3CStringBlock in
/-- In a state that satisfies the invariant, a byte of an allocated block at an
offset of at least `bytesPerBlock` does not exist, and a byte of the current
block from the cursor on is `0`. -/
theorem cellAt_current {s : R3CStringBlockStack} (hI : s.Inv) (j : Nat)
    (hj : s.bytesUsedInBlock ≤ j) :
    s.toR3CStringBlock.cellAt s.currMemBlock.toNat j =
      if (j : Int) < s.bytesPerBlock then some (some 0) else none := by
  have hc0 := hI.hb.hcur0
  by_cases h : (j : Int) < s.bytesPerBlock
  · rw [if_pos h]
    exact hI.hb.hzero j hj h
  · rw [if_neg h]
    obtain ⟨blk, h1, h2⟩ := hI.hb.hblk s.currMemBlock.toNat (by omega)
    rw [cellAt_of_block h1, List.getElem?_eq_none (by omega)]

/-- C11.  From every reachable state, `push`, any sequence of `addString`
calls, then `pop`: all calls return, and after `pop` the stack level, the
current block index, the used-byte count and the cursor are those before
`push`, and the block that holds the cursor has the contents it had before
`push`. -/
theorem pop_restores (s : R3CStringBlockStack) (hr : s.Reachable) (calls : List AddCall) :
    ∃ s1 hs s2 s3, s.push = .ok (s.stackLevel + 1, s1) ∧
      s1.addCalls calls = .ok (hs, s2) ∧ s2.pop = .ok (s.stackLevel, s3) ∧
      s3.stackLevel = s.stackLevel ∧ s3.currMemBlock = s.currMemBlock ∧
      s3.bytesUsedInBlock = s.bytesUsedInBlock ∧ s3.nextStrPtr = s.nextStrPtr ∧
      ∀ j : Nat, s3.toR3CStringBlock.cellAt s.currMemBlock.toNat j
        = s.toR3CStringBlock.cellAt s.currMemBlock.toNat j := by
  have hI := hr.stack_inv
  have hc0 := hI.hb.hcur0
  obtain ⟨s1, hs, s2, s3, h1, _, h2, h3, h4, h5, h6, h7, _, hle, _, hcells, _⟩ :=
    push_add_pop hI calls
  refine ⟨s1, hs, s2, s3, h1, h2, h3, h4, h5, h6, h7, ?_⟩
  intro j
  rw [hcells _ j (by omega)]
  by_cases hbf : ((s.currMemBlock.toNat : Nat) : Int) < s.currMemBlock ∨
      (((s.currMemBlock.toNat : Nat) : Int) = s.currMemBlock ∧ (j : Int) < s.bytesUsedInBlock)
  · rw [if_pos hbf]
  · rw [if_neg hbf, cellAt_current hI j]
    omega

/-- Instance of C11: the state built by `R3CStringBlockStack()` and the calls
`addString("x")`, `addString("yz", 5)`. -/
theorem pop_restores_witness :
    ∃ s1 hs s2 s3, R3CStringBlockStack.new.push
        = .ok (R3CStringBlockStack.new.stackLevel + 1, s1) ∧
      s1.addCalls [.str (some (bytes "x")), .strMax (some (bytes "yz")) 5] = .ok (hs, s2) ∧
      s2.pop = .ok (R3CStringBlockStack.new.stackLevel, s3) ∧
      s3.stackLevel = R3CStringBlockStack.new.stackLevel ∧
      s3.currMemBlock = R3CStringBlockStack.new.currMemBlock ∧
      s3.bytesUsedInBlock = R3CStringBlockStack.new.bytesUsedInBlock ∧
      s3.nextStrPtr = R3CStringBlockStack.new.nextStrPtr ∧
      ∀ j : Nat, s3.toR3CStringBlock.cellAt R3CStringBlockStack.new.currMemBlock.toNat j
        = R3CStringBlockStack.new.toR3CStringBlock.cellAt
            R3CStringBlockStack.new.currMemBlock.toNat j :=
  pop_restores R3CStringBlockStack.new Reachable.new _

/-- What `pop` does clear.  From every reachable state, `push`, any sequence of
`addString` calls, then `pop`: every byte of the region reserved at a pointer
into the pool that one of the calls returned is `0` after `pop`.  (A string
stored alone, outside the pool, is not touched by `pop`.) -/
theorem pop_zeroes_pool (s : R3CStringBlockStack) (hr : s.Reachable) (calls : List AddCall) :
    ∃ s1 hs s2 s3, s.push = .ok (s.stackLevel + 1, s1) ∧
      s1.addCalls calls = .ok (hs, s2) ∧ s2.pop = .ok (s.stackLevel, s3) ∧
      ∀ q n, (StrPtr.pool q, n) ∈ hs → ∀ j : Nat, (j : Int) < n →
        s3.toR3CStringBlock.cellAt q.block.toNat (q.offset.toNat + j) = some (some 0) := by
  have hI := hr.stack_inv
  obtain ⟨s1, hs, s2, s3, h1, _, h2, h3, _, _, _, _, _, _, _, hcells, hpos⟩ :=
    push_add_pop hI calls
  refine ⟨s1, hs, s2, s3, h1, h2, h3, ?_⟩
  intro q n hq j hj
  obtain ⟨ho, hb, hge, hle, hlt⟩ := hpos q n hq
  rw [hcells _ _ (by omega)]
  have hnb : ¬ (((q.block.toNat : Nat) : Int) < s.currMemBlock ∨
      (((q.block.toNat : Nat) : Int) = s.currMemBlock ∧
        ((q.offset.toNat + j : Nat) : Int) < s.bytesUsedInBlock)) := by
    omega
  rw [if_neg hnb, if_pos (by omega)]

/-- Instance of `pop_zeroes_pool`: the state built by `R3CStringBlockStack()`
and the calls `addString("x")`, `addString("yz", 5)`. -/
theorem pop_zeroes_pool_witness :
    ∃ s1 hs s2 s3, R3CStringBlockStack.new.push
        = .ok (R3CStringBlockStack.new.stackLevel + 1, s1) ∧
      s1.addCalls [.str (some (bytes "x")), .strMax (some (bytes "yz")) 5] = .ok (hs, s2) ∧
      s2.pop = .ok (R3CStringBlockStack.new.stackLevel, s3) ∧
      ∀ q n, (StrPtr.pool q, n) ∈ hs → ∀ j : Nat, (j : Int) < n →
        s3.toR3CStringBlock.cellAt q.block.toNat (q.offset.toNat + j) = some (some 0) :=
  pop_zeroes_pool R3CStringBlockStack.new Reachable.new _

/-- C12.  The contents at a pointer returned since the matching `push` are not
always zero after `pop`.  In the arena built by `R3CStringBlockStack(1)` (blocks
of 1024 bytes): `push`, then `addString` of a string of 600 characters, which is
stored alone, then `pop`.  After `pop` the string of 600 characters is still
read at the pointer that `addString` returned: `pop` clears pool blocks only,
and the array of a string stored alone is referenced by no member. -/
theorem pop_keeps_alone_string :
    ∃ s0 s1 k s2 s3, newKb 1 = .ok s0 ∧ s0.push = .ok (1, s1) ∧
      s1.addString (some (List.replicate 600 97)) = .ok (.alone k, s2) ∧
      s2.pop = .ok (0, s3) ∧
      s3.toR3CStringBlock.readStr (.alone k) = .ok (List.replicate 600 97) := by
  have hs : strlen (List.replicate 600 97) = 600 := R3CStringBlock.strlen_replicate 600 97 (by decide)
  have hch : chars (List.replicate 600 97) = List.replicate 600 97 :=
    chars_of_no_zero (fun h => by cases List.eq_of_mem_replicate h)
  have hb0 := R3CStringBlock.newKb_ok 1 (by decide)
  have hI0 : (init (R3CStringBlock.init (R3CStringBlock.members (1 * 1024)) 1)).Inv :=
    stack_init_inv (R3CStringBlock.init_inv _ (by decide) 1)
  obtain ⟨s1, hpush, hI1, hb1, hlev1, _⟩ := push_spec hI0
  have hl0 : (init (R3CStringBlock.init (R3CStringBlock.members (1 * 1024)) 1)).stackLevel = 0 := rfl
  rw [hl0] at hpush hlev1
  have hc : (AddCall.str (some (List.replicate 600 97))).charsToAlloc (List.replicate 600 97)
      = 601 := by
    simp only [AddCall.charsToAlloc, hs]; rfl
  obtain ⟨a, hadd, _, hrd⟩ := R3CStringBlock.addCall_alone_spec s1.toR3CStringBlock
    (.str (some (List.replicate 600 97))) _ rfl (by rw [hc, hb1]; decide)
  have hI2 : ({ s1 with toR3CStringBlock :=
      { s1.toR3CStringBlock with alone := s1.alone ++ [a] } } : R3CStringBlockStack).Inv :=
    inv_lift hI1 ⟨hI1.hb.hB, hI1.hb.hlen, hI1.hb.hcur0, hI1.hb.hcur, hI1.hb.hblk, hI1.hb.hptr,
      hI1.hb.hu0, hI1.hb.hu, hI1.hb.hzero⟩ rfl (R3CStringBlock.cursorLe_refl _)
  obtain ⟨p, s3, _, hpop, _, _, _, _, _, _, hal3, _⟩ := pop_spec hI2 (by simp only; omega)
  refine ⟨init (R3CStringBlock.init (R3CStringBlock.members (1 * 1024)) 1), s1, s1.alone.length,
    { s1 with toR3CStringBlock := { s1.toR3CStringBlock with alone := s1.alone ++ [a] } },
    s3, ?_, hpush, ?_, ?_, ?_⟩
  · simp only [newKb, hb0, ok_bind, pure_eq_ok]
  · rw [stack_addString_eq_addCall]
    simp only [addCall, hadd, ok_bind, pure_eq_ok]
  · rw [hpop]
    simp only [hlev1]
    rfl
  · simp only [R3CStringBlock.readStr, hal3]
    rw [List.getElem?_append_right (le_refl _)]
    simp only [Nat.sub_self, List.getElem?_cons_zero]
    rw [hrd, hch]

/-- C13.  In every reachable state: `pop` at level 0 raises
`R3CERR_STR_EMPTYSTACK` (the object is not touched: the error result carries
no new state); `pop` at a level of at least 1 returns, and returns the level
minus one. -/
theorem pop_level (s : R3CStringBlockStack) (hr : s.Reachable) :
    (s.stackLevel = 0 → s.pop = .error .emptyStack) ∧
    (1 ≤ s.stackLevel → ∃ s1, s.pop = .ok (s.stackLevel - 1, s1) ∧
      s1.stackLevel = s.stackLevel - 1) := by
  constructor
  · intro h
    unfold pop
    rw [if_pos (by omega)]
  · intro h
    obtain ⟨p, s1, _, hpop, _, hl, _⟩ := pop_spec hr.stack_inv h
    exact ⟨s1, hpop, hl⟩

/-- Instance of C13: the state built by `R3CStringBlockStack()`, at level 0, and
the state after one `push` on it, at level 1. -/
theorem pop_level_witness :
    ((R3CStringBlockStack.new.stackLevel = 0 →
        R3CStringBlockStack.new.pop = .error .emptyStack) ∧
      (1 ≤ R3CStringBlockStack.new.stackLevel →
        ∃ s1, R3CStringBlockStack.new.pop = .ok (R3CStringBlockStack.new.stackLevel - 1, s1) ∧
          s1.stackLevel = R3CStringBlockStack.new.stackLevel - 1)) ∧
    ∃ s, R3CStringBlockStack.new.push = .ok (1, s) ∧
      ((s.stackLevel = 0 → s.pop = .error .emptyStack) ∧
       (1 ≤ s.stackLevel → ∃ s1, s.pop = .ok (s.stackLevel - 1, s1) ∧
          s1.stackLevel = s.stackLevel - 1)) := by
  obtain ⟨s, hpush, _⟩ := push_spec stack_new_inv
  exact ⟨pop_level R3CStringBlockStack.new Reachable.new, s, hpush,
    pop_level s (Reachable.push _ _ _ Reachable.new hpush)⟩

/-- C14.  In every reachable state `push` returns the level plus one, which
is the new level; the position recorded for the new level is the cursor
(current block and offset, the value of `nextStrPtr`); and the arena part of the
state (block pointers and block contents, current block, cursor, used-byte
count) is unchanged.  On the state built by a constructor `push` returns 1. -/
theorem push_records (s : R3CStringBlockStack) (hr : s.Reachable) :
    (∃ s1, s.push = .ok (s.stackLevel + 1, s1) ∧ s1.stackLevel = s.stackLevel + 1 ∧
      s1.stackStartPtr[(s.stackLevel + 1).toNat]?
        = some (some ⟨s.currMemBlock, s.bytesUsedInBlock⟩) ∧
      s1.stackStartPtr[(s.stackLevel + 1).toNat]? = some (some s.nextStrPtr) ∧
      s1.toR3CStringBlock = s.toR3CStringBlock) ∧
    (∃ s1, R3CStringBlockStack.new.push = .ok (1, s1)) ∧
    (∀ kb s0, newKb kb = .ok s0 → ∃ s1, s0.push = .ok (1, s1)) := by
  refine ⟨?_, ?_, ?_⟩
  · obtain ⟨s1, h1, _, h3, h4, h5, _⟩ := push_spec hr.stack_inv
    exact ⟨s1, h1, h4, h5, by rw [h5, hr.stack_inv.hb.hptr]; rfl, h3⟩
  · obtain ⟨s1, h1, _⟩ := push_spec stack_new_inv
    exact ⟨s1, h1⟩
  · intro kb s0 h0
    obtain ⟨hI, hl, _⟩ := stack_newKb_spec h0
    obtain ⟨s1, h1, _⟩ := push_spec hI
    rw [hl] at h1
    exact ⟨s1, h1⟩

/-- Instance of C14: the state built by `R3CStringBlockStack()`. -/
theorem push_records_witness :
    ∃ s1, R3CStringBlockStack.new.push = .ok (R3CStringBlockStack.new.stackLevel + 1, s1) ∧
      s1.stackLevel = R3CStringBlockStack.new.stackLevel + 1 ∧
      s1.stackStartPtr[(R3CStringBlockStack.new.stackLevel + 1).toNat]?
        = some (some ⟨R3CStringBlockStack.new.currMemBlock,
            R3CStringBlockStack.new.bytesUsedInBlock⟩) ∧
      s1.stackStartPtr[(R3CStringBlockStack.new.stackLevel + 1).toNat]?
        = some (some R3CStringBlockStack.new.nextStrPtr) ∧
      s1.toR3CStringBlock = R3CStringBlockStack.new.toR3CStringBlock :=
  (push_records R3CStringBlockStack.new Reachable.new).1

/-- C15.  In every reachable state, for each level `i` with
`1 <= i <= stackLevel` a position is recorded; it lies inside a block whose
index is between 0 and the current block index, and is not behind the cursor;
the recorded positions are in order; and at a level of at least 1 the backward
search of `pop` ends at the block of the position recorded for the level,
without reading below block 0. -/
theorem recorded_positions (s : R3CStringBlockStack) (hr : s.Reachable) :
    (∀ i : Nat, 1 ≤ i → (i : Int) ≤ s.stackLevel →
      ∃ p, s.stackStartPtr[i]? = some (some p) ∧ 0 ≤ p.block ∧ p.block ≤ s.currMemBlock ∧
        0 ≤ p.offset ∧ p.offset < s.bytesPerBlock ∧ PoolPtr.le p s.cursor) ∧
    (∀ i j : Nat, 1 ≤ i → i ≤ j → (j : Int) ≤ s.stackLevel → ∀ p q,
      s.stackStartPtr[i]? = some (some p) → s.stackStartPtr[j]? = some (some q) →
      PoolPtr.le p q) ∧
    (1 ≤ s.stackLevel → ∃ p m1, s.stackStartPtr[s.stackLevel.toNat]? = some (some p) ∧
      0 ≤ p.block ∧
      popSearch s.bytesPerBlock p s.currMemBlock.toNat s.memBlock = .ok (m1, p.block)) := by
  have hI := hr.stack_inv
  refine ⟨?_, ?_, ?_⟩
  · intro i _ hi
    obtain ⟨p, hp, h1, h2, h3, h4⟩ := hI.hrec i hi
    refine ⟨p, hp, h1, ?_, h2, h3, h4⟩
    unfold PoolPtr.le cursor at h4
    simp only at h4
    omega
  · intro i j _ hij hj p q hp hq
    exact hI.hmono i j hij hj p q hp hq
  · intro h
    obtain ⟨p, s1, hp, _, _, _, _, _, _, _, _, _, _, ⟨m1, hm1⟩, hp0, _⟩ := pop_spec hI h
    exact ⟨p, m1, hp, hp0, hm1⟩

/-- Instance of C15: the state after one `push` on the state built by
`R3CStringBlockStack()`. -/
theorem recorded_positions_witness :
    ∃ s, R3CStringBlockStack.new.push = .ok (1, s) ∧
      ((∀ i : Nat, 1 ≤ i → (i : Int) ≤ s.stackLevel →
        ∃ p, s.stackStartPtr[i]? = some (some p) ∧ 0 ≤ p.block ∧ p.block ≤ s.currMemBlock ∧
          0 ≤ p.offset ∧ p.offset < s.bytesPerBlock ∧ PoolPtr.le p s.cursor) ∧
      (∀ i j : Nat, 1 ≤ i → i ≤ j → (j : Int) ≤ s.stackLevel → ∀ p q,
        s.stackStartPtr[i]? = some (some p) → s.stackStartPtr[j]? = some (some q) →
        PoolPtr.le p q) ∧
      (1 ≤ s.stackLevel → ∃ p m1, s.stackStartPtr[s.stackLevel.toNat]? = some (some p) ∧
        0 ≤ p.block ∧
        popSearch s.bytesPerBlock p s.currMemBlock.toNat s.memBlock = .ok (m1, p.block))) := by
  obtain ⟨s, hpush, _⟩ := push_spec stack_new_inv
  exact ⟨s, hpush, recorded_positions s (Reachable.push _ _ _ Reachable.new hpush)⟩

end R3CStringBlockStack

/-! ## Arrays that hold a string, cell by cell -/

/-- An array whose first cells hold the characters of `cs`, none of them `0`,
and then a terminator, reads as `cs`. -/
theorem storageStr_of_cells {m : Storage} {cs : List Nat} (h0 : 0 ∉ cs)
    (hc : ∀ j : Nat, j < cs.length → m[j]? = (cs[j]?).map some)
    (ht : m[cs.length]? = some (some 0)) : storageStr m 0 = .ok cs := by
  have key : ∀ (cs : List Nat) (m : Storage), 0 ∉ cs →
      (∀ j : Nat, j < cs.length → m[j]? = (cs[j]?).map some) →
      m[cs.length]? = some (some 0) → cellsStr m = .ok cs := by
    intro cs
    induction cs with
    | nil =>
      intro m _ _ ht
      cases m with
      | nil => simp at ht
      | cons x m =>
        simp at ht
        subst ht
        simp [cellsStr]
    | cons c cs ih =>
      intro m h0 hc ht
      simp only [List.mem_cons, not_or] at h0
      have hc0 : c ≠ 0 := fun h => h0.1 h.symm
      cases m with
      | nil => simp at ht
      | cons x m =>
        have hx := hc 0 (by simp)
        simp at hx
        subst hx
        have := ih m h0.2 (fun j hj => by
          have := hc (j + 1) (by simp; omega)
          simpa using this) (by simpa using ht)
        simp [cellsStr, hc0, this, Except.map]
  unfold storageStr
  simp only [lt_self_iff_false, if_false, Int.toNat_zero, List.drop_zero]
  exact key cs m h0 hc ht

/-- The cells of an array that reads as `cs`. -/
theorem cells_of_storageStr {m : Storage} {cs : List Nat} (h : storageStr m 0 = .ok cs) :
    0 ∉ cs ∧ (∀ j : Nat, j < cs.length → m[j]? = (cs[j]?).map some) ∧
      m[cs.length]? = some (some 0) ∧ cs.length < m.length := by
  unfold storageStr at h
  simp only [lt_self_iff_false, if_false, Int.toNat_zero, List.drop_zero] at h
  obtain ⟨h0, rest, hm⟩ := cellsStr_ok h
  subst hm
  refine ⟨h0, ?_, ?_, ?_⟩
  · intro j hj
    rw [List.getElem?_append_left (by simpa using hj), List.getElem?_map]
  · rw [List.getElem?_append_right (by simp)]
    simp
  · simp

theorem memmove_eq {m : Storage} {dst src n : Int} (hn : 0 ≤ n) (hd : 0 ≤ dst)
    (hdn : dst + n ≤ m.length) (hs : 0 ≤ src) (hsn : src + n ≤ m.length) :
    memmove m dst src n
      = .ok (m.take dst.toNat ++ (m.drop src.toNat).take n.toNat
          ++ m.drop (dst.toNat + n.toNat)) := by
  unfold memmove
  rw [if_neg (by omega), if_pos ⟨hd, hdn, hs, hsn⟩]

theorem memmove_ok {m m1 : Storage} {dst src n : Int} (h : memmove m dst src n = .ok m1) :
    0 ≤ n ∧ 0 ≤ dst ∧ dst + n ≤ m.length ∧ 0 ≤ src ∧ src + n ≤ m.length ∧
      m1.length = m.length ∧
      ∀ j : Nat, m1[j]? = if (j : Int) < dst then m[j]?
        else if (j : Int) < dst + n then m[j - dst.toNat + src.toNat]? else m[j]? := by
  unfold memmove at h
  split_ifs at h with h1 h2
  obtain ⟨hd, hdn, hs, hsn⟩ := h2
  have hm1 : m1 = m.take dst.toNat ++ (m.drop src.toNat).take n.toNat
      ++ m.drop (dst.toNat + n.toNat) := by
    simpa using h.symm
  have hlen : ((m.drop src.toNat).take n.toNat).length = n.toNat := by
    simp
    omega
  have hsl := splice_length m ((m.drop src.toNat).take n.toNat) dst.toNat (by omega)
  have hsg := splice_getElem? m ((m.drop src.toNat).take n.toNat) dst.toNat (by omega)
  rw [hlen] at hsl hsg
  refine ⟨by omega, hd, hdn, hs, hsn, by rw [hm1, hsl], ?_⟩
  intro j
  rw [hm1, hsg j]
  have e1 : (j < dst.toNat) ↔ ((j : Int) < dst) := by omega
  have e2 : (j < dst.toNat + n.toNat) ↔ ((j : Int) < dst + n) := by omega
  simp only [e1, e2]
  by_cases c1 : (j : Int) < dst
  · rw [if_pos c1, if_pos c1]
  · rw [if_neg c1, if_neg c1]
    by_cases c2 : (j : Int) < dst + n
    · rw [if_pos c2, if_pos c2, List.getElem?_take, List.getElem?_drop]
      rw [if_pos (by omega)]
      congr 1
      omega
    · rw [if_neg c2, if_neg c2]

theorem setCell_getElem? {m m1 : Storage} {i : Int} {c : Nat} (h : setCell m i c = .ok m1)
    (j : Nat) : m1[j]? = if (j : Int) = i then some (some c) else m[j]? := by
  unfold setCell at h
  have hw := writeAt_getElem? h j
  obtain ⟨h0, h1, _⟩ := writeAt_ok h
  rw [hw]
  by_cases c1 : (j : Int) < i
  · rw [if_pos c1, if_neg (by omega)]
  · rw [if_neg c1]
    by_cases c2 : (j : Int) = i
    · rw [if_pos (by simp; omega), if_pos c2]
      have : j - i.toNat = 0 := by omega
      rw [this]
      rfl
    · rw [if_neg (by simp; omega), if_neg c2]

theorem setCell_eq {m : Storage} {i : Int} (c : Nat) (h0 : 0 ≤ i) (h1 : i < m.length) :
    ∃ m1, setCell m i c = .ok m1 ∧ m1.length = m.length := by
  unfold setCell
  rw [writeAt_eq h0 (by simp; omega)]
  refine ⟨_, rfl, ?_⟩
  have := splice_length m ([c].map some) i.toNat (by simp; omega)
  simpa using this

theorem readCell_eq {m : Storage} {i : Nat} {c : Nat} (h : m[i]? = some (some c)) :
    readCell m i = .ok c := by
  unfold readCell
  rw [if_neg (by omega)]
  simp [h]

/-! ## Buffers that hold a string: `ensureCapacity`, `append`, `insert`,
`deleteChars`, `deleteCharAt` -/

/-- Elements of a list made of three parts. -/
theorem getElem?_append3 {α : Type} (xs ys zs : List α) (j : Nat) :
    (xs ++ ys ++ zs)[j]? = if j < xs.length then xs[j]?
      else if j < xs.length + ys.length then ys[j - xs.length]?
      else zs[j - xs.length - ys.length]? := by
  by_cases h1 : j < xs.length
  · rw [if_pos h1, List.append_assoc, List.getElem?_append_left h1]
  · rw [if_neg h1, List.append_assoc, List.getElem?_append_right (by omega)]
    by_cases h2 : j < xs.length + ys.length
    · rw [if_pos h2, List.getElem?_append_left (by omega)]
    · rw [if_neg h2, List.getElem?_append_right (by omega)]

theorem strncpy_whole (m : Storage) (off : Int) (src : List Nat) :
    strncpy m off src 0 (strlen src) = writeAt m off (chars src) := by
  unfold strncpy strlen
  rw [if_neg (by omega)]
  by_cases h : ((chars src).length : Int) = 0
  · rw [if_pos h]
    have : chars src = [] := List.length_eq_zero.mp (by omega)
    rw [this]
  · rw [if_neg h, if_neg (by simp)]
    simp

namespace R3CString

/-- The cells of a buffer that holds `cs`. -/
theorem holds_cells {b : R3CString} {cs : List Nat} (h : b.Holds cs) :
    0 ∉ cs ∧ (∀ j : Nat, j < cs.length → b.str[j]? = (cs[j]?).map some) ∧
      b.str[cs.length]? = some (some 0) ∧ (cs.length : Int) ≤ b.maxLength := by
  obtain ⟨hsize, hstr, _⟩ := h
  obtain ⟨h0, hc, ht, hlt⟩ := cells_of_storageStr hstr
  exact ⟨h0, hc, ht, by omega⟩

/-- A buffer whose cells hold `cs` and a terminator holds `cs`. -/
theorem holds_of_cells {b : R3CString} {cs : List Nat}
    (hsize : (b.str.length : Int) = b.maxLength + 1) (h0 : 0 ∉ cs)
    (hc : ∀ j : Nat, j < cs.length → b.str[j]? = (cs[j]?).map some)
    (ht : b.str[cs.length]? = some (some 0)) (hlen : b.curLength = cs.length) :
    b.Holds cs :=
  ⟨hsize, storageStr_of_cells h0 hc ht, hlen⟩

/-- `ensureCapacity(n)` on a buffer that holds `cs` returns a buffer that holds
`cs`, with a capacity of at least `n` and at least the old one. -/
theorem ensureCapacity_holds {b : R3CString} {cs : List Nat} (h : b.Holds cs) (n : Int) :
    ∃ r, b.ensureCapacity n = .ok r ∧ r.Holds cs ∧ n ≤ r.maxLength ∧
      b.maxLength ≤ r.maxLength := by
  obtain ⟨h0, _, _, hlen⟩ := holds_cells h
  obtain ⟨hsize, hstr, hcur⟩ := h
  by_cases hn : n ≤ b.maxLength
  · exact ⟨b, by simp [ensureCapacity, hn], ⟨hsize, hstr, hcur⟩, hn, le_refl _⟩
  · obtain ⟨m, hm⟩ : ∃ m, m = (if b.maxLength * 2 < n then n else b.maxLength * 2) :=
      ⟨_, rfl⟩
    have hm0 : 0 ≤ m := by rw [hm]; split <;> omega
    have hmn : n ≤ m ∧ b.maxLength ≤ m := by rw [hm]; split <;> omega
    have htmod : Int.tmod m 16 = m % 16 := Int.tmod_eq_emod hm0 (by decide)
    obtain ⟨str, hcpy, hget⟩ :=
      getChars_strcpy_alloc (M := m + (16 - m % 16 - 1)) h0 (by omega)
    have hslen : (str.length : Int) = m + (16 - m % 16 - 1) + 1 := by
      have := writeAt_length hcpy
      rw [this]
      simp [allocChars]
      omega
    refine ⟨{ str := str, curLength := b.curLength, maxLength := m + (16 - m % 16 - 1) },
      ?_, ⟨hslen, hget, hcur⟩, ?_, ?_⟩
    · unfold getChars at hstr
      simp only [ensureCapacity, hn, if_false, ← hm, htmod, hstr, ok_bind, hcpy, pure_eq_ok,
        bind_pure_comp]
    · show n ≤ m + (16 - m % 16 - 1); omega
    · show b.maxLength ≤ m + (16 - m % 16 - 1); omega

/-- `append(src)` on a buffer that holds `cs` returns `strlen(src)` and a
buffer that holds `cs` followed by the characters of `src`. -/
theorem append_holds {b : R3CString} {cs : List Nat} (h : b.Holds cs) (src : List Nat) :
    ∃ b1, b.append (some src) = .ok (strlen src, b1) ∧ b1.Holds (cs ++ chars src) := by
  have hcur := h.2.2
  obtain ⟨r, hens, hr, hcap, _⟩ := ensureCapacity_holds h (b.curLength + strlen src)
  obtain ⟨h0, hc, ht, _⟩ := holds_cells hr
  obtain ⟨hsize, _, hrcur⟩ := hr
  have hsl : strlen src = ((chars src).length : Int) := rfl
  obtain ⟨m1, hw⟩ : ∃ m1, writeAt r.str r.curLength (chars src ++ [0]) = .ok m1 :=
    ⟨_, @writeAt_eq r.str r.curLength (chars src ++ [0]) (by omega) (by simp; omega)⟩
  refine ⟨{ r with str := m1, curLength := r.curLength + strlen src }, ?_, ?_⟩
  · simp only [append, hens, ok_bind, strcpy, hw, pure_eq_ok]
  · have hg := writeAt_getElem? hw
    refine holds_of_cells ?_ ?_ ?_ ?_ ?_
    · show (m1.length : Int) = r.maxLength + 1
      rw [writeAt_length hw, hsize]
    · simp only [List.mem_append, not_or]
      exact ⟨h0, R3CStringBlock.chars_no_zero src⟩
    · intro j hj
      show m1[j]? = _
      rw [hg j]
      simp only [List.length_append] at hj
      by_cases c1 : j < cs.length
      · rw [if_pos (by omega), hc j c1, List.getElem?_append_left c1]
      · rw [if_neg (by omega), if_pos (by simp; omega),
          List.getElem?_append_left (by omega),
          List.getElem?_append_right (by omega)]
        congr 2
        omega
    · show m1[(cs ++ chars src).length]? = _
      rw [hg]
      simp only [List.length_append]
      rw [if_neg (by omega), if_pos (by simp; omega),
        List.getElem?_append_right (by omega)]
      have : cs.length + (chars src).length - r.curLength.toNat - (chars src).length = 0 := by
        omega
      rw [this]
      rfl
    · show r.curLength + strlen src = ((cs ++ chars src).length : Int)
      simp only [List.length_append, Nat.cast_add]
      omega

end R3CString

namespace R3CString

/-- `insert(pos, src)` with `0 <= pos <= curLength` on a buffer that holds `cs`
returns `strlen(src)` and a buffer that holds the characters of `src` between
the first `pos` characters of `cs` and the rest of `cs`. -/
theorem insert_holds {b : R3CString} {cs : List Nat} (h : b.Holds cs) (pos : Int)
    (hp0 : 0 ≤ pos) (hp1 : pos ≤ b.curLength) (src : List Nat) :
    ∃ b1, b.insert pos (some src) = .ok (strlen src, b1) ∧
      b1.Holds (cs.take pos.toNat ++ chars src ++ cs.drop pos.toNat) := by
  have hcur := h.2.2
  obtain ⟨r, hens, hr, hcap, _⟩ := ensureCapacity_holds h (b.curLength + strlen src)
  obtain ⟨h0, hc, ht, _⟩ := holds_cells hr
  obtain ⟨hsize, _, hrcur⟩ := hr
  have hsl : strlen src = ((chars src).length : Int) := rfl
  obtain ⟨m1, hmv⟩ : ∃ m1, memmove r.str (pos + strlen src) pos (r.curLength - pos + 1)
      = .ok m1 :=
    ⟨_, memmove_eq (by omega) (by omega) (by omega) (by omega) (by omega)⟩
  obtain ⟨_, _, _, _, _, hl1, hg1⟩ := memmove_ok hmv
  obtain ⟨m2, hw⟩ : ∃ m2, writeAt m1 pos (chars src) = .ok m2 :=
    ⟨_, @writeAt_eq m1 pos (chars src) hp0 (by omega)⟩
  have hg2 := writeAt_getElem? hw
  have hnot : ¬ (pos < 0 ∨ pos > b.curLength) := by omega
  refine ⟨{ r with str := m2, curLength := r.curLength + strlen src }, ?_, ?_⟩
  · simp only [insert, hnot, if_false, hens, ok_bind, hmv, strncpy_whole, hw, pure_eq_ok]
  · have htl : (cs.take pos.toNat).length = pos.toNat := by
      rw [List.length_take]; omega
    have hdl : (cs.drop pos.toNat).length = cs.length - pos.toNat := List.length_drop _ _
    refine holds_of_cells ?_ ?_ ?_ ?_ ?_
    · show (m2.length : Int) = r.maxLength + 1
      rw [writeAt_length hw, hl1, hsize]
    · simp only [List.mem_append, not_or]
      exact ⟨⟨fun hm => h0 (List.mem_of_mem_take hm), R3CStringBlock.chars_no_zero src⟩,
        fun hm => h0 (List.mem_of_mem_drop hm)⟩
    · intro j hj
      show m2[j]? = _
      simp only [List.length_append, htl, hdl] at hj
      rw [hg2 j, getElem?_append3, htl]
      by_cases c1 : j < pos.toNat
      · rw [if_pos (by omega), if_pos c1, hg1 j, if_pos (by omega), hc j (by omega),
          List.getElem?_take, if_pos c1]
      · rw [if_neg (by omega), if_neg c1]
        by_cases c2 : j < pos.toNat + (chars src).length
        · rw [if_pos (by omega), if_pos c2]
        · rw [if_neg (by omega), if_neg c2, hg1 j, if_neg (by omega), if_pos (by omega),
            hc _ (by omega), List.getElem?_drop]
          congr 2
          omega
    · show m2[(cs.take pos.toNat ++ chars src ++ cs.drop pos.toNat).length]? = _
      simp only [List.length_append, htl, hdl]
      rw [hg2, if_neg (by omega), if_neg (by omega), hg1, if_neg (by omega),
        if_pos (by omega)]
      rw [← ht]
      congr 1
      omega
    · show r.curLength + strlen src
        = ((cs.take pos.toNat ++ chars src ++ cs.drop pos.toNat).length : Int)
      simp only [List.length_append, htl, hdl]
      omega

/-- `deleteChars(startPos, endPos)` with `0 <= startPos < endPos <= curLength`
on a buffer that holds `cs` returns `endPos - startPos` and a buffer that holds
`cs` without the characters at the positions `startPos` up to, but not
including, `endPos`. -/
theorem deleteChars_holds {b : R3CString} {cs : List Nat} (h : b.Holds cs)
    (startPos endPos : Int) (hs0 : 0 ≤ startPos) (hse : startPos < endPos)
    (he : endPos ≤ b.curLength) :
    ∃ b1, b.deleteChars startPos endPos = .ok (endPos - startPos, b1) ∧
      b1.Holds (cs.take startPos.toNat ++ cs.drop endPos.toNat) ∧
      b1.maxLength = b.maxLength := by
  obtain ⟨h0, hc, ht, _⟩ := holds_cells h
  obtain ⟨hsize, _, hcur⟩ := h
  obtain ⟨m1, hmv⟩ : ∃ m1, memmove b.str startPos (startPos + (endPos - startPos))
      (b.curLength - startPos - (endPos - startPos) + 1) = .ok m1 :=
    ⟨_, memmove_eq (by omega) (by omega) (by omega) (by omega) (by omega)⟩
  obtain ⟨_, _, _, _, _, hl1, hg1⟩ := memmove_ok hmv
  have hnot : ¬ (startPos < 0 ∨ endPos > b.curLength) := by omega
  have hnot2 : ¬ endPos ≤ startPos := by omega
  refine ⟨{ b with str := m1, curLength := b.curLength - (endPos - startPos) }, ?_, ?_, rfl⟩
  · simp only [deleteChars, hnot, hnot2, if_false, hmv, ok_bind, pure_eq_ok]
  · have htl : (cs.take startPos.toNat).length = startPos.toNat := by
      rw [List.length_take]; omega
    have hdl : (cs.drop endPos.toNat).length = cs.length - endPos.toNat := List.length_drop _ _
    refine holds_of_cells ?_ ?_ ?_ ?_ ?_
    · show (m1.length : Int) = b.maxLength + 1
      rw [hl1, hsize]
    · simp only [List.mem_append, not_or]
      exact ⟨fun hm => h0 (List.mem_of_mem_take hm), fun hm => h0 (List.mem_of_mem_drop hm)⟩
    · intro j hj
      show m1[j]? = _
      simp only [List.length_append, htl, hdl] at hj
      rw [hg1 j]
      by_cases c1 : j < startPos.toNat
      · rw [if_pos (by omega), hc j (by omega), List.getElem?_append_left (by omega),
          List.getElem?_take, if_pos c1]
      · rw [if_neg (by omega), if_pos (by omega), hc _ (by omega),
          List.getElem?_append_right (by omega), htl, List.getElem?_drop]
        congr 2
        omega
    · show m1[(cs.take startPos.toNat ++ cs.drop endPos.toNat).length]? = _
      simp only [List.length_append, htl, hdl]
      rw [hg1, if_neg (by omega), if_pos (by omega), ← ht]
      congr 1
      omega
    · show b.curLength - (endPos - startPos)
        = ((cs.take startPos.toNat ++ cs.drop endPos.toNat).length : Int)
      simp only [List.length_append, htl, hdl]
      omega

/-- `deleteCharAt(pos)` with `0 <= pos < curLength` on a buffer that holds `cs`
and whose length is below its capacity returns 1 and a buffer that holds `cs`
without the character at `pos`. -/
theorem deleteCharAt_holds {b : R3CString} {cs : List Nat} (h : b.Holds cs) (pos : Int)
    (hp0 : 0 ≤ pos) (hp1 : pos < b.curLength) (hroom : b.curLength < b.maxLength) :
    ∃ b1, b.deleteCharAt pos = .ok (1, b1) ∧
      b1.Holds (cs.take pos.toNat ++ cs.drop (pos.toNat + 1)) ∧
      b1.maxLength = b.maxLength := by
  obtain ⟨h0, hc, ht, _⟩ := holds_cells h
  obtain ⟨hsize, _, hcur⟩ := h
  obtain ⟨m1, hmv⟩ : ∃ m1, memmove b.str pos (pos + 1) (b.curLength - pos + 1) = .ok m1 :=
    ⟨_, memmove_eq (by omega) (by omega) (by omega) (by omega) (by omega)⟩
  obtain ⟨_, _, _, _, _, hl1, hg1⟩ := memmove_ok hmv
  have hnot : ¬ (pos < 0 ∨ pos ≥ b.curLength) := by omega
  refine ⟨{ b with str := m1, curLength := b.curLength - 1 }, ?_, ?_, rfl⟩
  · simp only [deleteCharAt, hnot, if_false, hmv, ok_bind, pure_eq_ok]
  · have htl : (cs.take pos.toNat).length = pos.toNat := by
      rw [List.length_take]; omega
    have hdl : (cs.drop (pos.toNat + 1)).length = cs.length - (pos.toNat + 1) :=
      List.length_drop _ _
    refine holds_of_cells ?_ ?_ ?_ ?_ ?_
    · show (m1.length : Int) = b.maxLength + 1
      rw [hl1, hsize]
    · simp only [List.mem_append, not_or]
      exact ⟨fun hm => h0 (List.mem_of_mem_take hm), fun hm => h0 (List.mem_of_mem_drop hm)⟩
    · intro j hj
      show m1[j]? = _
      simp only [List.length_append, htl, hdl] at hj
      rw [hg1 j]
      by_cases c1 : j < pos.toNat
      · rw [if_pos (by omega), hc j (by omega), List.getElem?_append_left (by omega),
          List.getElem?_take, if_pos c1]
      · rw [if_neg (by omega), if_pos (by omega), hc _ (by omega),
          List.getElem?_append_right (by omega), htl, List.getElem?_drop]
        congr 2
        omega
    · show m1[(cs.take pos.toNat ++ cs.drop (pos.toNat + 1)).length]? = _
      simp only [List.length_append, htl, hdl]
      rw [hg1, if_neg (by omega), if_pos (by omega), ← ht]
      congr 1
      omega
    · show b.curLength - 1
        = ((cs.take pos.toNat ++ cs.drop (pos.toNat + 1)).length : Int)
      simp only [List.length_append, htl, hdl]
      omega

end R3CString

namespace R3CString

theorem compare_holds {b : R3CString} {cs : List Nat} (h : b.Holds cs) (t : List Nat) :
    b.compare (some t) = .ok (strcmp cs (chars t)) := by
  have hstr : storageStr b.str 0 = .ok cs := h.2.1
  simp only [compare, hstr, ok_bind, pure_eq_ok]

/-- C22.  For a buffer `a` that holds the string `cs` and strings `b`, `t`:
`a.append(b)` returns `strlen(b)`; afterwards `a` holds `cs` followed by the
characters of `b`, its length is the sum of the two lengths, and `compare(t)`
on it returns `strcmp` of that concatenation and `t`, which is also what
`compare(t)` returns on any other buffer that holds the concatenation. -/
theorem append_compare (a : R3CString) (cs : List Nat) (h : a.Holds cs) (b t : List Nat) :
    ∃ a1, a.append (some b) = .ok (strlen b, a1) ∧ a1.getChars = .ok (cs ++ chars b) ∧
      a1.getLength = a.getLength + strlen b ∧
      a1.compare (some t) = .ok (strcmp (cs ++ chars b) (chars t)) ∧
      ∀ c : R3CString, c.Holds (cs ++ chars b) → c.compare (some t) = a1.compare (some t) := by
  obtain ⟨a1, h1, h2⟩ := append_holds h b
  refine ⟨a1, h1, h2.2.1, ?_, compare_holds h2 t, ?_⟩
  · have := h2.2.2
    have hcur := h.2.2
    show a1.curLength = a.curLength + strlen b
    rw [this, hcur]
    simp [strlen]
  · intro c hc
    rw [compare_holds hc t, compare_holds h2 t]

/-- Instance of C22: the buffer built by `R3CString("a", 1)`, `append("bc")` and
`compare("abd")`. -/
theorem append_compare_witness :
    ∃ a1, (R3CString.mk [some 97, some 0] 1 1).append
          (some (bytes "bc")) = .ok (strlen (bytes "bc"), a1) ∧
      a1.getChars = .ok ([97] ++ chars (bytes "bc")) ∧
      a1.getLength
        = (R3CString.mk [some 97, some 0] 1 1).getLength
          + strlen (bytes "bc") ∧
      a1.compare (some (bytes "abd"))
        = .ok (strcmp ([97] ++ chars (bytes "bc")) (chars (bytes "abd"))) ∧
      ∀ c : R3CString, c.Holds ([97] ++ chars (bytes "bc")) →
        c.compare (some (bytes "abd")) = a1.compare (some (bytes "abd")) :=
  append_compare (R3CString.mk [some 97, some 0] 1 1) [97]
    ⟨by decide, by decide, by decide⟩ (bytes "bc") (bytes "abd")

/-- C23.  On the buffer built by `R3CString("ab", 8)`: `append("xyz", 5, 1)` and
`append("xyz", 4, 0)`, where `startPos` is greater than the length of the
source, do not return 0 with the buffer unchanged: `charCount` becomes
`3 - startPos`, a negative number, which is passed to `strncpy` as the number
of bytes to copy.  With `startPos` inside the source the call does what is
documented: `append("xyz", 1, 5)` appends `yz` and returns 2. -/
theorem appendSub_start_past_end :
    (do let b ← newFromCharsCapacity (some (bytes "ab")) 8
        b.appendSub (some (bytes "xyz")) 5 1) = .error .undefinedBehaviour ∧
    (do let b ← newFromCharsCapacity (some (bytes "ab")) 8
        b.appendSub (some (bytes "xyz")) 4 0) = .error .undefinedBehaviour ∧
    (do let b ← newFromCharsCapacity (some (bytes "ab")) 8
        let (n, b1) ← b.appendSub (some (bytes "xyz")) 1 5
        let cs ← b1.getChars
        pure (n, cs, b1.getLength)) = .ok (2, bytes "abyz", 4) := by
  refine ⟨by decide, by decide, by decide⟩

/-- C24.  For a buffer that holds the string `cs`: `insert(pos, s)` raises
`R3CERR_OUTOFRANGE` exactly when `pos < 0` or `pos > length`, for a string `s`
and for `NULL`; with `0 <= pos <= length` and a string `s` it returns
`strlen(s)`, and afterwards the buffer holds the first `pos` characters of `cs`,
the characters of `s` and the rest of `cs`, and its length has grown by
`strlen(s)`. -/
theorem insert_checks_pos (b : R3CString) (cs : List Nat) (h : b.Holds cs) (pos : Int)
    (s : List Nat) :
    (b.insert pos (some s) = .error .outOfRange ↔ (pos < 0 ∨ pos > b.getLength)) ∧
    (b.insert pos none = .error .outOfRange ↔ (pos < 0 ∨ pos > b.getLength)) ∧
    (0 ≤ pos → pos ≤ b.getLength →
      ∃ b1, b.insert pos (some s) = .ok (strlen s, b1) ∧
        b1.getChars = .ok (cs.take pos.toNat ++ chars s ++ cs.drop pos.toNat) ∧
        b1.getLength = b.getLength + strlen s) := by
  have hcur := h.2.2
  have hpos : 0 ≤ pos → pos ≤ b.getLength →
      ∃ b1, b.insert pos (some s) = .ok (strlen s, b1) ∧
        b1.getChars = .ok (cs.take pos.toNat ++ chars s ++ cs.drop pos.toNat) ∧
        b1.getLength = b.getLength + strlen s := by
    intro hp0 hp1
    obtain ⟨b1, h1, h2⟩ := insert_holds h pos hp0 hp1 s
    refine ⟨b1, h1, h2.2.1, ?_⟩
    have hl := h2.2.2
    show b1.curLength = b.curLength + strlen s
    have hp1' : pos ≤ b.curLength := hp1
    rw [hl, hcur]
    simp only [List.length_append, List.length_take, List.length_drop, strlen]
    omega
  refine ⟨?_, ?_, hpos⟩
  · constructor
    · intro he
      by_contra hn
      obtain ⟨b1, h1, _⟩ := hpos (by omega) (by omega)
      rw [h1] at he
      cases he
    · intro hc
      have hc' : pos < 0 ∨ pos > b.curLength := hc
      simp only [insert, hc', if_true]
  · constructor
    · intro he
      by_contra hn
      have hn' : ¬ (pos < 0 ∨ pos > b.curLength) := hn
      simp only [insert, hn', if_false, pure_eq_ok] at he
      cases he
    · intro hc
      have hc' : pos < 0 ∨ pos > b.curLength := hc
      simp only [insert, hc', if_true]

/-- Instance of C24: the buffer built by `R3CString("abc", 3)`, with `pos`
equal to the length, and `insert(3, "xy")`. -/
theorem insert_checks_pos_witness :
    ∃ b1, (R3CString.mk [some 97, some 98, some 99, some 0] 3 3).insert 3 (some (bytes "xy"))
          = .ok (strlen (bytes "xy"), b1) ∧
        b1.getChars = .ok ((bytes "abc").take (3 : Int).toNat ++ chars (bytes "xy")
          ++ (bytes "abc").drop (3 : Int).toNat) ∧
        b1.getLength = (R3CString.mk [some 97, some 98, some 99, some 0] 3 3).getLength
          + strlen (bytes "xy") :=
  (insert_checks_pos (R3CString.mk [some 97, some 98, some 99, some 0] 3 3)
    (bytes "abc") ⟨by decide, by decide, by decide⟩ 3 (bytes "xy")).2.2 (by decide) (by decide)

/-- C25.  For a buffer that holds the string `cs` and
`0 <= start < end < length`, `deleteChars(start, end)` returns `end - start`,
one less than the number of positions from `start` to `end` inclusive, and
afterwards the buffer holds `cs` without the characters at the positions
`start` to `end - 1`: the character at position `end` is kept. -/
theorem deleteChars_keeps_end (b : R3CString) (cs : List Nat) (h : b.Holds cs)
    (startPos endPos : Int) (hs0 : 0 ≤ startPos) (hse : startPos < endPos)
    (he : endPos < b.getLength) :
    ∃ b1, b.deleteChars startPos endPos = .ok (endPos - startPos, b1) ∧
      endPos - startPos ≠ endPos - startPos + 1 ∧
      b1.getChars = .ok (cs.take startPos.toNat ++ cs.drop endPos.toNat) ∧
      b1.getChars ≠ .ok (cs.take startPos.toNat ++ cs.drop (endPos.toNat + 1)) ∧
      b1.getLength = b.getLength - (endPos - startPos) := by
  have hcur := h.2.2
  have he' : endPos < b.curLength := he
  obtain ⟨b1, h1, h2, _⟩ := deleteChars_holds h startPos endPos hs0 hse (by omega)
  refine ⟨b1, h1, by omega, h2.2.1, ?_, ?_⟩
  · rw [h2.2.1]
    intro heq
    have := congrArg (fun r => match r with
      | Except.ok (l : List Nat) => l.length
      | Except.error _ => 0) heq
    simp only [List.length_append, List.length_take, List.length_drop] at this
    omega
  · have hl := h2.2.2
    show b1.curLength = b.curLength - (endPos - startPos)
    rw [hl, hcur]
    simp only [List.length_append, List.length_take, List.length_drop]
    omega

/-- Instance of C25: the buffer built by `R3CString("abcde", 5)` and
`deleteChars(1, 2)`, which returns 1 and leaves `acde`. -/
theorem deleteChars_keeps_end_witness :
    ((R3CString.mk [some 97, some 98, some 99, some 100, some 101, some 0] 5 5).deleteChars 1 2
      >>= fun r => r.2.getChars >>= fun cs => pure (r.1, cs)) = .ok (1, bytes "acde") ∧
    ∃ b1, (R3CString.mk [some 97, some 98, some 99, some 100, some 101, some 0] 5 5).deleteChars
          1 2 = .ok (2 - 1, b1) ∧
      (2 : Int) - 1 ≠ 2 - 1 + 1 ∧
      b1.getChars = .ok ((bytes "abcde").take (1 : Int).toNat
        ++ (bytes "abcde").drop (2 : Int).toNat) ∧
      b1.getChars ≠ .ok ((bytes "abcde").take (1 : Int).toNat
        ++ (bytes "abcde").drop ((2 : Int).toNat + 1)) ∧
      b1.getLength
        = (R3CString.mk [some 97, some 98, some 99, some 100, some 101, some 0] 5 5).getLength
          - (2 - 1) :=
  ⟨by decide,
   deleteChars_keeps_end
    (R3CString.mk [some 97, some 98, some 99, some 100, some 101, some 0] 5 5)
    (bytes "abcde") ⟨by decide, by decide, by decide⟩ 1 2 (by decide) (by decide) (by decide)⟩

/-- C26.  For a buffer that holds a string and whose length equals its
capacity, `deleteCharAt(pos)` with `0 <= pos < length` does not remove the
character: `memmove` is asked to copy `curLength - pos + 1` bytes from
`str + pos + 1`, and so reads `str[curLength + 1]`, one byte past the array of
`maxLength + 1` bytes. -/
theorem deleteCharAt_reads_past_array (b : R3CString) (cs : List Nat) (h : b.Holds cs)
    (hfull : b.getLength = b.getCapacity) (pos : Int) (hp0 : 0 ≤ pos)
    (hp1 : pos < b.getLength) :
    b.deleteCharAt pos = .error .undefinedBehaviour := by
  obtain ⟨hsize, _, _⟩ := h
  have hfull' : b.curLength = b.maxLength := hfull
  have hp1' : pos < b.curLength := hp1
  have hnot : ¬ (pos < 0 ∨ pos ≥ b.curLength) := by omega
  have hn : ¬ (b.curLength - pos + 1 < 0) := by omega
  have hb : ¬ (0 ≤ pos ∧ pos + (b.curLength - pos + 1) ≤ (b.str.length : Int) ∧
      0 ≤ pos + 1 ∧ pos + 1 + (b.curLength - pos + 1) ≤ (b.str.length : Int)) := by omega
  simp only [deleteCharAt, hnot, if_false, memmove, hn, hb, error_bind]

/-- Instance of C26: `R3CString("abc", 3)` builds a buffer of length 3 and
capacity 3 in an array of 4 bytes, and `deleteCharAt(0)` on it reads `str[4]`. -/
theorem deleteCharAt_reads_past_array_witness :
    newFromCharsCapacity (some (bytes "abc")) 3
      = .ok (R3CString.mk [some 97, some 98, some 99, some 0] 3 3) ∧
    (R3CString.mk [some 97, some 98, some 99, some 0] 3 3).deleteCharAt 0
      = .error .undefinedBehaviour :=
  ⟨by decide,
   deleteCharAt_reads_past_array
    (R3CString.mk [some 97, some 98, some 99, some 0] 3 3)
    (bytes "abc") ⟨by decide, by decide, by decide⟩ (by decide) 0 (by decide) (by decide)⟩

end R3CString

namespace R3CString

/-! ## `trimLeft` and the constructors -/

/-- The loop of `trimLeft` passes over cells that hold characters of
`trimChars` or a terminator. -/
theorem trimLeftLoop_pass (t : List Nat) (xs : List Nat) (rest : Storage) (k : Int)
    (h : ∀ x ∈ xs, x ∈ chars t ∨ x = 0) :
    trimLeftLoop t (xs.map some ++ rest) k = trimLeftLoop t rest (k + xs.length) := by
  induction xs generalizing k with
  | nil => simp
  | cons x xs ih =>
    have hx := h x (List.mem_cons_self _ _)
    simp only [List.map_cons, List.cons_append, trimLeftLoop, hx, if_true]
    show trimLeftLoop t (List.map some xs ++ rest) (k + 1) = _
    rw [ih (k + 1) (fun y hy => h y (List.mem_cons_of_mem _ hy))]
    congr 1
    simp only [List.length_cons, Nat.cast_add, Nat.cast_one]
    omega

/-- The loop of `trimLeft` ends, if it does, beyond where it started or where
it started. -/
theorem trimLeftLoop_result (t : List Nat) (m : Storage) (k : Int) :
    trimLeftLoop t m k = .error .undefinedBehaviour ∨
      ∃ r, k ≤ r ∧ trimLeftLoop t m k = .ok r := by
  induction m generalizing k with
  | nil => left; rfl
  | cons x m ih =>
    cases x with
    | none => left; rfl
    | some c =>
      by_cases hc : c ∈ chars t ∨ c = 0
      · simp only [trimLeftLoop, hc, if_true]
        rcases ih (k + 1) with he | ⟨r, hr, he⟩
        · left; exact he
        · right; exact ⟨r, by omega, he⟩
      · right
        refine ⟨k, le_refl _, ?_⟩
        simp only [trimLeftLoop, hc, if_false, pure_eq_ok]

/-- C27.  For a buffer that holds a string `cs` that is not empty and consists
only of characters of `trimChars`, `trimLeft(trimChars)` does not remove the
`length` characters and return `length`: the loop also passes the terminator of
the buffer, because `strchr` finds the terminator of `trimChars`.  The call
either reads a cell after the terminator that was never written or lies
outside the array, or asks `memmove` for a negative size, or returns
`length + 1` and leaves the length at `-1`. -/
theorem trimLeft_passes_terminator (b : R3CString) (cs : List Nat) (h : b.Holds cs)
    (hne : cs ≠ []) (t : List Nat) (hall : ∀ c ∈ cs, c ∈ chars t) :
    b.trimLeft (some t) = .error .undefinedBehaviour ∨
      ∃ b1, b.trimLeft (some t) = .ok (cs.length + 1, b1) ∧ b1.getLength = -1 := by
  obtain ⟨_, _, _, hle⟩ := holds_cells h
  obtain ⟨hsize, hstr, hcur⟩ := h
  have hstr' : storageStr b.str 0 = .ok cs := hstr
  unfold storageStr at hstr'
  simp only [lt_self_iff_false, if_false, Int.toNat_zero, List.drop_zero] at hstr'
  obtain ⟨_, rest, hm⟩ := cellsStr_ok hstr'
  have hlen0 : cs.length ≠ 0 := fun h0 => hne (List.length_eq_zero.mp h0)
  have hcur0 : ¬ b.curLength = 0 := by omega
  have hloop : trimLeftLoop t b.str 0 = trimLeftLoop t rest (cs.length + 1) := by
    have e : b.str = (cs ++ [0]).map some ++ rest := by rw [hm]; simp
    rw [e, trimLeftLoop_pass t (cs ++ [0]) rest 0]
    · simp
    · intro x hx
      simp only [List.mem_append, List.mem_singleton] at hx
      rcases hx with hx | hx
      · left; exact hall x hx
      · right; exact hx
  rcases trimLeftLoop_result t rest (cs.length + 1) with he | ⟨r, hr, he⟩
  · left
    simp only [trimLeft, hcur0, if_false, hloop, he, error_bind]
  · have hr0 : r > 0 := by omega
    by_cases hr1 : r = cs.length + 1
    · right
      subst hr1
      obtain ⟨m1, hmv⟩ : ∃ m1, memmove b.str 0 ((cs.length : Int) + 1)
          (b.curLength - (cs.length + 1) + 1) = .ok m1 :=
        ⟨_, memmove_eq (by omega) (by omega) (by omega) (by omega) (by omega)⟩
      refine ⟨{ b with str := m1, curLength := b.curLength - ((cs.length : Int) + 1) }, ?_, ?_⟩
      · simp only [trimLeft, hcur0, if_false, hloop, he, ok_bind, hr0, if_true, hmv,
          pure_eq_ok]
      · show b.curLength - ((cs.length : Int) + 1) = -1
        omega
    · left
      have hn : b.curLength - r + 1 < 0 := by omega
      simp only [trimLeft, hcur0, if_false, hloop, he, ok_bind, hr0, if_true, memmove, hn,
        error_bind]

/-- Instance of C27: `R3CString("  ", 2)` builds a buffer that holds two
spaces in an array of 3 bytes; `trimLeft(" ")` on it reads `str[3]`. -/
theorem trimLeft_passes_terminator_witness :
    newFromCharsCapacity (some (bytes "  ")) 2
      = .ok (R3CString.mk [some 32, some 32, some 0] 2 2) ∧
    (R3CString.mk [some 32, some 32, some 0] 2 2).trimLeft (some (bytes " "))
      = .error .undefinedBehaviour ∧
    ((R3CString.mk [some 32, some 32, some 0] 2 2).trimLeft (some (bytes " "))
        = .error .undefinedBehaviour ∨
      ∃ b1, (R3CString.mk [some 32, some 32, some 0] 2 2).trimLeft (some (bytes " "))
          = .ok (((bytes "  ").length : Int) + 1, b1) ∧ b1.getLength = -1) :=
  ⟨by decide, by decide,
   trimLeft_passes_terminator (R3CString.mk [some 32, some 32, some 0] 2 2) (bytes "  ")
    ⟨by decide, by decide, by decide⟩ (by decide) (bytes " ") (by decide)⟩

/-- C29.  `R3CString(sourceStr, capacity)` raises `R3CERR_ILLEGALARGUMENT`
exactly when `capacity < 0`.  With `capacity >= 0` it returns a buffer that
holds the source, whose capacity is the larger of `capacity` and the length of
the source: `R3CString("abc", 2)` returns a buffer of capacity 3 and
`R3CString("", 0)` one of capacity 0, where the documentation announces an
exception. -/
theorem newFromCharsCapacity_throws_iff (src : List Nat) (capacity : Int) :
    (newFromCharsCapacity (some src) capacity = .error .illegalArgument ↔ capacity < 0) ∧
    (0 ≤ capacity → ∃ b, newFromCharsCapacity (some src) capacity = .ok b ∧
      b.Holds (chars src) ∧ b.getCapacity = max capacity (strlen src)) ∧
    newFromCharsCapacity (some (bytes "abc")) 2
      = .ok (R3CString.mk [some 97, some 98, some 99, some 0] 3 3) ∧
    newFromCharsCapacity (some (bytes "")) 0 = .ok (R3CString.mk [some 0] 0 0) := by
  have hpos : 0 ≤ capacity → ∃ b, newFromCharsCapacity (some src) capacity = .ok b ∧
      b.Holds (chars src) ∧ b.getCapacity = max capacity (strlen src) := by
    intro hc
    have hn : ¬ capacity < 0 := by omega
    obtain ⟨M, hM⟩ : ∃ M, M = (if capacity < strlen src then strlen src else capacity) :=
      ⟨_, rfl⟩
    have hMmax : M = max capacity (strlen src) := by rw [hM]; split <;> omega
    have hlen : ((chars src).length : Int) ≤ M := by
      rw [hM]; unfold strlen; split <;> omega
    obtain ⟨str, hcpy, hget⟩ :=
      getChars_strcpy_alloc (R3CStringBlock.chars_no_zero src) hlen
    have hcpy' : strcpy (allocChars (M + 1)) 0 src = .ok str := by
      unfold strcpy at hcpy ⊢
      rw [R3CStringBlock.chars_chars] at hcpy
      exact hcpy
    have hslen : (str.length : Int) = M + 1 := by
      have := writeAt_length hcpy
      rw [this]
      have hM0 : 0 ≤ M := by omega
      simp [allocChars]
      omega
    refine ⟨{ str := str, curLength := strlen src, maxLength := M }, ?_,
      ⟨hslen, hget, rfl⟩, hMmax⟩
    simp only [newFromCharsCapacity, hn, if_false, ← hM, hcpy', ok_bind, pure_eq_ok]
  refine ⟨?_, hpos, by decide, by decide⟩
  constructor
  · intro he
    by_contra hn
    obtain ⟨b, hb, _⟩ := hpos (by omega)
    rw [hb] at he
    cases he
  · intro hc
    simp only [newFromCharsCapacity, hc, if_true]

/-- C30.  `R3CString(capacity)` with `capacity >= 0` returns an empty buffer
whose capacity is 127, whatever the value of `capacity`: the constructor does
not read its argument after the range check.  `R3CString(200)` has a capacity
of 127, less than 200. -/
theorem newCapacity_ignores_capacity (capacity : Int) (hc : 0 ≤ capacity) :
    ∃ b, newCapacity capacity = .ok b ∧ b.Holds [] ∧ b.getLength = 0 ∧
      b.getCapacity = 127 := by
  have hn : ¬ capacity < 0 := by omega
  obtain ⟨m1, hset, hl⟩ := @setCell_eq (allocChars (127 + 1)) 0 0 (le_refl _)
    (by simp [allocChars])
  refine ⟨{ str := m1, curLength := 0, maxLength := 127 }, ?_, ?_, rfl, rfl⟩
  · simp only [newCapacity, hn, if_false, hset, ok_bind, pure_eq_ok]
  · refine holds_of_cells ?_ (by simp) (fun j hj => by simp at hj) ?_ rfl
    · show (m1.length : Int) = 127 + 1
      rw [hl]
      simp [allocChars]
    · show m1[([] : List Nat).length]? = some (some 0)
      rw [setCell_getElem? hset]
      simp

/-- Instance of C30: `R3CString(200)`; the capacity 127 is less than 200. -/
theorem newCapacity_ignores_capacity_witness :
    ∃ b, newCapacity 200 = .ok b ∧ b.Holds [] ∧ b.getLength = 0 ∧ b.getCapacity = 127 ∧
      b.getCapacity < 200 := by
  obtain ⟨b, h1, h2, h3, h4⟩ := newCapacity_ignores_capacity 200 (by decide)
  exact ⟨b, h1, h2, h3, h4, by rw [h4]; decide⟩

end R3CString

/-! ## `r3cStrTrim` -/

/-- Removing the leading run and the trailing run in either order gives the
same list. -/
theorem dropWhile_rdropWhile_comm {α : Type} (p : α → Bool) (l : List α) :
    (l.rdropWhile p).dropWhile p = (l.dropWhile p).rdropWhile p := by
  induction l using List.reverseRecOn with
  | nil => simp
  | append_singleton l x ih =>
    by_cases hx : p x = true
    · rw [List.rdropWhile_concat_pos p l x hx, ih, List.dropWhile_append]
      by_cases he : (List.dropWhile p l).isEmpty = true
      · rw [if_pos he]
        have : List.dropWhile p l = [] := List.isEmpty_iff.mp he
        rw [this]
        simp [hx]
      · rw [if_neg he, List.rdropWhile_concat_pos p _ x hx]
    · rw [List.rdropWhile_concat_neg p l x hx, List.dropWhile_append]
      by_cases he : (List.dropWhile p l).isEmpty = true
      · rw [if_pos he]
        simp [hx, List.rdropWhile_singleton]
      · rw [if_neg he, List.rdropWhile_concat_neg p _ x hx]

/-- The backward loop of `r3cStrTrim`, started on character `k` of an array
that holds `cs`, ends on the last of the first `k + 1` characters that is not
in `trimChars`, or before the array. -/
theorem r3cStrTrimBackLoop_spec (t : List Nat) (m : Storage) (cs : List Nat) (h0 : 0 ∉ cs)
    (hc : ∀ j : Nat, j < cs.length → m[j]? = (cs[j]?).map some) (k : Nat)
    (hk : k < cs.length) :
    r3cStrTrimBackLoop t m k
      = .ok ((((cs.take (k + 1)).rdropWhile (fun c => decide (c ∈ chars t))).length : Int)
          - 1) := by
  induction k with
  | zero =>
    have hr : readCell m ((0 : Nat) : Int) = .ok cs[0] := by
      apply readCell_eq
      rw [hc 0 hk, List.getElem?_eq_getElem hk]
      rfl
    have hne : cs[0] ≠ 0 := fun h => h0 (h ▸ List.getElem_mem hk)
    have htk : cs.take (0 + 1) = [cs[0]] := by
      rw [List.take_succ, List.getElem?_eq_getElem hk]
      simp
    rw [htk, List.rdropWhile_singleton]
    simp only [Nat.cast_zero] at hr
    by_cases hp : cs[0] ∈ chars t
    · simp only [r3cStrTrimBackLoop, hr, ok_bind, hp, true_or, if_true, pure_eq_ok,
        decide_True]
      rfl
    · have hp' : ¬ (cs[0] ∈ chars t ∨ cs[0] = 0) := by
        intro h; rcases h with h | h
        · exact hp h
        · exact hne h
      simp only [r3cStrTrimBackLoop, hr, ok_bind, hp', if_false, pure_eq_ok]
      simp [hp]
  | succ k ih =>
    have hr : readCell m ((k + 1 : Nat) : Int) = .ok cs[k + 1] := by
      apply readCell_eq
      rw [hc (k + 1) hk, List.getElem?_eq_getElem hk]
      rfl
    have hne : cs[k + 1] ≠ 0 := fun h => h0 (h ▸ List.getElem_mem hk)
    have htk : cs.take (k + 1 + 1) = cs.take (k + 1) ++ [cs[k + 1]] := by
      rw [List.take_succ, List.getElem?_eq_getElem hk]
      rfl
    rw [htk]
    by_cases hp : cs[k + 1] ∈ chars t
    · rw [List.rdropWhile_concat_pos _ _ _ (by simpa using hp), ← ih (by omega)]
      simp only [r3cStrTrimBackLoop, hr, ok_bind, hp, true_or, if_true]
    · have hp' : ¬ (cs[k + 1] ∈ chars t ∨ cs[k + 1] = 0) := by
        intro h; rcases h with h | h
        · exact hp h
        · exact hne h
      rw [List.rdropWhile_concat_neg _ _ _ (by simpa using hp)]
      simp only [r3cStrTrimBackLoop, hr, ok_bind, hp', if_false, pure_eq_ok]
      congr 1
      simp only [List.length_append, List.length_take, List.length_singleton]
      omega

/-- The forward loop stops on the first cell that holds a character which is
neither in `trimChars` nor a terminator. -/
theorem trimLeftLoop_stop (t : List Nat) (xs : List Nat) (y : Nat) (rest : Storage) (k : Int)
    (h : ∀ x ∈ xs, x ∈ chars t ∨ x = 0) (hy : ¬ (y ∈ chars t ∨ y = 0)) :
    R3CString.trimLeftLoop t (xs.map some ++ some y :: rest) k = .ok (k + xs.length) := by
  rw [R3CString.trimLeftLoop_pass t xs _ k h]
  simp only [R3CString.trimLeftLoop, hy, if_false, pure_eq_ok]

/-- `r3cStrTrim` on an array that holds `cs`: the trailing run is cut off
first, then the leading run of what is left. -/
theorem r3cStrTrim_code_order (m : Storage) (cs t : List Nat) (h : storageStr m 0 = .ok cs) :
    ∃ m1, r3cStrTrim (some m) (some t)
        = .ok ((cs.length : Int)
            - (((cs.rdropWhile (fun c => decide (c ∈ chars t))).dropWhile
                (fun c => decide (c ∈ chars t))).length : Int), some m1) ∧
      storageStr m1 0 = .ok ((cs.rdropWhile (fun c => decide (c ∈ chars t))).dropWhile
                (fun c => decide (c ∈ chars t))) ∧
      m1.length = m.length := by
  obtain ⟨h0, hc, ht, hlt⟩ := cells_of_storageStr h
  by_cases hn : cs = []
  · subst hn
    exact ⟨m, by simp [r3cStrTrim, h], by simpa using h, rfl⟩
  · have hlen : 0 < cs.length := List.length_pos.mpr hn
    obtain ⟨cs1, hcs1⟩ : ∃ cs1, cs1 = cs.rdropWhile (fun c => decide (c ∈ chars t)) :=
      ⟨_, rfl⟩
    have hpre : cs1 <+: cs := by rw [hcs1]; exact List.rdropWhile_prefix _ _
    have hle : cs1.length ≤ cs.length := hpre.length_le
    have hback : r3cStrTrimBackLoop t m (cs.length - 1) = .ok ((cs1.length : Int) - 1) := by
      have := r3cStrTrimBackLoop_spec t m cs h0 hc (cs.length - 1) (by omega)
      rw [show cs.length - 1 + 1 = cs.length by omega, List.take_length] at this
      rw [this, hcs1]
    have hl0 : ¬ ((cs.length : Int) = 0) := by omega
    have htn : ((cs.length : Int) - 1).toNat = cs.length - 1 := by omega
    have h01 : 0 ∉ cs1 := fun hm => h0 (hpre.subset hm)
    have hc1 : ∀ j : Nat, j < cs1.length → cs1[j]? = cs[j]? := by
      intro j hj
      have := List.prefix_iff_eq_take.mp hpre
      rw [this, List.getElem?_take, if_pos hj]
    -- the array after the trailing run was cut off
    have hst : ∃ m1, ((if (cs1.length : Int) - 1 < (cs.length : Int) - 1 then do
            let m ← setCell m ((cs1.length : Int) - 1 + 1) 0
            pure (m, (cs.length : Int) - 1 - ((cs1.length : Int) - 1),
              (cs.length : Int) - ((cs.length : Int) - 1 - ((cs1.length : Int) - 1)))
          else pure (m, 0, (cs.length : Int))) : Except Fault (Storage × Int × Int))
          = .ok (m1, (cs.length : Int) - cs1.length, (cs1.length : Int)) ∧
        storageStr m1 0 = .ok cs1 ∧ m1.length = m.length := by
      by_cases hlt1 : (cs1.length : Int) - 1 < (cs.length : Int) - 1
      · obtain ⟨m1, hset, hl1⟩ := @setCell_eq m ((cs1.length : Int) - 1 + 1) 0 (by omega)
          (by omega)
        refine ⟨m1, ?_, ?_, hl1⟩
        · rw [if_pos hlt1]
          simp only [hset, ok_bind, pure_eq_ok]
          congr 3 <;> omega
        · have hg := setCell_getElem? hset
          apply storageStr_of_cells h01
          · intro j hj
            rw [hg j, if_neg (by omega), hc j (by omega), hc1 j hj]
          · rw [hg, if_pos (by omega)]
      · have heq : cs1.length = cs.length := by omega
        have hcs : cs1 = cs := by
          have := List.prefix_iff_eq_take.mp hpre
          rw [this, heq, List.take_length]
        refine ⟨m, ?_, by rw [hcs]; exact h, rfl⟩
        rw [if_neg hlt1, pure_eq_ok, heq]
        congr 3
        omega
    obtain ⟨m1, hst, hs1, hl1⟩ := hst
    obtain ⟨_, hcm1, htm1, _⟩ := cells_of_storageStr hs1
    rw [← hcs1]
    unfold r3cStrTrim
    simp only [h, ok_bind, hl0, if_false, htn, hback, hst]
    by_cases he1 : cs1 = []
    · subst he1
      have hr : readCell m1 0 = .ok 0 := by
        have := @readCell_eq m1 0 0 (by simpa using htm1)
        simpa using this
      refine ⟨m1, ?_, by simpa using hs1, hl1⟩
      simp [hr]
    · have hlen1 : 0 < cs1.length := List.length_pos.mpr he1
      have hne0 : cs1[0] ≠ 0 := fun h => h01 (h ▸ List.getElem_mem hlen1)
      have hr : readCell m1 0 = .ok cs1[0] := by
        have := @readCell_eq m1 0 cs1[0] (by
          rw [hcm1 0 hlen1, List.getElem?_eq_getElem hlen1]; rfl)
        simpa using this
      -- the rest after the leading run is not empty
      have hlast : ∀ hne : cs1 ≠ [], ¬ decide (cs1.getLast hne ∈ chars t) = true := by
        subst hcs1
        exact List.rdropWhile_last_not _ _
      have hcs2 : List.dropWhile (fun c => decide (c ∈ chars t)) cs1 ≠ [] := by
        intro hnil
        rw [List.dropWhile_eq_nil_iff] at hnil
        exact hlast he1 (hnil _ (List.getLast_mem he1))
      obtain ⟨y, ys, hys⟩ := List.exists_cons_of_ne_nil hcs2
      have hsplit := List.takeWhile_append_dropWhile (fun c => decide (c ∈ chars t)) cs1
      obtain ⟨tw, htw⟩ : ∃ tw, tw = List.takeWhile (fun c => decide (c ∈ chars t)) cs1 :=
        ⟨_, rfl⟩
      rw [← htw, hys] at hsplit
      have hy : ¬ (y ∈ chars t ∨ y = 0) := by
        have hny := List.head_dropWhile_not (fun c => decide (c ∈ chars t)) cs1 hcs2
        simp only [hys, List.head_cons, decide_eq_false_iff_not] at hny
        intro h
        rcases h with h | h
        · exact hny h
        · apply h01
          rw [← hsplit, ← h]
          simp
      have htwp : ∀ x ∈ tw, x ∈ chars t ∨ x = 0 := by
        intro x hx
        left
        rw [htw] at hx
        simpa using List.mem_takeWhile_imp hx
      have hloop : R3CString.trimLeftLoop t m1 0 = .ok (tw.length : Int) := by
        unfold storageStr at hs1
        simp only [lt_self_iff_false, if_false, Int.toNat_zero, List.drop_zero] at hs1
        obtain ⟨_, rest1, hm1⟩ := cellsStr_ok hs1
        have e : m1 = tw.map some ++ some y :: (ys.map some ++ some 0 :: rest1) := by
          rw [hm1, ← hsplit]
          simp
        rw [e, trimLeftLoop_stop t tw y _ 0 htwp hy]
        simp
      have hlsum : cs1.length = tw.length + (ys.length + 1) := by
        rw [← hsplit]
        simp
      simp only [hr, ne_eq, hne0, not_false_eq_true, if_true, hloop, ok_bind]
      rw [hys]
      by_cases hk : (tw.length : Int) > 0
      · obtain ⟨m2, hmv⟩ : ∃ m2, memmove m1 0 (tw.length : Int)
            ((cs1.length : Int) - (tw.length : Int) + 1) = .ok m2 :=
          ⟨_, memmove_eq (by omega) (by omega) (by omega) (by omega) (by omega)⟩
        obtain ⟨_, _, _, _, _, hl2, hg2⟩ := memmove_ok hmv
        refine ⟨m2, ?_, ?_, by rw [hl2, hl1]⟩
        · simp only [hk, if_true, hmv, ok_bind, pure_eq_ok]
          congr 2
          simp only [List.length_cons]
          omega
        · have hy0 : 0 ∉ y :: ys := by
            intro hm
            apply h01
            rw [← hsplit]
            exact List.mem_append_right _ hm
          apply storageStr_of_cells hy0
          · intro j hj
            simp only [List.length_cons] at hj
            rw [hg2 j, if_neg (by omega), if_pos (by omega), hcm1 _ (by omega)]
            congr 1
            rw [← hsplit, List.getElem?_append_right (by omega)]
            congr 1
            omega
          · simp only [List.length_cons]
            rw [hg2, if_neg (by omega), if_pos (by omega), ← htm1]
            congr 1
            omega
      · have htw0 : tw = [] := List.length_eq_zero.mp (by omega)
        rw [htw0, List.nil_append] at hsplit
        refine ⟨m1, ?_, by rw [hsplit]; exact hs1, hl1⟩
        simp only [hk, if_false, pure_eq_ok]
        rw [hsplit]

theorem trimmed_eq (t cs : List Nat) :
    trimmed t cs = (cs.rdropWhile (fun c => decide (c ∈ chars t))).dropWhile
      (fun c => decide (c ∈ chars t)) := by
  unfold trimmed
  rw [dropWhile_rdropWhile_comm]

theorem trimmed_idempotent (t cs : List Nat) : trimmed t (trimmed t cs) = trimmed t cs := by
  rw [trimmed_eq t (trimmed t cs)]
  unfold trimmed
  rw [List.rdropWhile_idempotent, ← dropWhile_rdropWhile_comm, dropWhile_rdropWhile_comm,
    ← dropWhile_rdropWhile_comm, List.dropWhile_idempotent, dropWhile_rdropWhile_comm]

/-- C28.  For an array that holds the string `cs` and a character string
`trimChars`, `r3cStrTrim` returns; the array then holds `cs` without its
longest leading run and its longest trailing run of characters of
`trimChars`, and the value returned is the length of `cs` minus the length of
what is left.  A second call on the result returns 0 and leaves the same
string. -/
theorem r3cStrTrim_trims (m : Storage) (cs t : List Nat) (h : storageStr m 0 = .ok cs) :
    ∃ m1, r3cStrTrim (some m) (some t)
        = .ok ((cs.length : Int) - ((trimmed t cs).length : Int), some m1) ∧
      storageStr m1 0 = .ok (trimmed t cs) ∧
      ∃ m2, r3cStrTrim (some m1) (some t) = .ok (0, some m2) ∧
        storageStr m2 0 = .ok (trimmed t cs) := by
  obtain ⟨m1, h1, h2, _⟩ := r3cStrTrim_code_order m cs t h
  rw [← trimmed_eq] at h1 h2
  obtain ⟨m2, h3, h4, _⟩ := r3cStrTrim_code_order m1 (trimmed t cs) t h2
  rw [← trimmed_eq, trimmed_idempotent] at h3 h4
  refine ⟨m1, h1, h2, m2, ?_, h4⟩
  rw [h3, sub_self]

/-- Instance of C28: the array that holds `"  hi  "` and `trimChars = " "`; the
call returns 4 and the array then holds `"hi"`. -/
theorem r3cStrTrim_trims_witness :
    r3cStrTrim (some ((bytes "  hi  ").map some ++ [some 0])) (some (bytes " "))
      = .ok (4, some ((bytes "hi").map some ++ [some 0, some 105, some 0, some 32, some 0])) ∧
    trimmed (bytes " ") (bytes "  hi  ") = bytes "hi" ∧
    ∃ m1, r3cStrTrim (some ((bytes "  hi  ").map some ++ [some 0])) (some (bytes " "))
        = .ok (((bytes "  hi  ").length : Int)
            - ((trimmed (bytes " ") (bytes "  hi  ")).length : Int), some m1) ∧
      storageStr m1 0 = .ok (trimmed (bytes " ") (bytes "  hi  ")) ∧
      ∃ m2, r3cStrTrim (some m1) (some (bytes " ")) = .ok (0, some m2) ∧
        storageStr m2 0 = .ok (trimmed (bytes " ") (bytes "  hi  ")) :=
  ⟨by decide, by decide,
   r3cStrTrim_trims ((bytes "  hi  ").map some ++ [some 0]) (bytes "  hi  ") (bytes " ")
    (by decide)⟩

namespace R3CStringBlock

theorem cursorInside_of_inv {b : R3CStringBlock} (hI : b.Inv) : b.CursorInside := by
  have hc0 := hI.hcur0
  obtain ⟨blk, h1, h2⟩ := hI.hblk b.currMemBlock.toNat (by omega)
  exact ⟨hI.hptr, hI.hcur0, hI.hu0, hI.hu, blk, h1, h2⟩

theorem writesInside_of_inv {b : R3CStringBlock} (hI : b.Inv) (call : AddCall) :
    b.WritesInside call := by
  obtain ⟨h, b1, hadd, hI1, _, _, _, _, hp⟩ := addCall_spec hI call
  refine ⟨h, b1, hadd, cursorInside_of_inv hI1, ?_⟩
  intro p hpe
  obtain ⟨s, hs, h0, _, _, hcur, hu, _⟩ := hp p hpe
  exact ⟨s, hs, hcur.symm, h0, hu.symm⟩

end R3CStringBlock

namespace R3CStringBlockStack

/-- C21.  In every state of an `R3CStringBlock` reachable from a constructor by
`addString`, and in every state of an `R3CStringBlockStack` reachable by
`addString`, `push` and `pop`: the cursor is at offset `bytesUsedInBlock` of
block `currMemBlock`, `0 <= bytesUsedInBlock < bytesPerBlock`, and every call
of `addString` returns with the bytes of a pooled request inside the block
that is then current, the cursor again strictly below the end of the block. -/
theorem cursor_stays_inside (b : R3CStringBlock) (s : R3CStringBlockStack)
    (hb : b.Reachable) (hs : s.Reachable) (call : AddCall) :
    b.CursorInside ∧ b.WritesInside call ∧
    s.toR3CStringBlock.CursorInside ∧ s.toR3CStringBlock.WritesInside call ∧
    ∃ h s1, s.addCall call = .ok (h, s1) ∧ s1.toR3CStringBlock.CursorInside := by
  have hIb := hb.inv.1
  have hIs := hs.stack_inv
  refine ⟨R3CStringBlock.cursorInside_of_inv hIb, R3CStringBlock.writesInside_of_inv hIb call,
    R3CStringBlock.cursorInside_of_inv hIs.hb, R3CStringBlock.writesInside_of_inv hIs.hb call,
    ?_⟩
  obtain ⟨h, b1, hadd, hc1, _⟩ := R3CStringBlock.writesInside_of_inv hIs.hb call
  refine ⟨h, { s with toR3CStringBlock := b1 }, ?_, hc1⟩
  simp only [addCall, hadd, ok_bind, pure_eq_ok]

/-- Instance of C21: the states built by `R3CStringBlock()` and
`R3CStringBlockStack()`, and the call `addString("hi")`. -/
theorem cursor_stays_inside_witness :
    R3CStringBlock.new.CursorInside ∧
    R3CStringBlock.new.WritesInside (.str (some (bytes "hi"))) ∧
    R3CStringBlockStack.new.toR3CStringBlock.CursorInside ∧
    R3CStringBlockStack.new.toR3CStringBlock.WritesInside (.str (some (bytes "hi"))) ∧
    ∃ h s1, R3CStringBlockStack.new.addCall (.str (some (bytes "hi"))) = .ok (h, s1) ∧
      s1.toR3CStringBlock.CursorInside :=
  cursor_stays_inside R3CStringBlock.new R3CStringBlockStack.new
    R3CStringBlock.Reachable.new Reachable.new (.str (some (bytes "hi")))

end R3CStringBlockStack

namespace R3CString

/-! ## The constructor from a string, `compare` with `NULL`, and calls in
sequence -/

/-- C31.  `R3CString(sourceStr)` with a string of length `L` returns a buffer
that holds the string, with length `L`; its capacity is 127 when `L < 127`, and
otherwise the least `c >= L` with `c + 1` divisible by 64; in both cases the
capacity is at least `L`. -/
theorem newFromChars_capacity (src : List Nat) :
    ∃ b, newFromChars (some src) = .ok b ∧ b.Holds (chars src) ∧
      b.getChars = .ok (chars src) ∧ b.getLength = strlen src ∧
      (strlen src < 127 → b.getCapacity = 127) ∧
      (127 ≤ strlen src → strlen src ≤ b.getCapacity ∧ (64 : Int) ∣ b.getCapacity + 1 ∧
        ∀ c : Int, strlen src ≤ c → (64 : Int) ∣ c + 1 → b.getCapacity ≤ c) ∧
      strlen src ≤ b.getCapacity := by
  have hL0 : 0 ≤ strlen src := by unfold strlen; omega
  obtain ⟨M, hM⟩ : ∃ M, M = initMaxLength (strlen src) := ⟨_, rfl⟩
  have htmod : Int.tmod (strlen src) 64 = strlen src % 64 :=
    Int.tmod_eq_emod hL0 (by decide)
  have hMval : M = if strlen src < 127 then 127
      else strlen src + (64 - strlen src % 64 - 1) := by
    rw [hM, initMaxLength, htmod]
  have hle : strlen src ≤ M := by
    rw [hMval]; split <;> omega
  obtain ⟨str, hcpy, hget⟩ :=
    getChars_strcpy_alloc (R3CStringBlock.chars_no_zero src) (show ((chars src).length : Int) ≤ M
      from hle)
  have hcpy' : strcpy (allocChars (M + 1)) 0 src = .ok str := by
    unfold strcpy at hcpy ⊢
    rw [R3CStringBlock.chars_chars] at hcpy
    exact hcpy
  have hslen : (str.length : Int) = M + 1 := by
    have := writeAt_length hcpy
    rw [this]
    simp [allocChars]
    omega
  refine ⟨R3CString.mk str (strlen src) M, ?_, ⟨hslen, hget, rfl⟩, hget, rfl, ?_, ?_, hle⟩
  · simp only [newFromChars, ← hM, hcpy', ok_bind, pure_eq_ok]
  · intro h
    show M = 127
    rw [hMval, if_pos h]
  · intro h
    have hn : ¬ strlen src < 127 := by omega
    have hMv : M = strlen src + (64 - strlen src % 64 - 1) := by rw [hMval, if_neg hn]
    refine ⟨hle, ?_, ?_⟩
    · show (64 : Int) ∣ M + 1
      rw [hMv]; omega
    · intro c hc hd
      show M ≤ c
      rw [hMv]; omega

theorem strcmp_nil_right (cs : List Nat) (h0 : 0 ∉ cs) :
    (cs = [] → strcmp cs [] = 0) ∧ (cs ≠ [] → 0 < strcmp cs []) := by
  cases cs with
  | nil => exact ⟨fun _ => rfl, fun h => absurd rfl h⟩
  | cons x xs =>
    refine ⟨fun h => (by cases h), fun _ => ?_⟩
    have hx : x ≠ 0 := fun h => h0 (h ▸ List.mem_cons_self _ _)
    show (0 : Int) < (x : Int)
    omega

/-- C32.  For a buffer that holds a string, `compare(NULL)` and `compare("")`
both return; the two results have the same sign: both are 0 when the buffer is
empty, both are positive when it is not. -/
theorem compare_null_as_empty (b : R3CString) (cs : List Nat) (h : b.Holds cs) :
    ∃ r1 r2, b.compare none = .ok r1 ∧ b.compare (some []) = .ok r2 ∧
      Int.sign r1 = Int.sign r2 ∧ (b.getLength = 0 → r1 = 0 ∧ r2 = 0) ∧
      (b.getLength ≠ 0 → 0 < r1 ∧ 0 < r2) := by
  obtain ⟨h0, _, _, _⟩ := holds_cells h
  have hcmp := compare_holds h []
  have hcur : b.curLength = cs.length := h.2.2
  obtain ⟨hnil, hpos⟩ := strcmp_nil_right cs h0
  have hch : chars ([] : List Nat) = [] := rfl
  rw [hch] at hcmp
  refine ⟨if b.curLength = 0 then 0 else 1, strcmp cs [], rfl, hcmp, ?_, ?_, ?_⟩
  · by_cases hz : b.curLength = 0
    · have : cs = [] := List.length_eq_zero.mp (by omega)
      rw [if_pos hz, hnil this]
    · have : cs ≠ [] := fun hc => hz (by rw [hcur, hc]; rfl)
      rw [if_neg hz, Int.sign_eq_one_of_pos (hpos this)]
      rfl
  · intro hz
    have hz' : b.curLength = 0 := hz
    have : cs = [] := List.length_eq_zero.mp (by omega)
    exact ⟨by rw [if_pos hz'], hnil this⟩
  · intro hz
    have hz' : ¬ b.curLength = 0 := hz
    have : cs ≠ [] := fun hc => hz' (by rw [hcur, hc]; rfl)
    exact ⟨by rw [if_neg hz']; decide, hpos this⟩

/-- Instance of C32: the buffer built by `R3CString("a", 1)`, where both calls
return a positive value, and the one built by `R3CString("", 1)`, where both
return 0. -/
theorem compare_null_as_empty_witness :
    (R3CString.mk [some 97, some 0] 1 1).compare none = .ok 1 ∧
    (R3CString.mk [some 97, some 0] 1 1).compare (some []) = .ok 97 ∧
    (R3CString.mk [some 0, none] 0 1).compare none = .ok 0 ∧
    (R3CString.mk [some 0, none] 0 1).compare (some []) = .ok 0 ∧
    ∃ r1 r2, (R3CString.mk [some 97, some 0] 1 1).compare none = .ok r1 ∧
      (R3CString.mk [some 97, some 0] 1 1).compare (some []) = .ok r2 ∧
      Int.sign r1 = Int.sign r2 ∧
      ((R3CString.mk [some 97, some 0] 1 1).getLength = 0 → r1 = 0 ∧ r2 = 0) ∧
      ((R3CString.mk [some 97, some 0] 1 1).getLength ≠ 0 → 0 < r1 ∧ 0 < r2) :=
  ⟨by decide, by decide, by decide, by decide,
   compare_null_as_empty (R3CString.mk [some 97, some 0] 1 1) [97]
    ⟨by decide, by decide, by decide⟩⟩

/-- C38.  For a buffer that holds the string `cs`, `0 <= pos <= length` and a
string `s` of length `n`: `insert(pos, s)` returns `n`, and `deleteChars(pos,
pos + n)` on the result returns `n` and leaves a buffer that holds `cs` again,
with the length it had before the two calls. -/
theorem insert_then_deleteChars (b : R3CString) (cs : List Nat) (h : b.Holds cs) (pos : Int)
    (hp0 : 0 ≤ pos) (hp1 : pos ≤ b.getLength) (s : List Nat) :
    ∃ b1 b2, b.insert pos (some s) = .ok (strlen s, b1) ∧
      b1.deleteChars pos (pos + strlen s) = .ok (strlen s, b2) ∧
      b2.getChars = .ok cs ∧ b2.getLength = b.getLength ∧ b2.Holds cs := by
  have hcur : b.curLength = cs.length := h.2.2
  have hp1' : pos ≤ b.curLength := hp1
  obtain ⟨b1, h1, hb1⟩ := insert_holds h pos hp0 hp1' s
  have hl1 : b1.curLength = b.curLength + strlen s := by
    rw [hb1.2.2, hcur]
    simp only [List.length_append, List.length_take, List.length_drop, strlen]
    omega
  have hn0 : 0 ≤ strlen s := by unfold strlen; omega
  by_cases hn : strlen s = 0
  · have hcs : chars s = [] := List.length_eq_zero.mp (by unfold strlen at hn; omega)
    have hb1' : b1.Holds cs := by
      have := hb1
      rw [hcs, List.append_nil, List.take_append_drop] at this
      exact this
    refine ⟨b1, b1, h1, ?_, hb1'.2.1, by show b1.curLength = b.curLength; omega, hb1'⟩
    rw [hn]
    have hnot : ¬ (pos < 0 ∨ pos + 0 > b1.curLength) := by omega
    have hle : pos + 0 ≤ pos := by omega
    simp only [deleteChars, hnot, if_false, hle, if_true, pure_eq_ok]
  · obtain ⟨b2, h2, hb2, _⟩ := deleteChars_holds hb1 pos (pos + strlen s) hp0 (by omega)
      (by omega)
    have hcs2 : (cs.take pos.toNat ++ chars s ++ cs.drop pos.toNat).take pos.toNat
        ++ (cs.take pos.toNat ++ chars s ++ cs.drop pos.toNat).drop (pos + strlen s).toNat
        = cs := by
      have htl : (cs.take pos.toNat).length = pos.toNat := by
        rw [List.length_take]; omega
      have e1 : (cs.take pos.toNat ++ chars s ++ cs.drop pos.toNat).take pos.toNat
          = cs.take pos.toNat := by
        rw [List.append_assoc, List.take_append_of_le_length (by omega),
          List.take_of_length_le (by omega)]
      have e2 : (cs.take pos.toNat ++ chars s ++ cs.drop pos.toNat).drop (pos + strlen s).toNat
          = cs.drop pos.toNat := by
        have hlen : (pos + strlen s).toNat = (cs.take pos.toNat ++ chars s).length := by
          rw [List.length_append, htl]
          unfold strlen
          omega
        rw [hlen, List.drop_left]
      rw [e1, e2, List.take_append_drop]
    rw [hcs2] at hb2
    refine ⟨b1, b2, h1, ?_, hb2.2.1, ?_, hb2⟩
    · rw [h2]
      congr 2
      omega
    · show b2.curLength = b.curLength
      rw [hb2.2.2, hcur]

/-- Instance of C38: the buffer built by `R3CString("abc", 3)`, `insert(1,
"xy")` and `deleteChars(1, 3)`. -/
theorem insert_then_deleteChars_witness :
    ∃ b1 b2, (R3CString.mk [some 97, some 98, some 99, some 0] 3 3).insert 1 (some (bytes "xy"))
        = .ok (strlen (bytes "xy"), b1) ∧
      b1.deleteChars 1 (1 + strlen (bytes "xy")) = .ok (strlen (bytes "xy"), b2) ∧
      b2.getChars = .ok (bytes "abc") ∧
      b2.getLength = (R3CString.mk [some 97, some 98, some 99, some 0] 3 3).getLength ∧
      b2.Holds (bytes "abc") :=
  insert_then_deleteChars (R3CString.mk [some 97, some 98, some 99, some 0] 3 3) (bytes "abc")
    ⟨by decide, by decide, by decide⟩ 1 (by decide) (by decide) (bytes "xy")

/-- C39.  For a buffer that holds a string, with `0 <= length <= capacity` and
an array of the cells `0..capacity`, and `0 <= pos < length`: the bytes that
`memmove` reads in `deleteCharAt(pos)` are `str[pos + 1]` to
`str[length + 1]`.  The call stays inside the array exactly when the length is
below the capacity; when the length equals the capacity the last byte read is
`str[capacity + 1]`, outside the array. -/
theorem deleteCharAt_inside_iff (b : R3CString) (cs : List Nat) (h : b.Holds cs) (pos : Int)
    (hp0 : 0 ≤ pos) (hp1 : pos < b.getLength) :
    0 ≤ b.getLength ∧ b.getLength ≤ b.getCapacity ∧
    (b.str.length : Int) = b.getCapacity + 1 ∧
    (b.getLength < b.getCapacity → ∃ b1, b.deleteCharAt pos = .ok (1, b1)) ∧
    (b.getLength = b.getCapacity →
      b.deleteCharAt pos = memmove b.str pos (pos + 1) (b.getLength - pos + 1) >>=
        (fun str => pure (1, { b with str := str, curLength := b.curLength - 1 })) ∧
      (pos + 1) + (b.getLength - pos + 1) - 1 = b.getCapacity + 1 ∧
      b.str[(b.getCapacity + 1).toNat]? = none ∧
      b.deleteCharAt pos = .error .undefinedBehaviour) := by
  obtain ⟨_, _, _, hle⟩ := holds_cells h
  have hsize : (b.str.length : Int) = b.maxLength + 1 := h.1
  have hcur : b.curLength = cs.length := h.2.2
  have hp1' : pos < b.curLength := hp1
  refine ⟨by show 0 ≤ b.curLength; omega, by show b.curLength ≤ b.maxLength; omega, hsize,
    ?_, ?_⟩
  · intro hroom
    obtain ⟨b1, h1, _⟩ := deleteCharAt_holds h pos hp0 hp1' hroom
    exact ⟨b1, h1⟩
  · intro hfull
    have hfull' : b.curLength = b.maxLength := hfull
    have hnot : ¬ (pos < 0 ∨ pos ≥ b.curLength) := by omega
    have hn : ¬ (b.curLength - pos + 1 < 0) := by omega
    have hb : ¬ (0 ≤ pos ∧ pos + (b.curLength - pos + 1) ≤ (b.str.length : Int) ∧
        0 ≤ pos + 1 ∧ pos + 1 + (b.curLength - pos + 1) ≤ (b.str.length : Int)) := by omega
    refine ⟨?_, ?_, ?_, ?_⟩
    · simp only [deleteCharAt, hnot, if_false, getLength]
    · show (pos + 1) + (b.curLength - pos + 1) - 1 = b.maxLength + 1
      omega
    · show b.str[(b.maxLength + 1).toNat]? = none
      rw [List.getElem?_eq_none]
      omega
    · simp only [deleteCharAt, hnot, if_false, memmove, hn, hb, error_bind]

/-- Instance of C39: the buffer built by `R3CString("abc", 3)`, of length 3
and capacity 3, and `deleteCharAt(0)`. -/
theorem deleteCharAt_inside_iff_witness :
    (R3CString.mk [some 97, some 98, some 99, some 0] 3 3).Holds (bytes "abc") ∧
    (R3CString.mk [some 97, some 98, some 99, some 0] 3 3).getLength
      = (R3CString.mk [some 97, some 98, some 99, some 0] 3 3).getCapacity ∧
    (R3CString.mk [some 97, some 98, some 99, some 0] 3 3).deleteCharAt 0
      = memmove (R3CString.mk [some 97, some 98, some 99, some 0] 3 3).str 0 (0 + 1)
          ((R3CString.mk [some 97, some 98, some 99, some 0] 3 3).getLength - 0 + 1) >>=
        (fun str => pure (1, R3CString.mk str (3 - 1) 3)) ∧
    (0 + 1) + ((R3CString.mk [some 97, some 98, some 99, some 0] 3 3).getLength - 0 + 1) - 1
      = (R3CString.mk [some 97, some 98, some 99, some 0] 3 3).getCapacity + 1 ∧
    (R3CString.mk [some 97, some 98, some 99, some 0] 3 3).str[
      ((R3CString.mk [some 97, some 98, some 99, some 0] 3 3).getCapacity + 1).toNat]? = none ∧
    (R3CString.mk [some 97, some 98, some 99, some 0] 3 3).deleteCharAt 0
      = .error .undefinedBehaviour :=
  ⟨⟨by decide, by decide, by decide⟩, by decide,
    (deleteCharAt_inside_iff (R3CString.mk [some 97, some 98, some 99, some 0] 3 3) (bytes "abc")
      ⟨by decide, by decide, by decide⟩ 0 (by decide) (by decide)).2.2.2.2 (by decide)⟩

end R3CString

/-! ## Reading character strings -/

/-- Reading inside a character string or at its terminator. -/
theorem cread_getD (a : List Nat) (k : Nat) (hk : k ≤ a.length) :
    cread a (k : Int) = .ok (a.getD k 0) := by
  unfold cread
  rw [if_neg (by omega)]
  by_cases h : (k : Int) < a.length
  · rw [if_pos h]
    simp
  · have hk2 : k = a.length := by omega
    rw [if_neg h, if_pos (by omega), hk2]
    simp

/-- In a string without `0` bytes only the terminator reads as `0`. -/
theorem getD_ne_zero {a : List Nat} (h0 : 0 ∉ a) {k : Nat} (hk : k < a.length) :
    a.getD k 0 ≠ 0 := by
  rw [List.getD_eq_getElem _ _ hk]
  intro h
  exact h0 (h ▸ List.getElem_mem hk)

theorem getD_eq_zero_iff {a : List Nat} (h0 : 0 ∉ a) {k : Nat} (hk : k ≤ a.length) :
    a.getD k 0 = 0 ↔ k = a.length := by
  constructor
  · intro h
    by_contra hne
    exact getD_ne_zero h0 (by omega) h
  · intro h
    rw [h]
    simp

/-- `strchr` does not find a character that the string does not hold. -/
theorem strchrLoop_absent (a : List Nat) (c : Nat) (h0 : 0 ∉ a) (hc : c ∉ a) (hc0 : c ≠ 0)
    (n k : Nat) (hk : k ≤ a.length) (hn : a.length - k + 1 ≤ n) :
    strchrLoop a c n (k : Int) = .ok none := by
  induction n generalizing k with
  | zero => omega
  | succ n ih =>
    unfold strchrLoop
    rw [cread_getD a k hk]
    simp only [ok_bind]
    by_cases hlt : k < a.length
    · have hx : a.getD k 0 ≠ c := by
        rw [List.getD_eq_getElem _ _ hlt]
        intro h
        exact hc (h ▸ List.getElem_mem hlt)
      rw [if_neg hx, if_neg (getD_ne_zero h0 hlt)]
      have := ih (k + 1) (by omega) (by omega)
      simpa using this
    · have hk2 : k = a.length := by omega
      have hz : a.getD k 0 = 0 := (getD_eq_zero_iff h0 hk).mpr hk2
      rw [hz, if_neg (fun h => hc0 h.symm), if_pos rfl]
      rfl

theorem strchr_absent (a : List Nat) (c : Nat) (h0 : 0 ∉ a) (hc : c ∉ a) (hc0 : c ≠ 0) :
    strchr a 0 c = .ok none := by
  have := strchrLoop_absent a c h0 hc hc0 (a.length + 1) 0 (by omega) (by omega)
  simpa [strchr] using this

theorem strlenLoop_eq (a : List Nat) (h0 : 0 ∉ a) (n k : Nat) (acc : Int)
    (hk : k ≤ a.length) (hn : a.length - k + 1 ≤ n) :
    strlenLoop a n (k : Int) acc = .ok (acc + ((a.length - k : Nat) : Int)) := by
  induction n generalizing k acc with
  | zero => omega
  | succ n ih =>
    unfold strlenLoop
    rw [cread_getD a k hk]
    simp only [ok_bind]
    by_cases hlt : k < a.length
    · rw [if_neg (getD_ne_zero h0 hlt)]
      have := ih (k + 1) (acc + 1) (by omega) (by omega)
      simp only [Nat.cast_add, Nat.cast_one] at this
      rw [this]
      congr 1
      omega
    · have hk2 : k = a.length := by omega
      rw [if_pos ((getD_eq_zero_iff h0 hk).mpr hk2), hk2]
      simp

theorem strlenAt_eq (a : List Nat) (h0 : 0 ∉ a) : strlenAt a 0 = .ok (a.length : Int) := by
  have := strlenLoop_eq a h0 (a.length + 1) 0 0 (by omega) (by omega)
  simpa [strlenAt] using this

/-! ## `r3cQmarkMatch` and patterns without a star -/

/-- The loop of `r3cQmarkMatch` on strings without `0` bytes returns, and it
returns true exactly when both strings have `n` more characters and each of
these pattern characters is `?` or the character of `str` at its place. -/
theorem r3cQmarkMatchLoop_spec (a b : List Nat) (h0a : 0 ∉ a) (h0b : 0 ∉ b) (n i j : Nat)
    (hi : i ≤ a.length) (hj : j ≤ b.length) :
    ∃ r, r3cQmarkMatchLoop a b n (i : Int) (j : Int) = .ok r ∧
      (r = true ↔ (i + n ≤ a.length ∧ j + n ≤ b.length ∧
        ∀ k : Nat, k < n → b[j + k]? = some 63 ∨ b[j + k]? = a[i + k]?)) := by
  induction n generalizing i j with
  | zero =>
    refine ⟨true, rfl, ?_⟩
    simp
    omega
  | succ n ih =>
    unfold r3cQmarkMatchLoop
    rw [cread_getD b j hj, cread_getD a i hi]
    simp only [ok_bind]
    by_cases hz : b.getD j 0 = 0 ∨ a.getD i 0 = 0
    · rw [if_pos hz]
      refine ⟨false, rfl, ?_⟩
      have : j = b.length ∨ i = a.length := by
        rcases hz with h | h
        · left; exact (getD_eq_zero_iff h0b hj).mp h
        · right; exact (getD_eq_zero_iff h0a hi).mp h
      constructor
      · intro h; cases h
      · intro ⟨h1, h2, _⟩
        omega
    · rw [if_neg hz]
      have hjl : j < b.length := by
        by_contra hn
        exact hz (Or.inl ((getD_eq_zero_iff h0b hj).mpr (by omega)))
      have hil : i < a.length := by
        by_contra hn
        exact hz (Or.inr ((getD_eq_zero_iff h0a hi).mpr (by omega)))
      have hbj : b[j]? = some (b.getD j 0) := by
        rw [List.getD_eq_getElem _ _ hjl, List.getElem?_eq_getElem hjl]
      have hai : a[i]? = some (a.getD i 0) := by
        rw [List.getD_eq_getElem _ _ hil, List.getElem?_eq_getElem hil]
      by_cases hm : b.getD j 0 ≠ 63 ∧ b.getD j 0 ≠ a.getD i 0
      · rw [if_pos hm]
        refine ⟨false, rfl, ?_⟩
        constructor
        · intro h; cases h
        · intro ⟨_, _, h3⟩
          have := h3 0 (by omega)
          simp only [Nat.add_zero, hbj, hai, Option.some.injEq] at this
          rcases this with h | h
          · exact absurd h hm.1
          · exact absurd h hm.2
      · rw [if_neg hm]
        obtain ⟨r, hr, hiff⟩ := ih (i + 1) (j + 1) (by omega) (by omega)
        refine ⟨r, by simpa using hr, ?_⟩
        rw [hiff]
        constructor
        · intro ⟨h1, h2, h3⟩
          refine ⟨by omega, by omega, ?_⟩
          intro k hk
          cases k with
          | zero =>
            simp only [Nat.add_zero, hbj, hai, Option.some.injEq]
            by_contra hc
            simp only [not_or] at hc
            exact hm hc
          | succ k =>
            have := h3 k (by omega)
            rw [show j + (k + 1) = j + 1 + k by omega, show i + (k + 1) = i + 1 + k by omega]
            exact this
        · intro ⟨h1, h2, h3⟩
          refine ⟨by omega, by omega, ?_⟩
          intro k hk
          have := h3 (k + 1) (by omega)
          rw [show j + (k + 1) = j + 1 + k by omega, show i + (k + 1) = i + 1 + k by omega]
            at this
          exact this

/-- `r3cQmarkMatch(str, pattern, charCount)` from the start of both strings. -/
theorem r3cQmarkMatch_spec (a b : List Nat) (h0a : 0 ∉ a) (h0b : 0 ∉ b) (charCount : Int)
    (hc : 0 ≤ charCount) :
    ∃ r, r3cQmarkMatch a 0 b 0 charCount = .ok r ∧
      (r = true ↔ (charCount ≤ a.length ∧ charCount ≤ b.length ∧
        ∀ i : Nat, (i : Int) < charCount → b[i]? = some 63 ∨ b[i]? = a[i]?)) := by
  obtain ⟨r, hr, hiff⟩ := r3cQmarkMatchLoop_spec a b h0a h0b charCount.toNat 0 0
    (by omega) (by omega)
  refine ⟨r, by simpa [r3cQmarkMatch] using hr, ?_⟩
  rw [hiff]
  constructor
  · intro ⟨h1, h2, h3⟩
    refine ⟨by omega, by omega, ?_⟩
    intro i hi
    have := h3 i (by omega)
    simpa using this
  · intro ⟨h1, h2, h3⟩
    refine ⟨by omega, by omega, ?_⟩
    intro k hk
    have := h3 k (by omega)
    simpa using this

/-- C40.  For strings `str` and `pattern` and `charCount >= 0`,
`r3cQmarkMatch(str, pattern, charCount)` returns, and it returns true exactly
when both strings have at least `charCount` characters and, for every
`i < charCount`, `pattern[i]` is `?` or equals `str[i]`; with `charCount = 0`
it returns true. -/
theorem r3cQmarkMatch_iff (str pattern : List Nat) (hs : 0 ∉ str) (hp : 0 ∉ pattern)
    (charCount : Int) (hc : 0 ≤ charCount) :
    (∃ r, r3cQmarkMatch str 0 pattern 0 charCount = .ok r ∧
      (r = true ↔ (charCount ≤ str.length ∧ charCount ≤ pattern.length ∧
        ∀ i : Nat, (i : Int) < charCount →
          pattern[i]? = some 63 ∨ pattern[i]? = str[i]?))) ∧
    r3cQmarkMatch str 0 pattern 0 0 = .ok true :=
  ⟨r3cQmarkMatch_spec str pattern hs hp charCount hc, rfl⟩

/-- Instance of C40: `r3cQmarkMatch("abc", "a?cd", 3)` returns true, and
`r3cQmarkMatch("abc", "a?cd", 4)` returns false. -/
theorem r3cQmarkMatch_iff_witness :
    r3cQmarkMatch (bytes "abc") 0 (bytes "a?cd") 0 3 = .ok true ∧
    r3cQmarkMatch (bytes "abc") 0 (bytes "a?cd") 0 4 = .ok false ∧
    (∃ r, r3cQmarkMatch (bytes "abc") 0 (bytes "a?cd") 0 3 = .ok r ∧
      (r = true ↔ ((3 : Int) ≤ (bytes "abc").length ∧ (3 : Int) ≤ (bytes "a?cd").length ∧
        ∀ i : Nat, (i : Int) < 3 →
          (bytes "a?cd")[i]? = some 63 ∨ (bytes "a?cd")[i]? = (bytes "abc")[i]?))) ∧
    r3cQmarkMatch (bytes "abc") 0 (bytes "a?cd") 0 0 = .ok true :=
  ⟨by decide, by decide,
   r3cQmarkMatch_iff (bytes "abc") (bytes "a?cd") (by decide) (by decide) 3 (by decide)⟩

/-- `r3cPathMatch` with a pattern without a star is one call of
`r3cQmarkMatch` over the length of the subject. -/
theorem r3cPathMatch_nostar (delta : Int) (s p : List Nat) (hs : 0 ∉ s) (hp : 0 ∉ p)
    (hstar : 42 ∉ p) :
    r3cPathMatch delta s p = r3cQmarkMatch s 0 p 0 (s.length : Int) := by
  unfold r3cPathMatch
  have h1 : r3cPathMatchLoop delta s p (p.length + 2) 0 0 none
      = (r3cQmarkMatch s 0 p 0 (s.length : Int) >>= fun r => pure (some r)) := by
    show r3cPathMatchLoop delta s p (p.length + 1 + 1) 0 0 none = _
    unfold r3cPathMatchLoop
    simp only [strchr_absent p 42 hp hstar (by decide), ok_bind, strlenAt_eq s hs]
  rw [h1]
  cases r3cQmarkMatch s 0 p 0 (s.length : Int) with
  | error e => rfl
  | ok r => rfl

/-- C37.  For a subject `s` and a pattern `p` without a star, `r3cPathMatch(s,
p)` returns, and it returns true exactly when `s` is not longer than `p` and,
for every `i` below the length of `s`, `p[i]` is `?` or equals `s[i]`.  The
result depends on the first `length(s)` characters of the pattern only. -/
theorem r3cPathMatch_nostar_iff (delta : Int) (s p : List Nat) (hs : 0 ∉ s) (hp : 0 ∉ p)
    (hstar : 42 ∉ p) :
    (∃ r, r3cPathMatch delta s p = .ok r ∧
      (r = true ↔ (s.length ≤ p.length ∧
        ∀ i : Nat, i < s.length → p[i]? = some 63 ∨ p[i]? = s[i]?))) ∧
    ∀ q : List Nat, 0 ∉ q → 42 ∉ q → q.take s.length = p.take s.length →
      r3cPathMatch delta s q = r3cPathMatch delta s p := by
  have key : ∀ p : List Nat, 0 ∉ p → 42 ∉ p →
      ∃ r, r3cPathMatch delta s p = .ok r ∧
        (r = true ↔ (s.length ≤ p.length ∧
          ∀ i : Nat, i < s.length → p[i]? = some 63 ∨ p[i]? = s[i]?)) := by
    intro p hp hstar
    obtain ⟨r, hr, hiff⟩ := r3cQmarkMatch_spec s p hs hp (s.length : Int) (by omega)
    refine ⟨r, by rw [r3cPathMatch_nostar delta s p hs hp hstar, hr], ?_⟩
    rw [hiff]
    constructor
    · intro ⟨_, h2, h3⟩
      exact ⟨by omega, fun i hi => h3 i (by omega)⟩
    · intro ⟨h2, h3⟩
      exact ⟨le_refl _, by omega, fun i hi => h3 i (by omega)⟩
  refine ⟨key p hp hstar, ?_⟩
  intro q hq hqstar htake
  obtain ⟨r1, hr1, hiff1⟩ := key q hq hqstar
  obtain ⟨r2, hr2, hiff2⟩ := key p hp hstar
  rw [hr1, hr2]
  have hlen : s.length ≤ q.length ↔ s.length ≤ p.length := by
    have := congrArg List.length htake
    simp only [List.length_take] at this
    omega
  have hget : ∀ i : Nat, i < s.length → q[i]? = p[i]? := by
    intro i hi
    have := congrArg (fun l => l[i]?) htake
    simpa [List.getElem?_take, hi] using this
  have : (r1 = true ↔ r2 = true) := by
    rw [hiff1, hiff2, hlen]
    constructor
    · intro ⟨h1, h2⟩
      exact ⟨h1, fun i hi => by rw [← hget i hi]; exact h2 i hi⟩
    · intro ⟨h1, h2⟩
      exact ⟨h1, fun i hi => by rw [hget i hi]; exact h2 i hi⟩
  congr 1
  cases r1 <;> cases r2 <;> simp_all

/-- Instance of C37: `r3cPathMatch("ac", "a?c")` returns true, the subject
being shorter than the pattern. -/
theorem r3cPathMatch_nostar_iff_witness :
    r3cPathMatch 0 (bytes "ac") (bytes "a?c") = .ok true ∧
    r3cPathMatch 0 (bytes "abc") (bytes "a?") = .ok false ∧
    ∃ r, r3cPathMatch 0 (bytes "ac") (bytes "a?c") = .ok r ∧
      (r = true ↔ ((bytes "ac").length ≤ (bytes "a?c").length ∧
        ∀ i : Nat, i < (bytes "ac").length →
          (bytes "a?c")[i]? = some 63 ∨ (bytes "a?c")[i]? = (bytes "ac")[i]?)) :=
  ⟨by decide, by decide,
   (r3cPathMatch_nostar_iff 0 (bytes "ac") (bytes "a?c") (by decide) (by decide)
    (by decide)).1⟩

/-! ## `r3cStrPassChar` without a count -/

theorem r3cStrPassChar2Loop_spec (a : List Nat) (c : Nat) (n i : Nat) (hi : i ≤ a.length)
    (hn : a.length - i + 1 ≤ n) :
    r3cStrPassChar2Loop a c n (i : Int) (a.getD i 0)
      = .ok ((i : Int)
          + (((a.drop i).takeWhile (fun x => decide (x ≠ c ∧ x ≠ 0))).length : Int)) := by
  induction n generalizing i with
  | zero => omega
  | succ n ih =>
    unfold r3cStrPassChar2Loop
    by_cases hcond : a.getD i 0 ≠ c ∧ a.getD i 0 ≠ 0
    · rw [if_pos hcond]
      have hlt : i < a.length := by
        by_contra hn2
        have : i = a.length := by omega
        apply hcond.2
        rw [this]
        simp
      have hrd := cread_getD a (i + 1) (by omega)
      simp only [Nat.cast_add, Nat.cast_one] at hrd
      rw [hrd]
      simp only [ok_bind]
      have := ih (i + 1) (by omega) (by omega)
      simp only [Nat.cast_add, Nat.cast_one] at this
      rw [this, List.drop_eq_getElem_cons hlt]
      have hg : a[i] = a.getD i 0 := (List.getD_eq_getElem _ _ hlt).symm
      rw [List.takeWhile_cons_of_pos (by rw [hg]; simpa using hcond)]
      simp only [List.length_cons, Nat.cast_add, Nat.cast_one]
      congr 1
      omega
    · rw [if_neg hcond]
      by_cases hlt : i < a.length
      · rw [List.drop_eq_getElem_cons hlt]
        have hg : a[i] = a.getD i 0 := (List.getD_eq_getElem _ _ hlt).symm
        rw [List.takeWhile_cons_of_neg (by rw [hg]; simpa using hcond)]
        simp
      · rw [List.drop_eq_nil_of_le (by omega)]
        simp

/-- C33.  `r3cStrPassChar(target, c)` returns the position of the first
character of `target` that equals `c`, or of the terminator when there is
none: it passes over the characters that differ from `c`, not over the leading
run of `c`.  `r3cStrPassChar("aab", 'a')` returns position 0, not 2, and
`r3cStrPassChar("bba", 'a')` returns position 2, not 0. -/
theorem r3cStrPassChar2_stops_on_passChar (target : List Nat) (c : Nat) :
    r3cStrPassChar2 target 0 c
      = .ok (((target.takeWhile (fun x => decide (x ≠ c ∧ x ≠ 0))).length : Nat) : Int) ∧
    r3cStrPassChar2 (bytes "aab") 0 97 = .ok 0 ∧
    r3cStrPassChar2 (bytes "bba") 0 97 = .ok 2 := by
  refine ⟨?_, by decide, by decide⟩
  unfold r3cStrPassChar2
  have hrd := cread_getD target 0 (by omega)
  simp only [Nat.cast_zero] at hrd
  rw [hrd]
  simp only [ok_bind]
  have := r3cStrPassChar2Loop_spec target c (target.length + 1) 0 (by omega) (by omega)
  simpa using this

namespace R3CStringBlockStack

/-! ## Strings added before a `push` -/

/-- C36.  From every reachable state of the arena with stack levels: when a
call of `addString` with the string `str` has returned the pointer `p` into the
pool, then `push`, any sequence of `addString` calls and the matching `pop` all
return; afterwards every byte of the region reserved at `p` is unchanged and
`str` is still read at `p`, and no byte before the position that `push`
recorded has changed. -/
theorem pop_keeps_earlier_strings (s : R3CStringBlockStack) (hr : s.Reachable)
    (call : AddCall) (str : List Nat) (harg : call.arg = some str) (p : PoolPtr)
    (s0 : R3CStringBlockStack) (hadd : s.addCall call = .ok (.pool p, s0))
    (calls : List AddCall) :
    ∃ s1 hs s2 s3, s0.push = .ok (s0.stackLevel + 1, s1) ∧
      s1.addCalls calls = .ok (hs, s2) ∧ s2.pop = .ok (s0.stackLevel, s3) ∧
      s0.toR3CStringBlock.readStr (.pool p) = .ok (chars str) ∧
      s3.toR3CStringBlock.readStr (.pool p) = .ok (chars str) ∧
      (∀ j : Nat, (j : Int) < call.charsToAlloc str →
        s3.toR3CStringBlock.cellAt p.block.toNat (p.offset.toNat + j)
          = s0.toR3CStringBlock.cellAt p.block.toNat (p.offset.toNat + j)) ∧
      ∀ i j : Nat, R3CStringBlock.Before s0.toR3CStringBlock i j →
        s3.toR3CStringBlock.cellAt i j = s0.toR3CStringBlock.cellAt i j := by
  have hI := hr.stack_inv
  have hI0 := addCall_inv hI call hadd
  have hpool : call.charsToAlloc str ≤ s.bytesPerBlock / 2 := by
    by_contra hn
    obtain ⟨a, ha, _⟩ := R3CStringBlock.addCall_alone_spec s.toR3CStringBlock call str harg
      (by omega)
    simp only [addCall, ha, ok_bind, pure_eq_ok, Except.ok.injEq, Prod.mk.injEq] at hadd
    cases hadd.1
  obtain ⟨p', b1, h1, hIb1, _, _, hfit, hadv, hcur, hu, hrd⟩ :=
    R3CStringBlock.addCall_pool_spec hI.hb call str harg hpool
  simp only [addCall, h1, ok_bind, pure_eq_ok, Except.ok.injEq, Prod.mk.injEq,
    StrPtr.pool.injEq] at hadd
  obtain ⟨hpp, hs0⟩ := hadd
  subst hpp
  have hb0 : s0.toR3CStringBlock = b1 := by rw [← hs0]
  have hp0 : 0 ≤ p'.offset ∧ 0 ≤ p'.block := by
    have := hI.hb.hu0
    have := hI.hb.hcur0
    by_cases h : s.bytesUsedInBlock + call.charsToAlloc str < s.bytesPerBlock
    · rw [hfit h]; exact ⟨by assumption, by assumption⟩
    · rw [hadv (by omega)]; exact ⟨le_refl _, by show 0 ≤ s.currMemBlock + 1; omega⟩
  obtain ⟨s1, hs, s2, s3, hpush, _, hcalls, hpop, _, _, _, _, _, hle, _, hcells, _⟩ :=
    push_add_pop hI0 calls
  have hc0 := hI0.hb.hcur0
  have hframe : ∀ i j : Nat, R3CStringBlock.Before s0.toR3CStringBlock i j →
      s3.toR3CStringBlock.cellAt i j = s0.toR3CStringBlock.cellAt i j := by
    intro i j hbf
    have hbf' : (i : Int) < s0.currMemBlock ∨
        ((i : Int) = s0.currMemBlock ∧ (j : Int) < s0.bytesUsedInBlock) := hbf
    rw [hcells i j (by omega), if_pos hbf']
  have hregion : ∀ j : Nat, (j : Int) < call.charsToAlloc str →
      s3.toR3CStringBlock.cellAt p'.block.toNat (p'.offset.toNat + j)
        = s0.toR3CStringBlock.cellAt p'.block.toNat (p'.offset.toNat + j) := by
    intro j hj
    apply hframe
    have e1 : s0.currMemBlock = p'.block := by
      show s0.toR3CStringBlock.currMemBlock = _
      rw [hb0]; exact hcur
    have e2 : s0.bytesUsedInBlock = p'.offset + call.charsToAlloc str := by
      show s0.toR3CStringBlock.bytesUsedInBlock = _
      rw [hb0]; exact hu
    show (_ : Int) < s0.currMemBlock ∨ _
    right
    omega
  have hrd0 : s0.toR3CStringBlock.readStr (.pool p') = .ok (chars str) := by
    rw [hb0]; exact hrd
  refine ⟨s1, hs, s2, s3, hpush, hcalls, hpop, hrd0, ?_, hregion, hframe⟩
  refine R3CStringBlock.readStr_pool_congr hp0.1 hrd0 ?_
  intro j hj
  apply hregion
  have := R3CStringBlock.charsToAlloc_ge call str
  have : strlen str = ((chars str).length : Int) := rfl
  omega

/-- Instance of C36: in the arena built by `R3CStringBlockStack()`,
`addString("x")`, then `push`, `addString("yz")`, `addString("w", 5)` and
`pop`. -/
theorem pop_keeps_earlier_strings_witness :
    ∃ p s0, R3CStringBlockStack.new.addCall (.str (some (bytes "x"))) = .ok (.pool p, s0) ∧
      ∃ s1 hs s2 s3, s0.push = .ok (s0.stackLevel + 1, s1) ∧
        s1.addCalls [.str (some (bytes "yz")), .strMax (some (bytes "w")) 5] = .ok (hs, s2) ∧
        s2.pop = .ok (s0.stackLevel, s3) ∧
        s0.toR3CStringBlock.readStr (.pool p) = .ok (chars (bytes "x")) ∧
        s3.toR3CStringBlock.readStr (.pool p) = .ok (chars (bytes "x")) ∧
        (∀ j : Nat, (j : Int) < (AddCall.str (some (bytes "x"))).charsToAlloc (bytes "x") →
          s3.toR3CStringBlock.cellAt p.block.toNat (p.offset.toNat + j)
            = s0.toR3CStringBlock.cellAt p.block.toNat (p.offset.toNat + j)) ∧
        ∀ i j : Nat, R3CStringBlock.Before s0.toR3CStringBlock i j →
          s3.toR3CStringBlock.cellAt i j = s0.toR3CStringBlock.cellAt i j := by
  obtain ⟨p, b1, h1, _⟩ := R3CStringBlock.addCall_pool_spec stack_new_inv.hb
    (.str (some (bytes "x"))) (bytes "x") rfl (by decide)
  have hadd : R3CStringBlockStack.new.addCall (.str (some (bytes "x")))
      = .ok (.pool p, { R3CStringBlockStack.new with toR3CStringBlock := b1 }) := by
    simp only [addCall, h1, ok_bind, pure_eq_ok]
  exact ⟨p, _, hadd,
    pop_keeps_earlier_strings R3CStringBlockStack.new Reachable.new (.str (some (bytes "x")))
      (bytes "x") rfl p _ hadd _⟩

end R3CStringBlockStack

/-! ## The format parser on an entry with a precision -/

namespace R3CFormatParser

/-- C34.  On the format string `%.2f`, `passPrecision` called at the dot
returns the position of the dot: after `result++` it assigns
`passNumber(strPtr)`, which starts at the dot and passes nothing.
`passConversion` therefore stops on the dot, at position 1, not on the type
character `f` at position 3, and `parse` yields two pieces, both literal: `%.`
and `2f`.  The entries `%f` and `%5d`, without a precision, give one piece of
floating-point and of integer type. -/
theorem parse_precision_stops_on_dot :
    passPrecision (bytes "%.2f") 1 = .ok 1 ∧
    passConversion (bytes "%.2f") 0 = .ok 1 ∧
    (R3CFormatParser.new.parse (some (bytes "%.2f"))).map
        (fun p => (p.getPieceCount, p.piecesList))
      = .ok (2, [some ⟨0, 2, .literal⟩, some ⟨2, 2, .literal⟩]) ∧
    (R3CFormatParser.new.parse (some (bytes "%.2f")) >>= fun p => p.getPieceType 0)
      = .ok .literal ∧
    (R3CFormatParser.new.parse (some (bytes "%f"))).map
        (fun p => (p.getPieceCount, p.piecesList))
      = .ok (1, [some ⟨0, 2, .float⟩]) ∧
    (R3CFormatParser.new.parse (some (bytes "%5d"))).map
        (fun p => (p.getPieceCount, p.piecesList))
      = .ok (1, [some ⟨0, 3, .int⟩]) := by
  refine ⟨by decide, by decide, by decide, by decide, by decide, by decide⟩

end R3CFormatParser

/-! ## `readLine` -/

namespace R3CString

/-- `append(c)` with a character that is not the terminator, on a buffer that
holds `cs`, returns 1 and a buffer that holds `cs` followed by `c`. -/
theorem appendChar_holds {b : R3CString} {cs : List Nat} (h : b.Holds cs) (c : Nat)
    (hc : c ≠ 0) :
    ∃ b1, b.appendChar c = .ok (1, b1) ∧ b1.Holds (cs ++ [c]) := by
  have hcur := h.2.2
  obtain ⟨r, hens, hr, hcap, _⟩ := ensureCapacity_holds h (b.curLength + 1)
  obtain ⟨h0, hcells, ht, _⟩ := holds_cells hr
  obtain ⟨hsize, _, hrcur⟩ := hr
  obtain ⟨m1, hs1, hl1⟩ := @setCell_eq r.str r.curLength c (by omega) (by omega)
  obtain ⟨m2, hs2, hl2⟩ := @setCell_eq m1 (r.curLength + 1) 0 (by omega) (by omega)
  have hg1 := setCell_getElem? hs1
  have hg2 := setCell_getElem? hs2
  refine ⟨{ r with str := m2, curLength := r.curLength + 1 }, ?_, ?_⟩
  · simp only [appendChar, hc, if_false, hens, ok_bind, hs1, hs2, pure_eq_ok]
  · refine holds_of_cells ?_ ?_ ?_ ?_ ?_
    · show (m2.length : Int) = r.maxLength + 1
      rw [hl2, hl1, hsize]
    · simp only [List.mem_append, List.mem_singleton, not_or]
      exact ⟨h0, fun h => hc h.symm⟩
    · intro j hj
      show m2[j]? = _
      simp only [List.length_append, List.length_singleton] at hj
      rw [hg2 j, if_neg (by omega), hg1 j]
      by_cases c1 : j < cs.length
      · rw [if_neg (by omega), hcells j c1, List.getElem?_append_left c1]
      · have hj2 : j = cs.length := by omega
        rw [if_pos (by omega), hj2, List.getElem?_append_right (le_refl _)]
        simp
    · show m2[(cs ++ [c]).length]? = _
      simp only [List.length_append, List.length_singleton]
      rw [hg2, if_pos (by simp; omega)]
    · show r.curLength + 1 = ((cs ++ [c]).length : Int)
      simp only [List.length_append, List.length_singleton, Nat.cast_add, Nat.cast_one]
      omega

end R3CString

namespace R3CTextInputFile

/-- The loop of `readLine` after the first character of a line: the characters
up to the next newline character are appended and counted. -/
theorem readLineLoop_line (stream : List Nat) (b : R3CString) (cs : List Nat)
    (h : b.Holds cs) (n : Int) (hn : 1 ≤ n) :
    ∃ b1, readLineLoop stream b n true
        = .ok (n + ((stream.takeWhile (fun c => !endsLine c)).length : Int),
            (stream.dropWhile (fun c => !endsLine c)).tail, b1) ∧
      b1.Holds (cs ++ stream.takeWhile (fun c => !endsLine c)) := by
  induction stream generalizing b cs n with
  | nil =>
    refine ⟨b, ?_, by simpa using h⟩
    have hn0 : ¬ n = 0 := by omega
    simp [readLineLoop, hn0]
  | cons c rest ih =>
    by_cases hsep : endsLine c = true
    · have hneg : ¬ ((!endsLine c) = true) := by simp [hsep]
      refine ⟨b, ?_, ?_⟩
      · rw [List.takeWhile_cons_of_neg (p := fun c => !endsLine c) hneg,
          List.dropWhile_cons_of_neg (p := fun c => !endsLine c) hneg]
        simp [readLineLoop, hsep]
      · rw [List.takeWhile_cons_of_neg (p := fun c => !endsLine c) hneg]
        simpa using h
    · have hpos : (!endsLine c) = true := by simp [hsep]
      have hc0 : c ≠ 0 := by
        intro h0
        apply hsep
        rw [h0]
        rfl
      obtain ⟨b', hap, hb'⟩ := R3CString.appendChar_holds h c hc0
      obtain ⟨b1, hloop, hb1⟩ := ih b' (cs ++ [c]) hb' (n + 1) (by omega)
      rw [List.takeWhile_cons_of_pos (p := fun c => !endsLine c) hpos,
        List.dropWhile_cons_of_pos (p := fun c => !endsLine c) hpos]
      refine ⟨b1, ?_, ?_⟩
      · simp only [readLineLoop, hsep, Bool.false_eq_true, if_false, hap, ok_bind, hloop]
        simp only [List.length_cons, Nat.cast_add, Nat.cast_one]
        congr 2
        omega
      · simpa using hb1

/-- The loop of `readLine` from its start: leading newline characters are
passed, then the next line is appended to the buffer and counted. -/
theorem readLineLoop_skip (stream : List Nat) (b : R3CString) (cs : List Nat)
    (h : b.Holds cs) :
    ∃ rest b1, readLineLoop stream b 0 false
        = .ok (if nextLine stream = [] then EOF else ((nextLine stream).length : Int),
            rest, b1) ∧
      b1.Holds (cs ++ nextLine stream) := by
  induction stream with
  | nil =>
    refine ⟨[], b, ?_, by simpa [nextLine] using h⟩
    simp [readLineLoop, nextLine]
  | cons c rest ih =>
    by_cases hsep : endsLine c = true
    · obtain ⟨rest1, b1, hloop, hb1⟩ := ih
      have hnl : nextLine (c :: rest) = nextLine rest := by
        unfold nextLine
        rw [List.dropWhile_cons_of_pos hsep]
      refine ⟨rest1, b1, ?_, by rw [hnl]; exact hb1⟩
      rw [hnl]
      simp only [readLineLoop, hsep, if_true, Bool.false_eq_true, if_false]
      exact hloop
    · have hpos : (!endsLine c) = true := by simp [hsep]
      have hc0 : c ≠ 0 := by
        intro h0
        apply hsep
        rw [h0]
        rfl
      obtain ⟨b', hap, hb'⟩ := R3CString.appendChar_holds h c hc0
      obtain ⟨b1, hloop, hb1⟩ := readLineLoop_line rest b' (cs ++ [c]) hb' 1 (le_refl _)
      have hnl : nextLine (c :: rest) = c :: rest.takeWhile (fun c => !endsLine c) := by
        unfold nextLine
        rw [List.dropWhile_cons_of_neg hsep,
          List.takeWhile_cons_of_pos (p := fun c => !endsLine c) hpos]
      refine ⟨(rest.dropWhile (fun c => !endsLine c)).tail, b1, ?_, ?_⟩
      · simp only [readLineLoop, hsep, Bool.false_eq_true, if_false, hap, ok_bind, zero_add,
          hloop]
        rw [hnl]
        simp only [List.length_cons, Nat.cast_add, Nat.cast_one, reduceCtorEq, if_false]
        congr 2
        omega
      · rw [hnl]
        simpa using hb1

/-- What `readLine` does.  For a buffer that holds `cs` and an open file,
`readLine` returns without clearing the buffer; the buffer then holds `cs`
followed by the characters of the next line of the stream, and its length has
grown by their number.  The value returned is that number, or `EOF` when the
stream has no further line; it is the new length of the buffer when the buffer
was empty before the call. -/
theorem readLine_appends_line (b : R3CString) (cs : List Nat) (h : b.Holds cs)
    (stream : List Nat) :
    ∃ rest b1, (R3CTextInputFile.mk (some stream)).readLine (some b)
        = .ok (if nextLine stream = [] then EOF else ((nextLine stream).length : Int),
            R3CTextInputFile.mk (some rest), b1) ∧
      b1.getChars = .ok (cs ++ nextLine stream) ∧
      b1.getLength = b.getLength + ((nextLine stream).length : Int) ∧
      (cs = [] → nextLine stream ≠ [] →
        b1.getChars = .ok (nextLine stream) ∧
        b1.getLength = ((nextLine stream).length : Int)) := by
  obtain ⟨rest, b1, hloop, hb1⟩ := readLineLoop_skip stream b cs h
  have hcur : b.curLength = cs.length := h.2.2
  have hl1 : b1.curLength = b.curLength + ((nextLine stream).length : Int) := by
    rw [hb1.2.2, hcur]
    simp
  refine ⟨rest, b1, ?_, hb1.2.1, hl1, ?_⟩
  · simp only [readLine, hloop, ok_bind, pure_eq_ok]
  · intro hcs _
    subst hcs
    refine ⟨by simpa using hb1.2.1, ?_⟩
    show b1.curLength = _
    rw [hl1, hcur]
    simp

/-- Instance of `readLine_appends_line`: the buffer that holds `ab` and the
stream `\ncd\nef`; the line `cd` is appended. -/
theorem readLine_appends_line_witness :
    nextLine (bytes "\ncd\nef") = bytes "cd" ∧
    ∃ rest b1, (R3CTextInputFile.mk (some (bytes "\ncd\nef"))).readLine
          (some (R3CString.mk [some 97, some 98, some 0, none, none] 2 4))
        = .ok (if nextLine (bytes "\ncd\nef") = [] then EOF
            else ((nextLine (bytes "\ncd\nef")).length : Int),
            R3CTextInputFile.mk (some rest), b1) ∧
      b1.getChars = .ok (bytes "ab" ++ nextLine (bytes "\ncd\nef")) ∧
      b1.getLength = (R3CString.mk [some 97, some 98, some 0, none, none] 2 4).getLength
        + ((nextLine (bytes "\ncd\nef")).length : Int) ∧
      (bytes "ab" = [] → nextLine (bytes "\ncd\nef") ≠ [] →
        b1.getChars = .ok (nextLine (bytes "\ncd\nef")) ∧
        b1.getLength = ((nextLine (bytes "\ncd\nef")).length : Int)) :=
  ⟨by decide,
   readLine_appends_line (R3CString.mk [some 97, some 98, some 0, none, none] 2 4) (bytes "ab")
    ⟨by decide, by decide, by decide⟩ (bytes "\ncd\nef")⟩

/-- C35.  `readLine` does not clear the buffer before it appends.  On the
buffer that holds `ab` and the stream `\ncd\nef`, `readLine` returns 2 and
leaves the buffer holding `abcd`, of length 4: the buffer does not hold exactly
the line `cd`, and the result is not its new length. -/
theorem readLine_keeps_prior_content :
    (do let (n, _, b1) ← (R3CTextInputFile.mk (some (bytes "\ncd\nef"))).readLine
              (some (R3CString.mk [some 97, some 98, some 0, none, none] 2 4))
        let cs ← b1.getChars
        pure (n, cs, b1.getLength)) = .ok (2, bytes "abcd", 4) ∧
    (R3CString.mk [some 97, some 98, some 0, none, none] 2 4).getChars = .ok (bytes "ab") := by
  refine ⟨by decide, by decide⟩

end R3CTextInputFile

end R3C
